import Mathlib

/-!
# Symmetric 3x3 eigen-decomposition (`pca3/eig3/eig3.cpp`)

A shallow embedding of `tred2`, `tql2` and `eigen_decomposition`.  The C code
works on `double` buffers; the embedding is generic over a linearly ordered
field `α` and a square-root function `sqrt : α → α`, so the same definitions
run on `ℚ` (with an executable square root) and are reasoned about on `ℝ`
with `Real.sqrt` ("exact real arithmetic").

Buffers (`double V[9]`, `double d[3]`, `double e[3]`) are functions
`Nat → α` indexed by the flat C index; a write `a[i] = v` is `store a i v`.
Counted `for` loops are `forUp` / `forDown`; the unbounded `do … while` of
the QL iteration takes a fuel argument and returns `none` when it runs out.

The statements proved over `ℝ` (or over any ordered field) describe the code in
exact arithmetic.  Where a statement of that kind is not true of the `double`
program itself, the same routines are evaluated on a model of IEEE 754 binary64
(`Dbl`, with rounding, overflow to infinity, underflow, signed zeros and NaN):
the routines `tred2D`, `tql2D`, `eigen_decompositionD` are the routines above
with the `double` operations, and the runs at the end of the file show what they
return on finite symmetric matrices with very large or very small entries.
-/

namespace Eig3

variable {α : Type} [LinearOrderedField α]

/-- The macro `_N` (line 18). -/
def N : Nat := 3

/-- The macro `IND3X3(x,y) ((y)*_N+(x))` (line 20). -/
def IND3X3 (x y : Nat) : Nat := y * N + x

/-- The macro `MAX(a, b) ((a)>(b)?(a):(b))` (line 15). -/
def MAX (a b : α) : α := if a > b then a else b

/-- The macro `HYPOT2(x,y) sqrt((x)*(x)+(y)*(y))` (line 16). -/
def HYPOT2 (sqrt : α → α) (x y : α) : α := sqrt (x * x + y * y)

/-- The array write `a[i] = v`. -/
def store {β : Type} (a : Nat → β) (i : Nat) (v : β) : Nat → β :=
  fun j => if j = i then v else a j

/-- The loop `for (k = lo; k < hi; k++) s = body k s`. -/
def forUp {σ : Type} (lo hi : Nat) (body : Nat → σ → σ) (s : σ) : σ :=
  (List.range' lo (hi - lo)).foldl (fun s k => body k s) s

/-- The loop `for (k = hi; k >= lo; k--) s = body k s` run on `k = hi, …, lo`
(no iteration when `hi < lo`). -/
def forDown {σ : Type} (hi lo : Nat) (body : Nat → σ → σ) (s : σ) : σ :=
  (List.range' lo (hi + 1 - lo)).foldr (fun k s => body k s) s

/-! ## The sort stage of `tql2` (lines 238-258) -/

/-- The inner scan `for (j = i+1; j < _N; j++) if (d[j] < p) { k = j; p = d[j]; }`
started from `k = i`, `p = d[i]`; returns `(k, p)`. -/
def sortScan (d : Nat → α) (i : Nat) : Nat × α :=
  forUp (i + 1) N (fun j kp => if d j < kp.2 then (j, d j) else kp) (i, d i)

/-- The column swap `for (j = 0; j < _N; j++) { p = V[IND3X3(j,i)];
V[IND3X3(j,i)] = V[IND3X3(j,k)]; V[IND3X3(j,k)] = p; }`. -/
def sortSwapCols (V : Nat → α) (i k : Nat) : Nat → α :=
  forUp 0 N (fun j V =>
    let p := V (IND3X3 j i)
    let V := store V (IND3X3 j i) (V (IND3X3 j k))
    store V (IND3X3 j k) p) V

/-- One pass `i` of the selection sort on the pair `(V, d)`. -/
def sortPass (i : Nat) (Vd : (Nat → α) × (Nat → α)) : (Nat → α) × (Nat → α) :=
  let V := Vd.1
  let d := Vd.2
  let kp := sortScan d i
  let k := kp.1
  let p := kp.2
  if k ≠ i then
    let d := store d k (d i)
    let d := store d i p
    (sortSwapCols V i k, d)
  else (V, d)

/-- The sort stage: `for (i = 0; i < _N-1; i++) …`; returns `(V, d)`. -/
def sortEig (V d : Nat → α) : (Nat → α) × (Nat → α) :=
  forUp 0 (N - 1) sortPass (V, d)

/-- The transposition of `i` and `k` on indices. -/
def swapIdx (i k : Nat) : Nat → Nat := fun j => if j = i then k else if j = k then i else j

/-- The index bookkeeping of the sort stage: the swap of pass 0 followed by the
swap of pass 1, so that position `j` of the sorted output holds the eigenpair
that was at index `sortPerm d j`. -/
def sortPerm (d : Nat → α) : Nat → Nat :=
  fun j => swapIdx 0 (sortScan d 0).1 (swapIdx 1 (sortScan (sortPass 0 (d, d)).2 1).1 j)

/-- A map of `{0,1,2}` to itself that is one-to-one. -/
def IsPerm3 (σ : Nat → Nat) : Prop :=
  (∀ i, i < 3 → σ i < 3) ∧ ∀ i j, i < 3 → j < 3 → σ i = σ j → i = j

/-- The sorted pair `(V', d')` is the pair `(V, d)` with eigenpairs permuted by
`σ`: `d'[i] = d[σ i]`, column `i` of `V'` is column `σ i` of `V`, and nothing
outside the two buffers' ranges changes. -/
def Tracks (σ : Nat → Nat) (V d V' d' : Nat → α) : Prop :=
  (∀ i, i < 3 → d' i = d (σ i)) ∧
  (∀ r i, r < 3 → i < 3 → V' (IND3X3 r i) = V (IND3X3 r (σ i))) ∧
  (∀ j, 3 ≤ j → d' j = d j) ∧
  (∀ j, 9 ≤ j → V' j = V j)

/-! ## `tred2` (lines 23-138) -/

/-- The three buffers `V`, `d`, `e` the routines work on. -/
structure Bufs (α : Type) where
  V : Nat → α
  d : Nat → α
  e : Nat → α

/-- Lines 32-34: `for (j = 0; j < _N; j++) d[j] = V[IND3X3(_N-1,j)];`. -/
def tred2Init (s : Bufs α) : Bufs α :=
  forUp 0 N (fun j s => { s with d := store s.d j (s.V (IND3X3 (N - 1) j)) }) s

/-- Lines 42-46: `scale = 0.0; for (k = 0; k < i; k++) scale = scale + fabs(d[k]);`. -/
def tred2Scale (d : Nat → α) (i : Nat) : α :=
  forUp 0 i (fun k scale => scale + |d k|) 0

/-- Lines 48-53, the zero-scale branch for row `i` (`h` stays `0.0`). -/
def tred2Zero (i : Nat) (s : Bufs α) : Bufs α :=
  let s := { s with e := store s.e i (s.d (i - 1)) }
  forUp 0 i (fun j s =>
    let d := store s.d j (s.V (IND3X3 (i - 1) j))
    let V := store s.V (IND3X3 i j) 0
    let V := store V (IND3X3 j i) 0
    { s with V := V, d := d }) s

/-- Lines 58-61: `for (k = 0; k < i; k++) { d[k] /= scale; h += d[k] * d[k]; }`
from `h = 0.0`; returns `(d, h)`. -/
def tred2Normalize (d : Nat → α) (i : Nat) (scale : α) : (Nat → α) × α :=
  forUp 0 i (fun k dh =>
    let d := store dh.1 k (dh.1 k / scale)
    (d, dh.2 + d k * d k)) (d, 0)

/-- Lines 76-85: apply the similarity transformation to the remaining columns;
works on `(V, e)` with `d` fixed. -/
def tred2Apply (i : Nat) (d : Nat → α) (V e : Nat → α) : (Nat → α) × (Nat → α) :=
  forUp 0 i (fun j Ve =>
    let f := d j
    let V := store Ve.1 (IND3X3 j i) f
    let g := Ve.2 j + V (IND3X3 j j) * f
    let ge := forUp (j + 1) (i - 1 + 1) (fun k ge =>
      (ge.1 + V (IND3X3 k j) * d k, store ge.2 k (ge.2 k + V (IND3X3 k j) * f)))
      (g, Ve.2)
    (V, store ge.2 j ge.1)) (V, e)

/-- Lines 86-90: `f = 0.0; for (j = 0; j < i; j++) { e[j] /= h; f += e[j] * d[j]; }`;
returns `(e, f)`. -/
def tred2Scale2 (i : Nat) (d e : Nat → α) (h : α) : (Nat → α) × α :=
  forUp 0 i (fun j ef =>
    let e := store ef.1 j (ef.1 j / h)
    (e, ef.2 + e j * d j)) (e, 0)

/-- Lines 95-103: the rank-two update of `V` and the reload of `d`. -/
def tred2Update (i : Nat) (s : Bufs α) : Bufs α :=
  forUp 0 i (fun j s =>
    let f := s.d j
    let g := s.e j
    let V := forUp j (i - 1 + 1) (fun k V =>
      store V (IND3X3 k j) (V (IND3X3 k j) - (f * s.e k + g * s.d k))) s.V
    let d := store s.d j (V (IND3X3 (i - 1) j))
    let V := store V (IND3X3 i j) 0
    { s with V := V, d := d }) s

/-- Lines 56-103, the Householder branch for row `i`; returns the buffers and
the final value of the local `h`. -/
def tred2House (sqrt : α → α) (i : Nat) (scale : α) (s : Bufs α) : Bufs α × α :=
  let dh := tred2Normalize s.d i scale
  let d := dh.1
  let h := dh.2
  let f := d (i - 1)
  let g := sqrt h
  let g := if f > 0 then -g else g
  let e := store s.e i (scale * g)
  let h := h - f * g
  let d := store d (i - 1) (f - g)
  let e := forUp 0 i (fun j e => store e j 0) e
  let Ve := tred2Apply i d s.V e
  let V := Ve.1
  let e := Ve.2
  let ef := tred2Scale2 i d e h
  let e := ef.1
  let f := ef.2
  let hh := f / (h + h)
  let e := forUp 0 i (fun j e => store e j (e j - hh * d j)) e
  (tred2Update i { V := V, d := d, e := e }, h)

/-- Lines 38-106, the body of the reduction loop for row `i`. -/
def tred2Row (sqrt : α → α) (i : Nat) (s : Bufs α) : Bufs α :=
  let scale := tred2Scale s.d i
  let sh := if scale = 0 then (tred2Zero i s, 0) else tred2House sqrt i scale s
  { sh.1 with d := store sh.1.d i sh.2 }

/-- Lines 110-131, the body of the accumulation loop for index `i`. -/
def tred2Accum (i : Nat) (s : Bufs α) : Bufs α :=
  let V := store s.V (IND3X3 (N - 1) i) (s.V (IND3X3 i i))
  let V := store V (IND3X3 i i) 1
  let h := s.d (i + 1)
  let s := { s with V := V }
  let s :=
    if h ≠ 0 then
      let d := forUp 0 (i + 1) (fun k d => store d k (s.V (IND3X3 k (i + 1)) / h)) s.d
      let V := forUp 0 (i + 1) (fun j V =>
        let g := forUp 0 (i + 1) (fun k g => g + V (IND3X3 k (i + 1)) * V (IND3X3 k j)) 0
        forUp 0 (i + 1) (fun k V => store V (IND3X3 k j) (V (IND3X3 k j) - g * d k)) V) s.V
      { s with V := V, d := d }
    else s
  { s with V := forUp 0 (i + 1) (fun k V => store V (IND3X3 k (i + 1)) 0) s.V }

/-- Lines 132-137: reload `d` from the last row of `V`, reset that row and `e[0]`. -/
def tred2Final (s : Bufs α) : Bufs α :=
  let s := forUp 0 N (fun j s =>
    let d := store s.d j (s.V (IND3X3 (N - 1) j))
    { s with V := store s.V (IND3X3 (N - 1) j) 0, d := d }) s
  { s with V := store s.V (IND3X3 (N - 1) (N - 1)) 1, e := store s.e 0 0 }

/-- The function `tred2`: symmetric Householder reduction to tridiagonal form. -/
def tred2 (sqrt : α → α) (s : Bufs α) : Bufs α :=
  let s := tred2Init s
  let s := forDown (N - 1) 1 (tred2Row sqrt) s
  let s := forUp 0 (N - 1) tred2Accum s
  tred2Final s

/-! ## `tql2` (lines 141-259) -/

/-- The state of the QL stage: the buffers and the locals `f`, `tst1` that live
across the outer loop. -/
structure QL (α : Type) where
  V : Nat → α
  d : Nat → α
  e : Nat → α
  f : α
  tst1 : α

/-- Line 157: `eps = pow(2.0,-52.0)`. -/
def eps : α := 1 / 2 ^ 52

/-- Lines 150-153: `for (i = 1; i < _N; i++) e[i-1] = e[i]; e[_N-1] = 0.0;`. -/
def tql2Shift (e : Nat → α) : Nat → α :=
  store (forUp 1 N (fun i e => store e (i - 1) (e i)) e) (N - 1) 0

/-- Lines 164-169: `while (m < _N) { if (fabs(e[m]) <= eps*tst1) break; m++; }`
with `n` the number of tests still allowed by `m < _N`; returns the final `m`. -/
def tql2Scan (e : Nat → α) (tst1 : α) : Nat → Nat → Nat
  | 0, m => m
  | n + 1, m => if |e m| ≤ eps * tst1 then m else tql2Scan e tst1 n (m + 1)

/-- The locals `c, c2, c3, s, s2, p` of the rotation chain, with the buffers. -/
structure Rot (α : Type) where
  V : Nat → α
  d : Nat → α
  e : Nat → α
  c : α
  c2 : α
  c3 : α
  s : α
  s2 : α
  p : α

/-- Lines 206-224, the body of the rotation loop for index `i`. -/
def tql2Rotate (sqrt : α → α) (i : Nat) (t : Rot α) : Rot α :=
  let c3 := t.c2
  let c2 := t.c
  let s2 := t.s
  let g := t.c * t.e i
  let h := t.c * t.p
  let r := HYPOT2 sqrt t.p (t.e i)
  let e := store t.e (i + 1) (t.s * r)
  let s := e i / r
  let c := t.p / r
  let p := c * t.d i - s * g
  let d := store t.d (i + 1) (h + s * (c * g + s * t.d i))
  let V := forUp 0 N (fun k V =>
    let h := V (IND3X3 k (i + 1))
    let V := store V (IND3X3 k (i + 1)) (s * V (IND3X3 k i) + c * h)
    store V (IND3X3 k i) (c * V (IND3X3 k i) - s * h)) t.V
  { V := V, d := d, e := e, c := c, c2 := c2, c3 := c3, s := s, s2 := s2, p := p }

/-- Lines 177-228, one execution of the body of the `do … while` loop for the
active block `l … m`. -/
def tql2Step (sqrt : α → α) (l m : Nat) (q : QL α) : QL α :=
  let g := q.d l
  let p := (q.d (l + 1) - g) / (2 * q.e l)
  let r := HYPOT2 sqrt p 1
  let r := if p < 0 then -r else r
  let d := store q.d l (q.e l / (p + r))
  let d := store d (l + 1) (q.e l * (p + r))
  let dl1 := d (l + 1)
  let h := g - d l
  let d := forUp (l + 2) N (fun i d => store d i (d i - h)) d
  let f := q.f + h
  let p := d m
  let el1 := q.e (l + 1)
  let t := forDown (m - 1) l (tql2Rotate sqrt)
    { V := q.V, d := d, e := q.e, c := 1, c2 := 1, c3 := 1, s := 0, s2 := 0, p := p }
  let p := -t.s * t.s2 * t.c3 * el1 * t.e l / dl1
  let e := store t.e l (t.s * p)
  let d := store t.d l (t.c * p)
  { V := t.V, d := d, e := e, f := f, tst1 := q.tst1 }

/-- Lines 176-232, the loop `do { … } while (fabs(e[l]) > eps*tst1)`; `none`
when the fuel is used up before the test fails. -/
def tql2Iterate (sqrt : α → α) (l m : Nat) : Nat → QL α → Option (QL α)
  | 0, _ => none
  | fuel + 1, q =>
    let q := tql2Step sqrt l m q
    if |q.e l| > eps * q.tst1 then tql2Iterate sqrt l m fuel q else some q

/-- Lines 158-236, the body of the outer loop for index `l`. -/
def tql2Outer (sqrt : α → α) (fuel : Nat) (l : Nat) (q : QL α) : Option (QL α) :=
  let q := { q with tst1 := MAX q.tst1 (|q.d l| + |q.e l|) }
  let m := tql2Scan q.e q.tst1 (N - l) l
  let r := if m > l then tql2Iterate sqrt l m fuel q else some q
  r.map (fun q => { q with d := store q.d l (q.d l + q.f), e := store q.e l 0 })

/-- What the body of the outer loop does for index `l` when the scan stops at
`m = l` (lines 162 and 234-235 only: no iteration). -/
def tql2Skip (l : Nat) (q : QL α) : QL α :=
  { q with tst1 := MAX q.tst1 (|q.d l| + |q.e l|),
           d := store q.d l (q.d l + q.f), e := store q.e l 0 }

/-- Lines 150-236 of `tql2`: everything before the sort.  Each `do … while`
loop may run its body at most `fuel` times. -/
def tql2Diag (sqrt : α → α) (fuel : Nat) (s : Bufs α) : Option (QL α) :=
  let q : QL α := { V := s.V, d := s.d, e := tql2Shift s.e, f := 0, tst1 := 0 }
  forUp 0 N (fun l r => r.bind (tql2Outer sqrt fuel l)) (some q)

/-- The function `tql2`: symmetric tridiagonal QL algorithm followed by the
sort; returns `(V, d)`. -/
def tql2 (sqrt : α → α) (fuel : Nat) (s : Bufs α) : Option ((Nat → α) × (Nat → α)) :=
  (tql2Diag sqrt fuel s).map (fun q => sortEig q.V q.d)

/-! ## `eigen_decomposition` (lines 261-271) -/

/-- Lines 264-268: `V[IND3X3(i,j)] = A[IND3X3(i,j)]` for all `i, j < _N`. -/
def copyMatrix (A V : Nat → α) : Nat → α :=
  forUp 0 N (fun i V => forUp 0 N (fun j V => store V (IND3X3 i j) (A (IND3X3 i j))) V) V

/-- The function `eigen_decomposition`.  `V`, `d` are the caller's output
buffers and `e` the local scratch array, with whatever they hold on entry;
the result is the final `(V, d)`. -/
def eigen_decomposition (sqrt : α → α) (fuel : Nat) (A V d e : Nat → α) :
    Option ((Nat → α) × (Nat → α)) :=
  tql2 sqrt fuel (tred2 sqrt { V := copyMatrix A V, d := d, e := e })

/-! ## Matrix views used in the statements -/

/-- Entry `(r, c)` of the 3x3 matrix stored in a flat buffer. -/
def ent (M : Nat → α) (r c : Nat) : α := M (IND3X3 r c)

/-- Entry `(r, c)` of `V * diag(d) * Vᵀ`. -/
def recon (V d : Nat → α) (r c : Nat) : α :=
  ent V r 0 * d 0 * ent V c 0 + ent V r 1 * d 1 * ent V c 1 + ent V r 2 * d 2 * ent V c 2

/-- Entry `(i, j)` of `Vᵀ * V`. -/
def gram (V : Nat → α) (i j : Nat) : α :=
  ent V 0 i * ent V 0 j + ent V 1 i * ent V 1 j + ent V 2 i * ent V 2 j

/-- Entry `(r, i)` of `A * V`. -/
def mulAV (A V : Nat → α) (r i : Nat) : α :=
  ent A r 0 * ent V 0 i + ent A r 1 * ent V 1 i + ent A r 2 * ent V 2 i

/-- Entry `(i, j)` of `Vᵀ * A * V`. -/
def conj (A V : Nat → α) (i j : Nat) : α :=
  ent V 0 i * mulAV A V 0 j + ent V 1 i * mulAV A V 1 j + ent V 2 i * mulAV A V 2 j

/-- The matrix in the buffer is symmetric. -/
def IsSymm (A : Nat → α) : Prop := ∀ r c, r < N → c < N → ent A r c = ent A c r

/-- `Vᵀ * V` is the identity. -/
def IsOrtho (V : Nat → α) : Prop :=
  ∀ i j, i < N → j < N → gram V i j = if i = j then 1 else 0

/-- A buffer given by its first nine entries (zero elsewhere). -/
def buf9 (a0 a1 a2 a3 a4 a5 a6 a7 a8 : α) : Nat → α
  | 0 => a0 | 1 => a1 | 2 => a2 | 3 => a3 | 4 => a4
  | 5 => a5 | 6 => a6 | 7 => a7 | 8 => a8 | _ => 0

/-- A buffer given by its first three entries (zero elsewhere). -/
def buf3 (a0 a1 a2 : α) : Nat → α
  | 0 => a0 | 1 => a1 | 2 => a2 | _ => 0

/-- An executable square root on `ℚ`: exact on squares of rationals. -/
def qsqrt (x : ℚ) : ℚ := (Nat.sqrt x.num.toNat : ℚ) / (Nat.sqrt x.den : ℚ)

/-! ## Predicates on buffer contents used by the proofs -/

/-- The first nine entries of a buffer are the given values. -/
@[reducible] def Is9 (V : Nat → α) (a0 a1 a2 a3 a4 a5 a6 a7 a8 : α) : Prop :=
  V 0 = a0 ∧ V 1 = a1 ∧ V 2 = a2 ∧ V 3 = a3 ∧ V 4 = a4 ∧ V 5 = a5 ∧ V 6 = a6 ∧ V 7 = a7 ∧
    V 8 = a8

/-- The first three entries of a buffer are the given values. -/
@[reducible] def Is3 (d : Nat → α) (a0 a1 a2 : α) : Prop := d 0 = a0 ∧ d 1 = a1 ∧ d 2 = a2

/-- Two buffer triples agree on `V[0..8]`, on `d[kd..2]` and on `e[ke..2]`. -/
def Agree (kd ke : Nat) (s t : Bufs α) : Prop :=
  (∀ i, i < 9 → s.V i = t.V i) ∧ (∀ i, kd ≤ i → i < 3 → s.d i = t.d i) ∧
  (∀ i, ke ≤ i → i < 3 → s.e i = t.e i)

/-- Two QL states agree on `V[0..8]`, `d[0..2]`, `e[0..2]`, `f` and `tst1`. -/
def AgreeQ (q r : QL α) : Prop :=
  (∀ i, i < 9 → q.V i = r.V i) ∧ (∀ i, i < 3 → q.d i = r.d i) ∧
  (∀ i, i < 3 → q.e i = r.e i) ∧ q.f = r.f ∧ q.tst1 = r.tst1

/-- Both runs stop or both run out of fuel, with agreeing states. -/
def AgreeOpt (a b : Option (QL α)) : Prop :=
  match a, b with
  | some x, some y => AgreeQ x y ∧ x.e 2 = 0 ∧ y.e 2 = 0
  | none, none => True
  | _, _ => False

/-- Two optional results are both absent, or both present and equal on the
entries `V[0..8]` and `d[0..2]`. -/
def SameResult (a b : Option ((Nat → α) × (Nat → α))) : Prop :=
  match a, b with
  | some x, some y => (∀ i, i < 9 → x.1 i = y.1 i) ∧ (∀ i, i < 3 → x.2 i = y.2 i)
  | none, none => True
  | _, _ => False

/-- The active block `l … m` of the QL iteration is live: `e[2] = 0`, the
threshold scale is non-negative and no off-diagonal entry inside the block
vanishes. -/
def Live (l m : Nat) (q : QL α) : Prop :=
  q.e 2 = 0 ∧ 0 ≤ q.tst1 ∧ ∀ i, l ≤ i → i < m → q.e i ≠ 0

/-- The function `sqrt` is a square root on the non-negative elements. -/
def IsSqrt (sqrt : α → α) : Prop := ∀ x, 0 ≤ x → 0 ≤ sqrt x ∧ sqrt x * sqrt x = x

/-- Entry `(i, j)` of the symmetric tridiagonal matrix with diagonal `d[0..2]` and
off-diagonal entries `T[i][i-1] = T[i-1][i] = e[i]`. -/
def tridiag (d e : Nat → α) (i j : Nat) : α :=
  if i = j then d i else if i = j + 1 then e i else if j = i + 1 then e j else 0

/-! ## Matrix view of the QL state, used for the reconstruction bound -/

/-- The 3x3 matrix with the given entries, row by row. -/
def mk3 (a00 a01 a02 a10 a11 a12 a20 a21 a22 : α) : Matrix (Fin 3) (Fin 3) α :=
  fun i j => match i.val, j.val with
    | 0, 0 => a00 | 0, 1 => a01 | 0, _ => a02
    | 1, 0 => a10 | 1, 1 => a11 | 1, _ => a12
    | _, 0 => a20 | _, 1 => a21 | _, _ => a22

/-- The 3x3 matrix stored in a flat buffer, entry `(r, c)` at index `c*3 + r`. -/
def toM (V : Nat → α) : Matrix (Fin 3) (Fin 3) α :=
  mk3 (V 0) (V 3) (V 6) (V 1) (V 4) (V 7) (V 2) (V 5) (V 8)

/-- The symmetric 3x3 matrix with the given upper triangle. -/
def symM (t00 t01 t02 t11 t12 t22 : α) : Matrix (Fin 3) (Fin 3) α :=
  mk3 t00 t01 t02 t01 t11 t12 t02 t12 t22

/-- The plane rotation of columns 0 and 1. -/
def rot01M (c s : α) : Matrix (Fin 3) (Fin 3) α := mk3 c s 0 (-s) c 0 0 0 1

/-- The plane rotation of columns 1 and 2. -/
def rot12M (c s : α) : Matrix (Fin 3) (Fin 3) α := mk3 1 0 0 0 c s 0 (-s) c

/-- The symmetric tridiagonal matrix held by the QL state at outer index `l`:
the shift `f` is still to be added to `d[i]` for `i ≥ l`; the off-diagonal
entry `e[m]` is left out. -/
def triQ (l m : Nat) (q : QL α) : Matrix (Fin 3) (Fin 3) α :=
  symM (q.d 0 + (if 0 < l then 0 else q.f)) (if m = 0 then 0 else q.e 0) 0
    (q.d 1 + (if 1 < l then 0 else q.f)) (if m = 1 then 0 else q.e 1)
    (q.d 2 + (if 2 < l then 0 else q.f))

/-- The largest absolute value among the nine entries of a 3x3 buffer. -/
def maxAbs (A : Nat → α) : α :=
  max |A 0| (max |A 1| (max |A 2| (max |A 3| (max |A 4| (max |A 5| (max |A 6|
    (max |A 7| |A 8|)))))))

/-- Every entry of `B` is within `x - maxAbs A` of the entry of `A`. -/
def Near (A : Nat → α) (x : α) (B : Matrix (Fin 3) (Fin 3) α) : Prop :=
  ∀ i j, |B i j - toM A i j| ≤ x - maxAbs A

/-- The states in which the body of the `do … while` loop (lines 177-228) is
entered for the block `l … m`, in order, for at most `fuel` executions. -/
def tql2IterateTrace (sqrt : α → α) (l m : Nat) : Nat → QL α → List (QL α)
  | 0, _ => []
  | fuel + 1, q =>
    q :: (if |(tql2Step sqrt l m q).e l| > eps * (tql2Step sqrt l m q).tst1 then
      tql2IterateTrace sqrt l m fuel (tql2Step sqrt l m q) else [])

/-- The entries `(l, m, state)` into the loop body made by the body of the
outer loop for index `l` (lines 162-233). -/
def tql2OuterTrace (sqrt : α → α) (fuel l : Nat) (q : QL α) : List (Nat × Nat × QL α) :=
  let q := { q with tst1 := MAX q.tst1 (|q.d l| + |q.e l|) }
  let m := tql2Scan q.e q.tst1 (N - l) l
  if m > l then (tql2IterateTrace sqrt l m fuel q).map (fun u => (l, m, u)) else []

/-- Lines 234-235: `d[l] = d[l] + f; e[l] = 0.0;`. -/
def tql2Close (l : Nat) (q : QL α) : QL α :=
  { q with d := store q.d l (q.d l + q.f), e := store q.e l 0 }

/-- The states `(l, state)` at line 162, one for each index `l` the outer loop
of `tql2` reaches (a loop that runs out of fuel ends the run). -/
def tql2ScanStates (sqrt : α → α) (fuel : Nat) (s : Bufs α) : List (Nat × QL α) :=
  (forUp 0 N (fun l (acc : Option (QL α) × List (Nat × QL α)) =>
    match acc.1 with
    | none => acc
    | some q => (tql2Outer sqrt fuel l q, acc.2 ++ [(l, q)]))
    (some (QL.mk s.V s.d (tql2Shift s.e) 0 0), [])).2

/-- Every entry `(l, m, state)` into the body of the `do … while` loop during a
run of `tql2`. -/
def tql2DiagTrace (sqrt : α → α) (fuel : Nat) (s : Bufs α) : List (Nat × Nat × QL α) :=
  (tql2ScanStates sqrt fuel s).flatMap (fun lq => tql2OuterTrace sqrt fuel lq.1 lq.2)

/-- Lines 181-204 of the loop body: the implicit shift and the locals with
which the rotation chain starts. -/
def tql2StepInit (sqrt : α → α) (l m : Nat) (q : QL α) : Rot α :=
  let g := q.d l
  let p := (q.d (l + 1) - g) / (2 * q.e l)
  let r := HYPOT2 sqrt p 1
  let r := if p < 0 then -r else r
  let d := store q.d l (q.e l / (p + r))
  let d := store d (l + 1) (q.e l * (p + r))
  let h := g - d l
  let d := forUp (l + 2) N (fun i d => store d i (d i - h)) d
  Rot.mk q.V d q.e 1 1 1 0 0 (d m)

/-- The value `p + r` of lines 182-186: the divisor of line 187 and the factor
of line 188. -/
def tql2ShiftDiv (sqrt : α → α) (l : Nat) (q : QL α) : α :=
  let p := (q.d (l + 1) - q.d l) / (2 * q.e l)
  let r := HYPOT2 sqrt p 1
  p + (if p < 0 then -r else r)

/-- The hypotenuses `r` of line 211, in the order the rotation loop computes
them (`i = m-1, …, l`); each is the divisor of lines 213 and 214. -/
def tql2Hypots (sqrt : α → α) (l m : Nat) (q : QL α) : List α :=
  (List.range (m - l)).map (fun k =>
    let t := forDown (m - 1) (m - k) (tql2Rotate sqrt) (tql2StepInit sqrt l m q)
    HYPOT2 sqrt t.p (t.e (m - 1 - k)))

/-- The divisors of one execution of the loop body, in program order:
`2.0 * e[l]` (line 182), `p + r` (line 187), the hypotenuses (lines 213-214) and
`dl1` (line 226). -/
def tql2StepDivisors (sqrt : α → α) (l m : Nat) (q : QL α) : List α :=
  [2 * q.e l, tql2ShiftDiv sqrt l q] ++ tql2Hypots sqrt l m q ++
    [q.e l * tql2ShiftDiv sqrt l q]

/-- The sum of `d[i] + f` over the indices `i = lo, …, hi - 1`: the diagonal of
the matrix the QL iteration works on, with the accumulated shift `f` put back. -/
def shiftedSum (q : QL α) (lo hi : Nat) : α :=
  forUp lo hi (fun i a => a + (q.d i + q.f)) 0

/-- Lines 324-326 of `mexFunction`:
`double mat_data_c[_N*_N]; for (int i = 1; i < (_N*_N); i++) mat_data_c[i] = mat_data[i];`.
The local array is not initialised, so `mat_data_c` is whatever it holds on entry. -/
def mexCopy (mat_data mat_data_c : Nat → α) : Nat → α :=
  forUp 1 (N * N) (fun i c => store c i (mat_data i)) mat_data_c

/-- Lines 324-328 of `mexFunction`, after the argument checks: the copy and the
call `eigen_decomposition(mat_data_c, eigvecs_data, eigvals_data)`. -/
def mexEigen (sqrt : α → α) (fuel : Nat) (mat_data mat_data_c eigvecs eigvals e : Nat → α) :
    Option ((Nat → α) × (Nat → α)) :=
  eigen_decomposition sqrt fuel (mexCopy mat_data mat_data_c) eigvecs eigvals e

/-- The magnitude from which the exact result of a `double` operation rounds to
an infinity (round to nearest): `2^1024 - 2^970`, that is `DBL_MAX` plus half a
unit in its last place. -/
def dblOverflow : ℚ := 2 ^ 1024 - 2 ^ 970

/-- The `double` result of an operation whose exact result is `x`: `none` (not
finite) when `x` rounds to an infinity, else the rounded value, with `rnd` the
rounding to the nearest `double`. -/
def dblRound (rnd : ℚ → ℚ) (x : ℚ) : Option ℚ :=
  if |x| < dblOverflow then some (rnd x) else none

/-- The `double` product; `none` stands for an operand or result that is not
finite. -/
def dblMul (rnd : ℚ → ℚ) (a b : Option ℚ) : Option ℚ :=
  a.bind (fun x => b.bind (fun y => dblRound rnd (x * y)))

/-- The `double` sum; `none` stands for an operand or result that is not finite. -/
def dblAdd (rnd : ℚ → ℚ) (a b : Option ℚ) : Option ℚ :=
  a.bind (fun x => b.bind (fun y => dblRound rnd (x + y)))

/-- The `double` square root, with `sq` the correctly rounded root of a finite
non-negative argument; not finite on an argument that is negative or not finite. -/
def dblSqrt (sq : ℚ → ℚ) (a : Option ℚ) : Option ℚ :=
  a.bind (fun x => if x < 0 then none else some (sq x))

/-- The macro `HYPOT2` (line 16) evaluated in `double` arithmetic:
`sqrt((x)*(x)+(y)*(y))`. -/
def HYPOT2F (rnd sq : ℚ → ℚ) (x y : ℚ) : Option ℚ :=
  dblSqrt sq (dblAdd rnd (dblMul rnd (some x) (some x)) (dblMul rnd (some y) (some y)))

/-- The number is a finite `double`: `m * 2^e` with `|m| < 2^53` and
`-1074 ≤ e ≤ 971`. -/
def IsDouble (x : ℚ) : Prop :=
  ∃ m e : ℤ, |m| < 2 ^ 53 ∧ -1074 ≤ e ∧ e ≤ 971 ∧ x = m * (2 : ℚ) ^ e

/-! ## The routines in `double` arithmetic (IEEE 754 binary64)

The C code computes on `double`.  The definitions of this section evaluate the
same statements on a model of the binary64 format: every operation returns the
exact result rounded to nearest, ties to even; it overflows to an infinity,
underflows to a subnormal number or to a signed zero, and follows the IEEE
rules for infinities and NaN (`0 * inf` is NaN, `x / 0` is an infinity for
`x ≠ 0`, every ordered comparison with a NaN is false).  Each operation is
rounded on its own (no extended precision, no fused multiply-add).  A routine
`fD` is the routine `f` above with these operations in place of the field
operations; the loops, the indices and the order of reads and writes are the
same. -/

/-- A value of the C type `double`: the finite number `(-1)^neg * m * 2^e`, an
infinity, or a NaN.  The operations below return finite values in the form of
the format: `m < 2^53` and `-1074 ≤ e ≤ 971`, with `2^52 ≤ m` (normal) or
`e = -1074` (subnormal; `m = 0` is a signed zero). -/
inductive Dbl where
  | fin (neg : Bool) (m : Nat) (e : Int)
  | inf (neg : Bool)
  | nan
deriving DecidableEq

/-- The number of binary digits of `n`, one halving per unit of `fuel`. -/
def bitLenSlow : Nat → Nat → Nat
  | 0, _ => 0
  | fuel + 1, n => if n = 0 then 0 else bitLenSlow fuel (n / 2) + 1

/-- The number of binary digits of `n < 2^(2^k)`, added to `acc`: the upper
`2^(k-1)` digits are split off when they are not all zero. -/
def bitLenFast : Nat → Nat → Nat → Nat
  | 0, n, acc => if n = 0 then acc else acc + 1
  | k + 1, n, acc =>
    if 2 ^ 2 ^ k ≤ n then bitLenFast k (n / 2 ^ 2 ^ k) (acc + 2 ^ k) else bitLenFast k n acc

/-- The number of binary digits of `n` (`0` for `n = 0`). -/
def bitLen (n : Nat) : Nat := if n < 2 ^ 4096 then bitLenFast 12 n 0 else bitLenSlow n n

/-- The integer square root by bisection on the binary digits `b-1, …, 0` of the
root, from the approximation `r`. -/
def isqrtAux (n : Nat) : Nat → Nat → Nat
  | 0, r => r
  | b + 1, r => isqrtAux n b (if (r + 2 ^ b) * (r + 2 ^ b) ≤ n then r + 2 ^ b else r)

/-- The integer square root: the largest `r` with `r * r ≤ n`. -/
def isqrt (n : Nat) : Nat := isqrtAux n (bitLen n / 2 + 1) 0

/-- Rounding to binary64, to nearest with ties to even, of the number
`(-1)^neg * (m + t) * 2^e`, where `t = 0` when `sticky` is false and
`0 < t < 1` when it is true (the callers pass `sticky = true` only with
`m ≥ 2^64`).  The result keeps the 53 leading binary digits of `m`, or the digits
above `2^-1074` for a subnormal result; it is an infinity when the rounded
magnitude reaches `2^1024`, and a signed zero when it rounds to nothing. -/
def Dbl.round (neg : Bool) (m : Nat) (e : Int) (sticky : Bool) : Dbl :=
  if m = 0 then Dbl.fin neg 0 (-1074)
  else
    let e1 := max (e + (bitLen m : Int) - 53) (-1074)
    if e1 ≤ e then
      if e1 > 971 then Dbl.inf neg else Dbl.fin neg (m * 2 ^ (e - e1).toNat) e1
    else
      let sh := (e1 - e).toNat
      let q := m / 2 ^ sh
      let r := m % 2 ^ sh
      let half := 2 ^ (sh - 1)
      let q1 := if r > half ∨ (r = half ∧ (sticky = true ∨ q % 2 = 1)) then q + 1 else q
      let e2 := if q1 = 2 ^ 53 then e1 + 1 else e1
      let q2 := if q1 = 2 ^ 53 then 2 ^ 52 else q1
      if e2 > 971 then Dbl.inf neg else Dbl.fin neg q2 e2

/-- The constant `0.0`. -/
def Dbl.zero : Dbl := Dbl.fin false 0 (-1074)

/-- The constant `1.0`. -/
def Dbl.one : Dbl := Dbl.fin false (2 ^ 52) (-52)

/-- The constant `2.0`. -/
def Dbl.two : Dbl := Dbl.fin false (2 ^ 52) (-51)

/-- The `double` nearest to `n * 2^k` (the number itself when it has at most 53
significant binary digits and is in range). -/
def Dbl.scaled (n k : Int) : Dbl := Dbl.round (decide (n < 0)) n.natAbs k false

/-- The real number a `double` stands for; `none` for an infinity or a NaN. -/
def Dbl.value : Dbl → Option ℚ
  | .fin neg m e => some ((if neg then -1 else 1) * (m : ℚ) * 2 ^ e)
  | _ => none

/-- Unary minus `-x`: the sign is flipped. -/
def Dbl.neg : Dbl → Dbl
  | .fin a m e => .fin (!a) m e
  | .inf a => .inf (!a)
  | .nan => .nan

/-- The library function `fabs`: the sign is cleared. -/
def fabs : Dbl → Dbl
  | .fin _ m e => .fin false m e
  | .inf _ => .inf false
  | .nan => .nan

/-- The product `x * y`: the exact product rounded; `0 * inf` is NaN. -/
def Dbl.mul : Dbl → Dbl → Dbl
  | .fin a m1 e1, .fin b m2 e2 => Dbl.round (xor a b) (m1 * m2) (e1 + e2) false
  | .fin a m _, .inf b => if m = 0 then .nan else .inf (xor a b)
  | .inf a, .fin b m _ => if m = 0 then .nan else .inf (xor a b)
  | .inf a, .inf b => .inf (xor a b)
  | _, _ => .nan

/-- The quotient `x / y`: the exact quotient rounded (its first 76 or more binary
digits and a sticky bit are enough for that); `x / 0` is an infinity for
`x ≠ 0`, `0 / 0` and `inf / inf` are NaN, `x / inf` is a signed zero. -/
def Dbl.div : Dbl → Dbl → Dbl
  | .fin a m1 e1, .fin b m2 e2 =>
    if m2 = 0 then (if m1 = 0 then .nan else .inf (xor a b))
    else Dbl.round (xor a b) (m1 * 2 ^ 128 / m2) (e1 - e2 - 128)
      (decide (m1 * 2 ^ 128 % m2 ≠ 0))
  | .fin a _ _, .inf b => .fin (xor a b) 0 (-1074)
  | .inf a, .fin b _ _ => .inf (xor a b)
  | _, _ => .nan

/-- The integer `(-1)^neg * m * 2^(e - e0)`, for `e0 ≤ e`. -/
def sval (neg : Bool) (m : Nat) (e e0 : Int) : Int :=
  (if neg then -1 else 1) * ((m * 2 ^ (e - e0).toNat : Nat) : Int)

/-- The sum `x + y`: the exact sum rounded; an exact sum `0` is `+0` unless both
terms are `-0`; `inf + (-inf)` is NaN. -/
def Dbl.add : Dbl → Dbl → Dbl
  | .fin a m1 e1, .fin b m2 e2 =>
    let s := sval a m1 e1 (min e1 e2) + sval b m2 e2 (min e1 e2)
    if s = 0 then .fin (a && b) 0 (-1074)
    else Dbl.round (decide (s < 0)) s.natAbs (min e1 e2) false
  | .fin _ _ _, .inf b => .inf b
  | .inf a, .fin _ _ _ => .inf a
  | .inf a, .inf b => if a = b then .inf a else .nan
  | _, _ => .nan

/-- The difference `x - y`, that is `x + (-y)`. -/
def Dbl.sub (x y : Dbl) : Dbl := Dbl.add x (Dbl.neg y)

/-- The library function `sqrt`: the exact root rounded (65 or more binary digits
of it and a sticky bit are enough for that); NaN on a negative argument,
`sqrt(±0) = ±0`, `sqrt(+inf) = +inf`. -/
def Dbl.sqrt : Dbl → Dbl
  | .fin a m e =>
    if m = 0 then .fin a 0 (-1074)
    else if a then .nan
    else
      let k : Nat := if (e - 128) % 2 = 0 then 128 else 129
      let n := m * 2 ^ k
      Dbl.round false (isqrt n) ((e - k) / 2) (decide (isqrt n * isqrt n ≠ n))
  | .inf a => if a then .nan else .inf false
  | .nan => .nan

/-- The comparison `x < y`; false when an operand is a NaN. -/
def Dbl.lt : Dbl → Dbl → Bool
  | .fin a m1 e1, .fin b m2 e2 =>
    decide (sval a m1 e1 (min e1 e2) < sval b m2 e2 (min e1 e2))
  | .fin _ _ _, .inf b => !b
  | .inf a, .fin _ _ _ => a
  | .inf a, .inf b => a && !b
  | _, _ => false

/-- The comparison `x == y`; `-0 == +0`, and false when an operand is a NaN. -/
def Dbl.eq : Dbl → Dbl → Bool
  | .fin a m1 e1, .fin b m2 e2 =>
    decide (sval a m1 e1 (min e1 e2) = sval b m2 e2 (min e1 e2))
  | .inf a, .inf b => a == b
  | _, _ => false

/-- The comparison `x <= y`; false when an operand is a NaN. -/
def Dbl.le (x y : Dbl) : Bool := Dbl.lt x y || Dbl.eq x y

instance : Add Dbl := ⟨Dbl.add⟩

instance : Sub Dbl := ⟨Dbl.sub⟩

instance : Mul Dbl := ⟨Dbl.mul⟩

instance : Div Dbl := ⟨Dbl.div⟩

instance : Neg Dbl := ⟨Dbl.neg⟩

/-- The macro `MAX(a, b) ((a)>(b)?(a):(b))` (line 15) on doubles. -/
def MAXD (a b : Dbl) : Dbl := if Dbl.lt b a then a else b

/-- The macro `HYPOT2(x,y) sqrt((x)*(x)+(y)*(y))` (line 16) on doubles. -/
def HYPOT2D (x y : Dbl) : Dbl := Dbl.sqrt (x * x + y * y)

/-- The inner scan of the sort (lines 243-248) on doubles. -/
def sortScanD (d : Nat → Dbl) (i : Nat) : Nat × Dbl :=
  forUp (i + 1) N (fun j kp => if Dbl.lt (d j) kp.2 then (j, d j) else kp) (i, d i)

/-- The column swap of the sort (lines 252-256) on doubles. -/
def sortSwapColsD (V : Nat → Dbl) (i k : Nat) : Nat → Dbl :=
  forUp 0 N (fun j V =>
    let p := V (IND3X3 j i)
    let V := store V (IND3X3 j i) (V (IND3X3 j k))
    store V (IND3X3 j k) p) V

/-- One pass `i` of the selection sort (lines 241-257) on doubles. -/
def sortPassD (i : Nat) (Vd : (Nat → Dbl) × (Nat → Dbl)) : (Nat → Dbl) × (Nat → Dbl) :=
  let V := Vd.1
  let d := Vd.2
  let kp := sortScanD d i
  let k := kp.1
  let p := kp.2
  if k ≠ i then
    let d := store d k (d i)
    let d := store d i p
    (sortSwapColsD V i k, d)
  else (V, d)

/-- The sort stage (lines 240-258) on doubles. -/
def sortEigD (V d : Nat → Dbl) : (Nat → Dbl) × (Nat → Dbl) :=
  forUp 0 (N - 1) sortPassD (V, d)

/-- Lines 32-34 on doubles. -/
def tred2InitD (s : Bufs Dbl) : Bufs Dbl :=
  forUp 0 N (fun j s => { s with d := store s.d j (s.V (IND3X3 (N - 1) j)) }) s

/-- Lines 42-46 on doubles:
`scale = 0.0; for (k = 0; k < i; k++) scale = scale + fabs(d[k]);`. -/
def tred2ScaleD (d : Nat → Dbl) (i : Nat) : Dbl :=
  forUp 0 i (fun k scale => scale + fabs (d k)) Dbl.zero

/-- Lines 48-53 on doubles, the zero-scale branch for row `i`. -/
def tred2ZeroD (i : Nat) (s : Bufs Dbl) : Bufs Dbl :=
  let s := { s with e := store s.e i (s.d (i - 1)) }
  forUp 0 i (fun j s =>
    let d := store s.d j (s.V (IND3X3 (i - 1) j))
    let V := store s.V (IND3X3 i j) Dbl.zero
    let V := store V (IND3X3 j i) Dbl.zero
    { s with V := V, d := d }) s

/-- Lines 58-61 on doubles:
`for (k = 0; k < i; k++) { d[k] /= scale; h += d[k] * d[k]; }` from `h = 0.0`;
returns `(d, h)`. -/
def tred2NormalizeD (d : Nat → Dbl) (i : Nat) (scale : Dbl) : (Nat → Dbl) × Dbl :=
  forUp 0 i (fun k dh =>
    let d := store dh.1 k (dh.1 k / scale)
    (d, dh.2 + d k * d k)) (d, Dbl.zero)

/-- Lines 76-85 on doubles. -/
def tred2ApplyD (i : Nat) (d : Nat → Dbl) (V e : Nat → Dbl) : (Nat → Dbl) × (Nat → Dbl) :=
  forUp 0 i (fun j Ve =>
    let f := d j
    let V := store Ve.1 (IND3X3 j i) f
    let g := Ve.2 j + V (IND3X3 j j) * f
    let ge := forUp (j + 1) (i - 1 + 1) (fun k ge =>
      (ge.1 + V (IND3X3 k j) * d k, store ge.2 k (ge.2 k + V (IND3X3 k j) * f)))
      (g, Ve.2)
    (V, store ge.2 j ge.1)) (V, e)

/-- Lines 86-90 on doubles:
`f = 0.0; for (j = 0; j < i; j++) { e[j] /= h; f += e[j] * d[j]; }`; returns
`(e, f)`. -/
def tred2Scale2D (i : Nat) (d e : Nat → Dbl) (h : Dbl) : (Nat → Dbl) × Dbl :=
  forUp 0 i (fun j ef =>
    let e := store ef.1 j (ef.1 j / h)
    (e, ef.2 + e j * d j)) (e, Dbl.zero)

/-- Lines 95-103 on doubles. -/
def tred2UpdateD (i : Nat) (s : Bufs Dbl) : Bufs Dbl :=
  forUp 0 i (fun j s =>
    let f := s.d j
    let g := s.e j
    let V := forUp j (i - 1 + 1) (fun k V =>
      store V (IND3X3 k j) (V (IND3X3 k j) - (f * s.e k + g * s.d k))) s.V
    let d := store s.d j (V (IND3X3 (i - 1) j))
    let V := store V (IND3X3 i j) Dbl.zero
    { s with V := V, d := d }) s

/-- Lines 56-103 on doubles, the Householder branch for row `i`; returns the
buffers and the final value of the local `h`. -/
def tred2HouseD (i : Nat) (scale : Dbl) (s : Bufs Dbl) : Bufs Dbl × Dbl :=
  let dh := tred2NormalizeD s.d i scale
  let d := dh.1
  let h := dh.2
  let f := d (i - 1)
  let g := Dbl.sqrt h
  let g := if Dbl.lt Dbl.zero f then -g else g
  let e := store s.e i (scale * g)
  let h := h - f * g
  let d := store d (i - 1) (f - g)
  let e := forUp 0 i (fun j e => store e j Dbl.zero) e
  let Ve := tred2ApplyD i d s.V e
  let V := Ve.1
  let e := Ve.2
  let ef := tred2Scale2D i d e h
  let e := ef.1
  let f := ef.2
  let hh := f / (h + h)
  let e := forUp 0 i (fun j e => store e j (e j - hh * d j)) e
  (tred2UpdateD i { V := V, d := d, e := e }, h)

/-- Lines 38-106 on doubles, the body of the reduction loop for row `i`; the
test is `scale == 0.0`. -/
def tred2RowD (i : Nat) (s : Bufs Dbl) : Bufs Dbl :=
  let scale := tred2ScaleD s.d i
  let sh := if Dbl.eq scale Dbl.zero then (tred2ZeroD i s, Dbl.zero)
    else tred2HouseD i scale s
  { sh.1 with d := store sh.1.d i sh.2 }

/-- Lines 110-131 on doubles, the body of the accumulation loop for index `i`;
the guard is `h != 0.0`. -/
def tred2AccumD (i : Nat) (s : Bufs Dbl) : Bufs Dbl :=
  let V := store s.V (IND3X3 (N - 1) i) (s.V (IND3X3 i i))
  let V := store V (IND3X3 i i) Dbl.one
  let h := s.d (i + 1)
  let s := { s with V := V }
  let s :=
    if Dbl.eq h Dbl.zero = false then
      let d := forUp 0 (i + 1) (fun k d => store d k (s.V (IND3X3 k (i + 1)) / h)) s.d
      let V := forUp 0 (i + 1) (fun j V =>
        let g := forUp 0 (i + 1) (fun k g => g + V (IND3X3 k (i + 1)) * V (IND3X3 k j))
          Dbl.zero
        forUp 0 (i + 1) (fun k V => store V (IND3X3 k j) (V (IND3X3 k j) - g * d k)) V) s.V
      { s with V := V, d := d }
    else s
  { s with V := forUp 0 (i + 1) (fun k V => store V (IND3X3 k (i + 1)) Dbl.zero) s.V }

/-- Lines 132-137 on doubles. -/
def tred2FinalD (s : Bufs Dbl) : Bufs Dbl :=
  let s := forUp 0 N (fun j s =>
    let d := store s.d j (s.V (IND3X3 (N - 1) j))
    { s with V := store s.V (IND3X3 (N - 1) j) Dbl.zero, d := d }) s
  { s with V := store s.V (IND3X3 (N - 1) (N - 1)) Dbl.one, e := store s.e 0 Dbl.zero }

/-- The function `tred2` on doubles. -/
def tred2D (s : Bufs Dbl) : Bufs Dbl :=
  let s := tred2InitD s
  let s := forDown (N - 1) 1 tred2RowD s
  let s := forUp 0 (N - 1) tred2AccumD s
  tred2FinalD s

/-- Line 157 on doubles: `eps = pow(2.0,-52.0)`, the double `2^-52`. -/
def epsD : Dbl := Dbl.fin false (2 ^ 52) (-104)

/-- Lines 150-153 on doubles. -/
def tql2ShiftD (e : Nat → Dbl) : Nat → Dbl :=
  store (forUp 1 N (fun i e => store e (i - 1) (e i)) e) (N - 1) Dbl.zero

/-- Lines 164-169 on doubles:
`while (m < _N) { if (fabs(e[m]) <= eps*tst1) break; m++; }` with `n` the number
of tests still allowed by `m < _N`; returns the final `m`. -/
def tql2ScanD (e : Nat → Dbl) (tst1 : Dbl) : Nat → Nat → Nat
  | 0, m => m
  | n + 1, m => if Dbl.le (fabs (e m)) (epsD * tst1) then m else tql2ScanD e tst1 n (m + 1)

/-- Lines 206-224 on doubles, the body of the rotation loop for index `i`. -/
def tql2RotateD (i : Nat) (t : Rot Dbl) : Rot Dbl :=
  let c3 := t.c2
  let c2 := t.c
  let s2 := t.s
  let g := t.c * t.e i
  let h := t.c * t.p
  let r := HYPOT2D t.p (t.e i)
  let e := store t.e (i + 1) (t.s * r)
  let s := e i / r
  let c := t.p / r
  let p := c * t.d i - s * g
  let d := store t.d (i + 1) (h + s * (c * g + s * t.d i))
  let V := forUp 0 N (fun k V =>
    let h := V (IND3X3 k (i + 1))
    let V := store V (IND3X3 k (i + 1)) (s * V (IND3X3 k i) + c * h)
    store V (IND3X3 k i) (c * V (IND3X3 k i) - s * h)) t.V
  { V := V, d := d, e := e, c := c, c2 := c2, c3 := c3, s := s, s2 := s2, p := p }

/-- Lines 177-228 on doubles, one execution of the body of the `do … while`
loop for the active block `l … m`. -/
def tql2StepD (l m : Nat) (q : QL Dbl) : QL Dbl :=
  let g := q.d l
  let p := (q.d (l + 1) - g) / (Dbl.two * q.e l)
  let r := HYPOT2D p Dbl.one
  let r := if Dbl.lt p Dbl.zero then -r else r
  let d := store q.d l (q.e l / (p + r))
  let d := store d (l + 1) (q.e l * (p + r))
  let dl1 := d (l + 1)
  let h := g - d l
  let d := forUp (l + 2) N (fun i d => store d i (d i - h)) d
  let f := q.f + h
  let p := d m
  let el1 := q.e (l + 1)
  let t := forDown (m - 1) l tql2RotateD
    { V := q.V, d := d, e := q.e, c := Dbl.one, c2 := Dbl.one, c3 := Dbl.one,
      s := Dbl.zero, s2 := Dbl.zero, p := p }
  let p := -t.s * t.s2 * t.c3 * el1 * t.e l / dl1
  let e := store t.e l (t.s * p)
  let d := store t.d l (t.c * p)
  { V := t.V, d := d, e := e, f := f, tst1 := q.tst1 }

/-- Lines 176-232 on doubles, the loop `do { … } while (fabs(e[l]) > eps*tst1)`;
`none` when the fuel is used up before the test fails. -/
def tql2IterateD (l m : Nat) : Nat → QL Dbl → Option (QL Dbl)
  | 0, _ => none
  | fuel + 1, q =>
    let q := tql2StepD l m q
    if Dbl.lt (epsD * q.tst1) (fabs (q.e l)) then tql2IterateD l m fuel q else some q

/-- Lines 158-236 on doubles, the body of the outer loop for index `l`. -/
def tql2OuterD (fuel : Nat) (l : Nat) (q : QL Dbl) : Option (QL Dbl) :=
  let q := { q with tst1 := MAXD q.tst1 (fabs (q.d l) + fabs (q.e l)) }
  let m := tql2ScanD q.e q.tst1 (N - l) l
  let r := if m > l then tql2IterateD l m fuel q else some q
  r.map (fun q => { q with d := store q.d l (q.d l + q.f), e := store q.e l Dbl.zero })

/-- Lines 150-236 of `tql2` on doubles: everything before the sort. -/
def tql2DiagD (fuel : Nat) (s : Bufs Dbl) : Option (QL Dbl) :=
  let q : QL Dbl :=
    { V := s.V, d := s.d, e := tql2ShiftD s.e, f := Dbl.zero, tst1 := Dbl.zero }
  forUp 0 N (fun l r => r.bind (tql2OuterD fuel l)) (some q)

/-- The function `tql2` on doubles; returns `(V, d)`. -/
def tql2D (fuel : Nat) (s : Bufs Dbl) : Option ((Nat → Dbl) × (Nat → Dbl)) :=
  (tql2DiagD fuel s).map (fun q => sortEigD q.V q.d)

/-- Lines 264-268 on doubles. -/
def copyMatrixD (A V : Nat → Dbl) : Nat → Dbl :=
  forUp 0 N (fun i V => forUp 0 N (fun j V => store V (IND3X3 i j) (A (IND3X3 i j))) V) V

/-- The function `eigen_decomposition` on doubles.  `V`, `d` are the caller's
output buffers and `e` the local scratch array, with whatever they hold on
entry; the result is the final `(V, d)`. -/
def eigen_decompositionD (fuel : Nat) (A V d e : Nat → Dbl) :
    Option ((Nat → Dbl) × (Nat → Dbl)) :=
  tql2D fuel (tred2D { V := copyMatrixD A V, d := d, e := e })

/-- The states `(l, state)` at line 162 of a run of `tql2` on doubles, one for
each index `l` the outer loop reaches. -/
def tql2ScanStatesD (fuel : Nat) (s : Bufs Dbl) : List (Nat × QL Dbl) :=
  (forUp 0 N (fun l (acc : Option (QL Dbl) × List (Nat × QL Dbl)) =>
    match acc.1 with
    | none => acc
    | some q => (tql2OuterD fuel l q, acc.2 ++ [(l, q)]))
    (some (QL.mk s.V s.d (tql2ShiftD s.e) Dbl.zero Dbl.zero), [])).2

/-- A buffer of doubles given by its first entries (`0.0` elsewhere). -/
def bufD (l : List Dbl) : Nat → Dbl := fun i => l.getD i Dbl.zero

/-- The matrix `2^k * [[2,0,0],[0,3,4],[0,4,9]]` as a buffer of doubles. -/
def blockD (k : Int) : Nat → Dbl :=
  bufD [Dbl.scaled 2 k, Dbl.zero, Dbl.zero, Dbl.zero, Dbl.scaled 3 k, Dbl.scaled 4 k,
    Dbl.zero, Dbl.scaled 4 k, Dbl.scaled 9 k]

/-- A buffer that holds `0.0` everywhere. -/
def zerosD : Nat → Dbl := fun _ => Dbl.zero

/-- The nine entries of `V` and the three entries of `d` of a result. -/
def outD (R : (Nat → Dbl) × (Nat → Dbl)) : List Dbl × List Dbl :=
  ([R.1 0, R.1 1, R.1 2, R.1 3, R.1 4, R.1 5, R.1 6, R.1 7, R.1 8], [R.2 0, R.2 1, R.2 2])

/-- The first `n` entries of the buffer of doubles `b` are finite and stand for
the numbers `x 0, …, x (n-1)`. -/
def HoldsReals (n : Nat) (b : Nat → Dbl) (x : Nat → ℚ) : Prop :=
  ∀ i, i < n → (b i).value = some (x i)

/-- The double is a zero (of either sign) or a NaN. -/
def Dbl.IsZeroOrNaN (x : Dbl) : Prop := x = Dbl.nan ∨ ∃ a e, x = Dbl.fin a 0 e

/-- The sign of the double is not set (a NaN counts as such). -/
def Dbl.SignClear : Dbl → Prop
  | .fin a _ _ => a = false
  | .inf a => a = false
  | .nan => True

/-- An order-preserving map of the doubles that are not NaN into the rational
numbers: a finite `v` goes to `v / (1 + |v|)`, the infinities to `-1` and `1`. -/
def Dbl.key : Dbl → ℚ
  | .fin a m e => ((if a then -1 else 1) * (m : ℚ) * 2 ^ e) /
      (1 + |(if a then -1 else 1) * (m : ℚ) * 2 ^ e|)
  | .inf a => if a then -1 else 1
  | .nan => 0

/-! ## Loop unrolling lemmas -/

theorem forUp_done {σ : Type} (lo hi : Nat) (body : Nat → σ → σ) (s : σ)
    (h : hi ≤ lo) : forUp lo hi body s = s := by
  unfold forUp
  rw [Nat.sub_eq_zero_of_le h]
  rfl

theorem forUp_step {σ : Type} (lo hi : Nat) (body : Nat → σ → σ) (s : σ)
    (h : lo < hi) : forUp lo hi body s = forUp (lo + 1) hi body (body lo s) := by
  unfold forUp
  obtain ⟨n, hn⟩ : ∃ n, hi - lo = n + 1 := ⟨hi - lo - 1, by omega⟩
  have h2 : hi - (lo + 1) = n := by omega
  rw [hn, h2]
  rfl

@[simp] theorem store_apply {β : Type} (a : Nat → β) (i j : Nat) (v : β) :
    store a i v j = if j = i then v else a j := rfl

theorem forDown_done {σ : Type} (hi lo : Nat) (body : Nat → σ → σ) (s : σ)
    (h : hi < lo) : forDown hi lo body s = s := by
  unfold forDown
  rw [Nat.sub_eq_zero_of_le (by omega)]
  rfl

theorem forDown_step {σ : Type} (hi lo : Nat) (body : Nat → σ → σ) (s : σ)
    (h : lo ≤ hi + 1) :
    forDown (hi + 1) lo body s = forDown hi lo body (body (hi + 1) s) := by
  unfold forDown
  have h1 : hi + 1 + 1 - lo = (hi + 1 - lo) + 1 := by omega
  rw [h1, List.range'_concat, List.foldr_append]
  simp only [List.foldr_cons, List.foldr_nil, Nat.one_mul]
  have h2 : lo + (hi + 1 - lo) = hi + 1 := by omega
  rw [h2]

/-! ## The sort stage -/

theorem swapIdx_lt (i k j : Nat) (hi : i < 3) (hk : k < 3) (hj : j < 3) : swapIdx i k j < 3 := by
  unfold swapIdx; split_ifs <;> omega

theorem swapIdx_ge (i k j n : Nat) (hi : i < n) (hk : k < n) (hj : n ≤ j) : swapIdx i k j = j := by
  unfold swapIdx; split_ifs <;> omega

theorem swapIdx_inj (i k a b : Nat) (h : swapIdx i k a = swapIdx i k b) : a = b := by
  unfold swapIdx at h; split_ifs at h <;> omega

theorem sortScan_val (d : Nat → α) (i : Nat) (hi : i < 2) :
    (sortScan d i).2 = d (sortScan d i).1 ∧ i ≤ (sortScan d i).1 ∧ (sortScan d i).1 < 3 := by
  interval_cases i
  · by_cases h10 : d 1 < d 0 <;> by_cases h20 : d 2 < d 0 <;> by_cases h21 : d 2 < d 1 <;>
      simp [sortScan, N, forUp_step, forUp_done, h10, h20, h21]
  · by_cases h21 : d 2 < d 1 <;>
      simp [sortScan, N, forUp_step, forUp_done, h21]

theorem sortSwapCols_ent {β : Type} [LinearOrderedField β] (V : Nat → β) (i k : Nat)
    (hi : i < 3) (hk : k < 3) (hik : i ≠ k)
    (r c : Nat) (hr : r < 3) (hc : c < 3) :
    sortSwapCols V i k (IND3X3 r c) = V (IND3X3 r (swapIdx i k c)) := by
  interval_cases i <;> interval_cases k <;> first | exact absurd rfl hik | skip
  all_goals
    interval_cases r <;> interval_cases c <;>
      simp [sortSwapCols, swapIdx, IND3X3, N, forUp_step, forUp_done]

theorem sortSwapCols_out {β : Type} [LinearOrderedField β] (V : Nat → β) (i k : Nat)
    (hi : i < 3) (hk : k < 3)
    (j : Nat) (hj : 9 ≤ j) : sortSwapCols V i k j = V j := by
  interval_cases i <;> interval_cases k <;>
    simp [sortSwapCols, IND3X3, N, forUp_step, forUp_done] <;>
    split_ifs <;> first | rfl | (exfalso; omega)

theorem sortPass_spec (V d : Nat → α) (i : Nat) (hi : i < 2) :
    (∀ j, (sortPass i (V, d)).2 j = d (swapIdx i (sortScan d i).1 j)) ∧
    (∀ r c, r < 3 → c < 3 →
      (sortPass i (V, d)).1 (IND3X3 r c) = V (IND3X3 r (swapIdx i (sortScan d i).1 c))) ∧
    (∀ j, 9 ≤ j → (sortPass i (V, d)).1 j = V j) := by
  obtain ⟨hv, hle, hlt⟩ := sortScan_val d i hi
  by_cases hk : (sortScan d i).1 = i
  · have hid : ∀ j, swapIdx i i j = j := by
      intro j; unfold swapIdx; split_ifs <;> omega
    simp [sortPass, hk, hid]
  · refine ⟨?_, ?_, ?_⟩
    · intro j
      simp only [sortPass, hk, ne_eq, not_false_eq_true, if_true, store_apply, swapIdx, hv]
      split_ifs <;> simp_all
    · intro r c hr hc
      simp only [sortPass, hk, ne_eq, not_false_eq_true, if_true]
      exact sortSwapCols_ent V i _ (by omega) hlt (fun h => hk h.symm) r c hr hc
    · intro j hj
      simp only [sortPass, hk, ne_eq, not_false_eq_true, if_true]
      exact sortSwapCols_out V i _ (by omega) hlt j hj

theorem sortEig_eq (V d : Nat → α) : sortEig V d = sortPass 1 (sortPass 0 (V, d)) := by
  simp [sortEig, N, forUp_step, forUp_done]

theorem sortPass_snd_indep (V W d : Nat → α) (i : Nat) :
    (sortPass i (V, d)).2 = (sortPass i (W, d)).2 := by
  unfold sortPass
  simp only
  split_ifs <;> rfl

theorem sortPerm_table (d : Nat → α) :
    (sortPerm d 0 = 0 ∧ sortPerm d 1 = 1 ∧ sortPerm d 2 = 2 ∧ d 0 ≤ d 1 ∧ d 1 ≤ d 2) ∨
    (sortPerm d 0 = 0 ∧ sortPerm d 1 = 2 ∧ sortPerm d 2 = 1 ∧ d 0 ≤ d 2 ∧ d 2 < d 1) ∨
    (sortPerm d 0 = 1 ∧ sortPerm d 1 = 0 ∧ sortPerm d 2 = 2 ∧ d 1 < d 0 ∧ d 0 ≤ d 2) ∨
    (sortPerm d 0 = 1 ∧ sortPerm d 1 = 2 ∧ sortPerm d 2 = 0 ∧ d 1 ≤ d 2 ∧ d 2 < d 0) ∨
    (sortPerm d 0 = 2 ∧ sortPerm d 1 = 0 ∧ sortPerm d 2 = 1 ∧ d 2 < d 0 ∧ d 0 < d 1) ∨
    (sortPerm d 0 = 2 ∧ sortPerm d 1 = 1 ∧ sortPerm d 2 = 0 ∧ d 2 < d 1 ∧ d 1 ≤ d 0) := by
  by_cases h10 : d 1 < d 0 <;> by_cases h20 : d 2 < d 0 <;> by_cases h21 : d 2 < d 1 <;>
    by_cases h01 : d 0 < d 1 <;>
    simp [sortPerm, sortPass, sortScan, N, forUp_step, forUp_done, h10, h20, h21, h01, swapIdx] <;>
    simp only [not_lt] at * <;>
    first
      | exact ⟨by linarith, by linarith⟩
      | exact le_of_lt (by assumption)
      | assumption
      | linarith

theorem sortPerm_stable (d : Nat → α) (i j : Nat) (hi : i < 3) (hj : j < 3)
    (hlt : sortPerm d i < sortPerm d j) (heq : d (sortPerm d i) = d (sortPerm d j))
    (hex : ¬(d 2 < d 0 ∧ sortPerm d i = 0 ∧ sortPerm d j = 1)) : i < j := by
  rcases sortPerm_table d with h | h | h | h | h | h <;>
    obtain ⟨h0, h1, h2, ha, hb⟩ := h <;>
    interval_cases i <;> interval_cases j <;>
    (try simp only [h0, h1, h2] at hlt heq) <;>
    first
      | omega
      | (exfalso; linarith)
      | (exfalso; exact hex ⟨by linarith, by assumption, by assumption⟩)

theorem sortPerm_reversed (d : Nat → α) (h01 : d 0 = d 1) (h20 : d 2 < d 0) :
    sortPerm d 0 = 2 ∧ sortPerm d 1 = 1 ∧ sortPerm d 2 = 0 := by
  rcases sortPerm_table d with h | h | h | h | h | h <;>
    obtain ⟨h0, h1, h2, ha, hb⟩ := h <;>
    first
      | exact ⟨h0, h1, h2⟩
      | (exfalso; linarith)

/-! ## Inputs that need no QL iteration -/

theorem forDown_two_one {σ : Type} (body : Nat → σ → σ) (s : σ) :
    forDown 2 1 body s = body 1 (body 2 s) := rfl

theorem eps_pos : (0 : α) < eps := by
  unfold eps; positivity

theorem MAX_ge_right (a b : α) : b ≤ MAX a b := by
  unfold MAX; split_ifs with h
  · exact le_of_lt h
  · exact le_refl _

theorem MAX_ge_left (a b : α) : a ≤ MAX a b := by
  unfold MAX; split_ifs with h
  · exact le_refl _
  · exact not_lt.mp h

theorem MAX_nonneg (a b : α) (hb : 0 ≤ b) : 0 ≤ MAX a b := le_trans hb (MAX_ge_right a b)

/-- An index whose off-diagonal entry is already zero is passed without iterating. -/
theorem tql2Outer_deflated (sqrt : α → α) (fuel l : Nat) (q : QL α) (hl : l < 3)
    (he : q.e l = 0) : tql2Outer sqrt fuel l q = some (tql2Skip l q) := by
  have h0 : |q.e l| ≤ eps * MAX q.tst1 (|q.d l| + |q.e l|) := by
    rw [he, abs_zero]
    exact mul_nonneg eps_pos.le (MAX_nonneg _ _ (by positivity))
  obtain ⟨n, hn⟩ : ∃ n, N - l = n + 1 := ⟨N - l - 1, by unfold N; omega⟩
  unfold tql2Outer tql2Skip
  simp only [hn, tql2Scan, h0, if_true, gt_iff_lt, lt_irrefl, if_false, Option.map_some']

theorem tql2Diag_deflated (sqrt : α → α) (s : Bufs α)
    (h1 : s.e 1 = 0) (h2 : s.e 2 = 0) :
    ∃ q, (∀ fuel, tql2Diag sqrt fuel s = some q) ∧ q.V = s.V ∧ ∀ i, q.d i = s.d i := by
  refine ⟨tql2Skip 2 (tql2Skip 1 (tql2Skip 0
    { V := s.V, d := s.d, e := tql2Shift s.e, f := 0, tst1 := 0 })), fun fuel => ?_, rfl, ?_⟩
  · unfold tql2Diag
    simp only [N, forUp_step, forUp_done, Nat.lt_irrefl, Nat.reduceAdd, Nat.reduceLT,
      Nat.le_refl, Option.some_bind]
    rw [tql2Outer_deflated sqrt fuel 0 _ (by omega)
      (by simp [tql2Shift, N, forUp_step, forUp_done, h1])]
    simp only [Option.some_bind]
    rw [tql2Outer_deflated sqrt fuel 1 _ (by omega)
      (by simp [tql2Skip, tql2Shift, N, forUp_step, forUp_done, h2])]
    simp only [Option.some_bind]
    rw [tql2Outer_deflated sqrt fuel 2 _ (by omega)
      (by simp [tql2Skip, tql2Shift, N, forUp_step, forUp_done])]
  · intro i
    simp only [tql2Skip, store_apply, add_zero]
    split_ifs <;> simp_all

theorem tred2_diag (sqrt : α → α) (s : Bufs α)
    (h1 : s.V 1 = 0) (h2 : s.V 2 = 0) (h5 : s.V 5 = 0) :
    (List.range 9).map (tred2 sqrt s).V = [1, 0, 0, 0, 1, 0, 0, 0, 1] ∧
    (List.range 3).map (tred2 sqrt s).d = [s.V 0, s.V 4, s.V 8] ∧
    (List.range 3).map (tred2 sqrt s).e = [0, 0, 0] := by
  simp [tred2, tred2Init, tred2Row, tred2Scale, tred2Zero, tred2Accum, tred2Final,
    forDown_two_one, N, IND3X3, forUp_step, forUp_done, List.range, List.range.loop,
    h1, h2, h5]

theorem copyMatrix_apply (A V : Nat → α) (i : Nat) :
    copyMatrix A V i = if i < 9 then A i else V i := by
  simp only [copyMatrix, N, IND3X3, forUp_step, forUp_done, Nat.lt_irrefl, Nat.reduceAdd,
    Nat.reduceLT, Nat.le_refl, Nat.reduceMul, store_apply]
  split_ifs <;> first | rfl | omega | (subst_vars; rfl)

theorem sortPerm_lt (d : Nat → α) (i : Nat) (hi : i < 3) : sortPerm d i < 3 := by
  obtain ⟨-, -, hk0⟩ := sortScan_val d 0 (by omega)
  obtain ⟨-, -, hk1⟩ := sortScan_val (sortPass 0 (d, d)).2 1 (by omega)
  exact swapIdx_lt _ _ _ (by omega) hk0 (swapIdx_lt _ _ _ (by omega) hk1 hi)

theorem sortPerm_inj (d : Nat → α) (i j : Nat) (h : sortPerm d i = sortPerm d j) : i = j :=
  swapIdx_inj _ _ _ _ (swapIdx_inj _ _ _ _ h)

theorem eigen_diag_core (sqrt : α → α) (A V d e : Nat → α)
    (h1 : A 1 = 0) (h2 : A 2 = 0) (h5 : A 5 = 0) :
    ∃ W D, (∀ fuel, eigen_decomposition sqrt fuel A V d e = some (sortEig W D)) ∧
      (List.range 9).map W = [1, 0, 0, 0, 1, 0, 0, 0, 1] ∧
      (List.range 3).map D = [A 0, A 4, A 8] := by
  have ht := tred2_diag sqrt { V := copyMatrix A V, d := d, e := e }
    (by simp [copyMatrix_apply, h1]) (by simp [copyMatrix_apply, h2])
    (by simp [copyMatrix_apply, h5])
  obtain ⟨hV, hd, he⟩ := ht
  have he' := he
  simp only [List.range, List.range.loop, List.map_cons, List.map_nil, List.cons.injEq,
    and_true] at he'
  obtain ⟨q, hq, hqV, hqd⟩ := tql2Diag_deflated sqrt
    (tred2 sqrt { V := copyMatrix A V, d := d, e := e }) he'.2.1 he'.2.2
  refine ⟨q.V, q.d, ?_, ?_, ?_⟩
  · intro fuel
    simp only [eigen_decomposition, tql2, hq fuel, Option.map_some']
  · rw [hqV]; exact hV
  · have : q.d = (tred2 sqrt { V := copyMatrix A V, d := d, e := e }).d := funext hqd
    rw [this, hd]
    simp [copyMatrix_apply]

/-! ## Closed forms of the straight-line stages

Each lemma states what a stage writes, in terms of the buffer entries it reads;
all are checked by unfolding the stage (`rfl`). -/

theorem tred2Init_form (s : Bufs α) (v0 v1 v2 v3 v4 v5 v6 v7 v8 : α)
    (hV : Is9 s.V v0 v1 v2 v3 v4 v5 v6 v7 v8) :
    Is9 (tred2Init s).V v0 v1 v2 v3 v4 v5 v6 v7 v8 ∧ Is3 (tred2Init s).d v2 v5 v8 ∧
      (tred2Init s).e = s.e := by
  obtain ⟨h0, h1, h2, h3, h4, h5, h6, h7, h8⟩ := hV
  subst h0 h1 h2 h3 h4 h5 h6 h7 h8
  exact ⟨⟨rfl, rfl, rfl, rfl, rfl, rfl, rfl, rfl, rfl⟩, ⟨rfl, rfl, rfl⟩, rfl⟩

theorem tred2Zero_two_form (s : Bufs α) (v0 v1 v2 v3 v4 v5 v6 v7 v8 d0 d1 d2 : α)
    (hV : Is9 s.V v0 v1 v2 v3 v4 v5 v6 v7 v8) (hd : Is3 s.d d0 d1 d2) :
    Is9 (tred2Zero 2 s).V v0 v1 0 v3 v4 0 0 0 v8 ∧ Is3 (tred2Zero 2 s).d v1 v4 d2 ∧
      (tred2Zero 2 s).e 2 = d1 := by
  obtain ⟨h0, h1, h2, h3, h4, h5, h6, h7, h8⟩ := hV
  obtain ⟨e0, e1, e2⟩ := hd
  subst h0 h1 h2 h3 h4 h5 h6 h7 h8 e0 e1 e2
  exact ⟨⟨rfl, rfl, rfl, rfl, rfl, rfl, rfl, rfl, rfl⟩, ⟨rfl, rfl, rfl⟩, rfl⟩

theorem tred2Zero_one_form (s : Bufs α) (v0 v1 v2 v3 v4 v5 v6 v7 v8 d0 d1 d2 e2 : α)
    (hV : Is9 s.V v0 v1 v2 v3 v4 v5 v6 v7 v8) (hd : Is3 s.d d0 d1 d2) (he : s.e 2 = e2) :
    Is9 (tred2Zero 1 s).V v0 0 v2 0 v4 v5 v6 v7 v8 ∧ Is3 (tred2Zero 1 s).d v0 d1 d2 ∧
      (tred2Zero 1 s).e 1 = d0 ∧ (tred2Zero 1 s).e 2 = e2 := by
  obtain ⟨h0, h1, h2, h3, h4, h5, h6, h7, h8⟩ := hV
  obtain ⟨e0, e1, e2⟩ := hd
  subst h0 h1 h2 h3 h4 h5 h6 h7 h8 e0 e1 e2 he
  exact ⟨⟨rfl, rfl, rfl, rfl, rfl, rfl, rfl, rfl, rfl⟩, ⟨rfl, rfl, rfl⟩, rfl, rfl⟩

theorem tred2House_two_form (sqrt : α → α) (scale : α) (s : Bufs α)
    (v0 v1 v2 v3 v4 v5 v6 v7 v8 d0 d1 d2 x y g h u1 p0 p1 K q0 q1 : α)
    (hV : Is9 s.V v0 v1 v2 v3 v4 v5 v6 v7 v8) (hd : Is3 s.d d0 d1 d2)
    (hx : x = d0 / scale) (hy : y = d1 / scale)
    (hg : g = if y > 0 then -sqrt (0 + x * x + y * y) else sqrt (0 + x * x + y * y))
    (hh : h = 0 + x * x + y * y - y * g)
    (hu : u1 = y - g)
    (hp0 : p0 = (0 + v0 * x + v1 * u1) / h)
    (hp1 : p1 = (0 + v1 * x + v4 * u1) / h)
    (hK : K = (0 + p0 * x + p1 * u1) / (h + h))
    (hq0 : q0 = p0 - K * x) (hq1 : q1 = p1 - K * u1) :
    Is9 (tred2House sqrt 2 scale s).1.V (v0 - (x * q0 + q0 * x)) (v1 - (x * q1 + q0 * u1)) 0
      v3 (v4 - (u1 * q1 + q1 * u1)) 0 x u1 v8 ∧
    Is3 (tred2House sqrt 2 scale s).1.d (v1 - (x * q1 + q0 * u1)) (v4 - (u1 * q1 + q1 * u1)) d2 ∧
    (tred2House sqrt 2 scale s).1.e 2 = scale * g ∧
    (tred2House sqrt 2 scale s).2 = h := by
  obtain ⟨h0, h1, h2, h3, h4, h5, h6, h7, h8⟩ := hV
  obtain ⟨e0, e1, e2⟩ := hd
  subst h0 h1 h2 h3 h4 h5 h6 h7 h8 e0 e1 e2 hx hy hg hh hu hp0 hp1 hK hq0 hq1
  exact ⟨⟨rfl, rfl, rfl, rfl, rfl, rfl, rfl, rfl, rfl⟩, ⟨rfl, rfl, rfl⟩, rfl, rfl⟩

theorem tred2House_one_form (sqrt : α → α) (scale : α) (s : Bufs α)
    (v0 v1 v2 v3 v4 v5 v6 v7 v8 d0 d1 d2 e2 x g h w p K q : α)
    (hV : Is9 s.V v0 v1 v2 v3 v4 v5 v6 v7 v8) (hd : Is3 s.d d0 d1 d2) (he : s.e 2 = e2)
    (hx : x = d0 / scale)
    (hg : g = if x > 0 then -sqrt (0 + x * x) else sqrt (0 + x * x))
    (hh : h = 0 + x * x - x * g)
    (hw : w = x - g)
    (hp : p = (0 + v0 * w) / h)
    (hK : K = (0 + p * w) / (h + h))
    (hq : q = p - K * w) :
    Is9 (tred2House sqrt 1 scale s).1.V (v0 - (w * q + q * w)) 0 v2 w v4 v5 v6 v7 v8 ∧
    Is3 (tred2House sqrt 1 scale s).1.d (v0 - (w * q + q * w)) d1 d2 ∧
    (tred2House sqrt 1 scale s).1.e 1 = scale * g ∧
    (tred2House sqrt 1 scale s).1.e 2 = e2 ∧
    (tred2House sqrt 1 scale s).2 = h := by
  obtain ⟨h0, h1, h2, h3, h4, h5, h6, h7, h8⟩ := hV
  obtain ⟨e0, e1, e2⟩ := hd
  subst h0 h1 h2 h3 h4 h5 h6 h7 h8 e0 e1 e2 he hx hg hh hw hp hK hq
  exact ⟨⟨rfl, rfl, rfl, rfl, rfl, rfl, rfl, rfl, rfl⟩, ⟨rfl, rfl, rfl⟩, rfl, rfl, rfl⟩

theorem tred2Accum_zero_skip (s : Bufs α) (v0 v1 v2 v3 v4 v5 v6 v7 v8 d0 d1 d2 : α)
    (hV : Is9 s.V v0 v1 v2 v3 v4 v5 v6 v7 v8) (hd : Is3 s.d d0 d1 d2) (hz : d1 = 0) :
    Is9 (tred2Accum 0 s).V 1 v1 v0 0 v4 v5 v6 v7 v8 ∧ Is3 (tred2Accum 0 s).d d0 d1 d2 ∧
      (tred2Accum 0 s).e = s.e := by
  obtain ⟨h0, h1, h2, h3, h4, h5, h6, h7, h8⟩ := hV
  obtain ⟨e0, e1, e2⟩ := hd
  have hc : ¬ s.d (0 + 1) ≠ 0 := by rw [not_not]; exact e1.trans hz
  subst h0 h1 h2 h3 h4 h5 h6 h7 h8 e0 e2
  unfold tred2Accum
  simp only [if_neg hc]
  refine ⟨⟨?_, ?_, ?_, ?_, ?_, ?_, ?_, ?_, ?_⟩, ⟨?_, ?_, ?_⟩, ?_⟩ <;>
    first | rfl | trivial

theorem tred2Accum_zero_form (s : Bufs α) (v0 v1 v2 v3 v4 v5 v6 v7 v8 d0 d1 d2 : α)
    (hV : Is9 s.V v0 v1 v2 v3 v4 v5 v6 v7 v8) (hd : Is3 s.d d0 d1 d2) (hz : d1 ≠ 0) :
    Is9 (tred2Accum 0 s).V (1 - (0 + v3 * 1) * (v3 / d1)) v1 v0 0 v4 v5 v6 v7 v8 ∧
      Is3 (tred2Accum 0 s).d (v3 / d1) d1 d2 ∧
      (tred2Accum 0 s).e = s.e := by
  obtain ⟨h0, h1, h2, h3, h4, h5, h6, h7, h8⟩ := hV
  obtain ⟨e0, e1, e2⟩ := hd
  subst h0 h1 h2 h3 h4 h5 h6 h7 h8 e0 e1 e2
  have hc : s.d (0 + 1) ≠ 0 := hz
  unfold tred2Accum
  simp only [if_pos hc]
  refine ⟨⟨?_, ?_, ?_, ?_, ?_, ?_, ?_, ?_, ?_⟩, ⟨?_, ?_, ?_⟩, ?_⟩ <;>
    first | rfl | trivial

theorem tred2Accum_one_skip (s : Bufs α) (v0 v1 v2 v3 v4 v5 v6 v7 v8 d0 d1 d2 : α)
    (hV : Is9 s.V v0 v1 v2 v3 v4 v5 v6 v7 v8) (hd : Is3 s.d d0 d1 d2) (hz : d2 = 0) :
    Is9 (tred2Accum 1 s).V v0 v1 v2 v3 1 v4 0 0 v8 ∧ Is3 (tred2Accum 1 s).d d0 d1 d2 ∧
      (tred2Accum 1 s).e = s.e := by
  obtain ⟨h0, h1, h2, h3, h4, h5, h6, h7, h8⟩ := hV
  obtain ⟨e0, e1, e2⟩ := hd
  have hc : ¬ s.d (1 + 1) ≠ 0 := by rw [not_not]; exact e2.trans hz
  subst h0 h1 h2 h3 h4 h5 h6 h7 h8 e0 e1
  unfold tred2Accum
  simp only [if_neg hc]
  refine ⟨⟨?_, ?_, ?_, ?_, ?_, ?_, ?_, ?_, ?_⟩, ⟨?_, ?_, ?_⟩, ?_⟩ <;>
    first | rfl | trivial

theorem tred2Accum_one_form (s : Bufs α) (v0 v1 v2 v3 v4 v5 v6 v7 v8 d0 d1 d2 g0 g1 w0 w1 : α)
    (hV : Is9 s.V v0 v1 v2 v3 v4 v5 v6 v7 v8) (hd : Is3 s.d d0 d1 d2) (hz : d2 ≠ 0)
    (hg0 : g0 = 0 + v6 * v0 + v7 * v1)
    (hw0 : w0 = v0 - g0 * (v6 / d2)) (hw1 : w1 = v1 - g0 * (v7 / d2))
    (hg1 : g1 = 0 + v6 * v3 + v7 * 1) :
    Is9 (tred2Accum 1 s).V w0 w1 v2 (v3 - g1 * (v6 / d2)) (1 - g1 * (v7 / d2)) v4 0 0 v8 ∧
      Is3 (tred2Accum 1 s).d (v6 / d2) (v7 / d2) d2 ∧
      (tred2Accum 1 s).e = s.e := by
  obtain ⟨h0, h1, h2, h3, h4, h5, h6, h7, h8⟩ := hV
  obtain ⟨e0, e1, e2⟩ := hd
  subst h0 h1 h2 h3 h4 h5 h6 h7 h8 e0 e1 e2 hg0 hw0 hw1 hg1
  have hc : s.d (1 + 1) ≠ 0 := hz
  unfold tred2Accum
  simp only [if_pos hc]
  refine ⟨⟨?_, ?_, ?_, ?_, ?_, ?_, ?_, ?_, ?_⟩, ⟨?_, ?_, ?_⟩, ?_⟩ <;>
    first | rfl | trivial

theorem tred2Final_form (s : Bufs α) (v0 v1 v2 v3 v4 v5 v6 v7 v8 e1 e2 : α)
    (hV : Is9 s.V v0 v1 v2 v3 v4 v5 v6 v7 v8) (h1 : s.e 1 = e1) (h2 : s.e 2 = e2) :
    Is9 (tred2Final s).V v0 v1 0 v3 v4 0 v6 v7 1 ∧ Is3 (tred2Final s).d v2 v5 v8 ∧
      Is3 (tred2Final s).e 0 e1 e2 := by
  obtain ⟨h0, h1, h2, h3, h4, h5, h6, h7, h8⟩ := hV
  subst h0 h1 h2 h3 h4 h5 h6 h7 h8
  subst h1 h2
  exact ⟨⟨rfl, rfl, rfl, rfl, rfl, rfl, rfl, rfl, rfl⟩, ⟨rfl, rfl, rfl⟩, ⟨rfl, rfl, rfl⟩⟩

theorem tql2Step_01_form (sqrt : α → α) (q : QL α)
    (v0 v1 v2 v3 v4 v5 v6 v7 v8 d0 d1 d2 e0 e1 e2 p r dl dl1 h r0 s c pf : α)
    (hV : Is9 q.V v0 v1 v2 v3 v4 v5 v6 v7 v8) (hd : Is3 q.d d0 d1 d2) (he : Is3 q.e e0 e1 e2)
    (hp : p = (d1 - d0) / (2 * e0))
    (hr : r = if p < 0 then -sqrt (p * p + 1 * 1) else sqrt (p * p + 1 * 1))
    (hdl : dl = e0 / (p + r)) (hdl1 : dl1 = e0 * (p + r)) (hh : h = d0 - dl)
    (hr0 : r0 = sqrt (dl1 * dl1 + e0 * e0)) (hs : s = e0 / r0) (hc : c = dl1 / r0)
    (hpf : pf = -s * 0 * 1 * e1 * e0 / dl1) :
    Is9 (tql2Step sqrt 0 1 q).V (c * v0 - s * v3) (c * v1 - s * v4) (c * v2 - s * v5)
      (s * v0 + c * v3) (s * v1 + c * v4) (s * v2 + c * v5) v6 v7 v8 ∧
    Is3 (tql2Step sqrt 0 1 q).d (c * pf) (1 * dl1 + s * (c * (1 * e0) + s * dl)) (d2 - h) ∧
    Is3 (tql2Step sqrt 0 1 q).e (s * pf) (0 * r0) e2 ∧
    (tql2Step sqrt 0 1 q).f = q.f + h ∧ (tql2Step sqrt 0 1 q).tst1 = q.tst1 := by
  obtain ⟨h0, h1, h2, h3, h4, h5, h6, h7, h8⟩ := hV
  obtain ⟨a0, a1, a2⟩ := hd
  obtain ⟨b0, b1, b2⟩ := he
  subst h0 h1 h2 h3 h4 h5 h6 h7 h8 a0 a1 a2 b0 b1 b2 hp hr hdl hdl1 hh hr0 hs hc hpf
  exact ⟨⟨rfl, rfl, rfl, rfl, rfl, rfl, rfl, rfl, rfl⟩, ⟨rfl, rfl, rfl⟩, ⟨rfl, rfl, rfl⟩,
    rfl, rfl⟩

theorem tql2Step_12_form (sqrt : α → α) (q : QL α)
    (v0 v1 v2 v3 v4 v5 v6 v7 v8 d0 d1 d2 e0 e1 e2 p r dl dl1 h r0 s c pf : α)
    (hV : Is9 q.V v0 v1 v2 v3 v4 v5 v6 v7 v8) (hd : Is3 q.d d0 d1 d2) (he : Is3 q.e e0 e1 e2)
    (hp : p = (d2 - d1) / (2 * e1))
    (hr : r = if p < 0 then -sqrt (p * p + 1 * 1) else sqrt (p * p + 1 * 1))
    (hdl : dl = e1 / (p + r)) (hdl1 : dl1 = e1 * (p + r)) (hh : h = d1 - dl)
    (hr0 : r0 = sqrt (dl1 * dl1 + e1 * e1)) (hs : s = e1 / r0) (hc : c = dl1 / r0)
    (hpf : pf = -s * 0 * 1 * e2 * e1 / dl1) :
    Is9 (tql2Step sqrt 1 2 q).V v0 v1 v2 (c * v3 - s * v6) (c * v4 - s * v7) (c * v5 - s * v8)
      (s * v3 + c * v6) (s * v4 + c * v7) (s * v5 + c * v8) ∧
    Is3 (tql2Step sqrt 1 2 q).d d0 (c * pf) (1 * dl1 + s * (c * (1 * e1) + s * dl)) ∧
    Is3 (tql2Step sqrt 1 2 q).e e0 (s * pf) (0 * r0) ∧
    (tql2Step sqrt 1 2 q).f = q.f + h ∧ (tql2Step sqrt 1 2 q).tst1 = q.tst1 := by
  obtain ⟨h0, h1, h2, h3, h4, h5, h6, h7, h8⟩ := hV
  obtain ⟨a0, a1, a2⟩ := hd
  obtain ⟨b0, b1, b2⟩ := he
  subst h0 h1 h2 h3 h4 h5 h6 h7 h8 a0 a1 a2 b0 b1 b2 hp hr hdl hdl1 hh hr0 hs hc hpf
  exact ⟨⟨rfl, rfl, rfl, rfl, rfl, rfl, rfl, rfl, rfl⟩, ⟨rfl, rfl, rfl⟩, ⟨rfl, rfl, rfl⟩,
    rfl, rfl⟩

theorem tql2Step_02_form (sqrt : α → α) (q : QL α)
    (v0 v1 v2 v3 v4 v5 v6 v7 v8 d0 d1 d2 e0 e1 e2 p r dl dl1 h P2 r1 s1 c1 p1 r0 s0 c0 pf : α)
    (w3 w4 w5 : α)
    (hV : Is9 q.V v0 v1 v2 v3 v4 v5 v6 v7 v8) (hd : Is3 q.d d0 d1 d2) (he : Is3 q.e e0 e1 e2)
    (hp : p = (d1 - d0) / (2 * e0))
    (hr : r = if p < 0 then -sqrt (p * p + 1 * 1) else sqrt (p * p + 1 * 1))
    (hdl : dl = e0 / (p + r)) (hdl1 : dl1 = e0 * (p + r)) (hh : h = d0 - dl)
    (hP2 : P2 = d2 - h)
    (hr1 : r1 = sqrt (P2 * P2 + e1 * e1)) (hs1 : s1 = e1 / r1) (hc1 : c1 = P2 / r1)
    (hp1 : p1 = c1 * dl1 - s1 * (1 * e1))
    (hr0 : r0 = sqrt (p1 * p1 + e0 * e0)) (hs0 : s0 = e0 / r0) (hc0 : c0 = p1 / r0)
    (hpf : pf = -s0 * s1 * 1 * e1 * e0 / dl1)
    (hw3 : w3 = c1 * v3 - s1 * v6) (hw4 : w4 = c1 * v4 - s1 * v7) (hw5 : w5 = c1 * v5 - s1 * v8) :
    Is9 (tql2Step sqrt 0 2 q).V (c0 * v0 - s0 * w3) (c0 * v1 - s0 * w4) (c0 * v2 - s0 * w5)
      (s0 * v0 + c0 * w3) (s0 * v1 + c0 * w4) (s0 * v2 + c0 * w5)
      (s1 * v3 + c1 * v6) (s1 * v4 + c1 * v7) (s1 * v5 + c1 * v8) ∧
    Is3 (tql2Step sqrt 0 2 q).d (c0 * pf) (c1 * p1 + s0 * (c0 * (c1 * e0) + s0 * dl))
      (1 * P2 + s1 * (c1 * (1 * e1) + s1 * dl1)) ∧
    Is3 (tql2Step sqrt 0 2 q).e (s0 * pf) (s1 * r0) (0 * r1) ∧
    (tql2Step sqrt 0 2 q).f = q.f + h ∧ (tql2Step sqrt 0 2 q).tst1 = q.tst1 := by
  obtain ⟨h0, h1, h2, h3, h4, h5, h6, h7, h8⟩ := hV
  obtain ⟨a0, a1, a2⟩ := hd
  obtain ⟨b0, b1, b2⟩ := he
  subst h0 h1 h2 h3 h4 h5 h6 h7 h8 a0 a1 a2 b0 b1 b2 hp hr hdl hdl1 hh hP2 hr1 hs1 hc1 hp1
    hr0 hs0 hc0 hpf hw3 hw4 hw5
  exact ⟨⟨rfl, rfl, rfl, rfl, rfl, rfl, rfl, rfl, rfl⟩, ⟨rfl, rfl, rfl⟩, ⟨rfl, rfl, rfl⟩,
    rfl, rfl⟩

/-! ## Determinism: the result depends on the input matrix only -/

theorem agree9 {V W : Nat → α} {a0 a1 a2 a3 a4 a5 a6 a7 a8 : α}
    (h : Is9 V a0 a1 a2 a3 a4 a5 a6 a7 a8) (k : Is9 W a0 a1 a2 a3 a4 a5 a6 a7 a8) :
    ∀ i, i < 9 → V i = W i := by
  obtain ⟨h0, h1, h2, h3, h4, h5, h6, h7, h8⟩ := h
  obtain ⟨k0, k1, k2, k3, k4, k5, k6, k7, k8⟩ := k
  intro i hi
  interval_cases i
  · exact h0.trans k0.symm
  · exact h1.trans k1.symm
  · exact h2.trans k2.symm
  · exact h3.trans k3.symm
  · exact h4.trans k4.symm
  · exact h5.trans k5.symm
  · exact h6.trans k6.symm
  · exact h7.trans k7.symm
  · exact h8.trans k8.symm

theorem agree3 {d d' : Nat → α} {a0 a1 a2 : α} (h : Is3 d a0 a1 a2) (k : Is3 d' a0 a1 a2) :
    ∀ i, i < 3 → d i = d' i := by
  obtain ⟨h0, h1, h2⟩ := h
  obtain ⟨k0, k1, k2⟩ := k
  intro i hi
  interval_cases i
  · exact h0.trans k0.symm
  · exact h1.trans k1.symm
  · exact h2.trans k2.symm

theorem is9_self (V : Nat → α) : Is9 V (V 0) (V 1) (V 2) (V 3) (V 4) (V 5) (V 6) (V 7) (V 8) :=
  ⟨rfl, rfl, rfl, rfl, rfl, rfl, rfl, rfl, rfl⟩

theorem is9_of_agree {V W : Nat → α} (h : ∀ i, i < 9 → V i = W i) :
    Is9 W (V 0) (V 1) (V 2) (V 3) (V 4) (V 5) (V 6) (V 7) (V 8) :=
  ⟨(h 0 (by omega)).symm, (h 1 (by omega)).symm, (h 2 (by omega)).symm, (h 3 (by omega)).symm,
    (h 4 (by omega)).symm, (h 5 (by omega)).symm, (h 6 (by omega)).symm, (h 7 (by omega)).symm,
    (h 8 (by omega)).symm⟩

theorem is3_of_agree {d d' : Nat → α} (h : ∀ i, i < 3 → d i = d' i) :
    Is3 d' (d 0) (d 1) (d 2) :=
  ⟨(h 0 (by omega)).symm, (h 1 (by omega)).symm, (h 2 (by omega)).symm⟩

theorem tred2Init_agree (s t : Bufs α) (h : ∀ i, i < 9 → s.V i = t.V i) :
    Agree 0 3 (tred2Init s) (tred2Init t) := by
  obtain ⟨hV, hd, -⟩ := tred2Init_form s _ _ _ _ _ _ _ _ _ (is9_self s.V)
  obtain ⟨kV, kd, -⟩ := tred2Init_form t _ _ _ _ _ _ _ _ _ (is9_of_agree h)
  exact ⟨agree9 hV kV, fun i _ hi => agree3 hd kd i hi, fun i h1 h2 => by omega⟩

theorem tred2Row_zero (sqrt : α → α) (i : Nat) (s : Bufs α) (h : tred2Scale s.d i = 0) :
    tred2Row sqrt i s = { tred2Zero i s with d := store (tred2Zero i s).d i 0 } := by
  unfold tred2Row
  simp only [h, if_true]

theorem tred2Row_house (sqrt : α → α) (i : Nat) (s : Bufs α) (h : ¬ tred2Scale s.d i = 0) :
    tred2Row sqrt i s =
      { (tred2House sqrt i (tred2Scale s.d i) s).1 with
        d := store (tred2House sqrt i (tred2Scale s.d i) s).1.d i
          (tred2House sqrt i (tred2Scale s.d i) s).2 } := by
  unfold tred2Row
  simp only [h, if_false]

theorem tred2Row_two_agree (sqrt : α → α) (s t : Bufs α) (h : Agree 0 3 s t) :
    Agree 0 2 (tred2Row sqrt 2 s) (tred2Row sqrt 2 t) := by
  obtain ⟨aV, ad, -⟩ := h
  have ad' : ∀ i, i < 3 → s.d i = t.d i := fun i hi => ad i (by omega) hi
  have hs : tred2Scale t.d 2 = tred2Scale s.d 2 := by
    show 0 + |t.d 0| + |t.d 1| = 0 + |s.d 0| + |s.d 1|
    rw [ad' 0 (by omega), ad' 1 (by omega)]
  by_cases hc : tred2Scale s.d 2 = 0
  · rw [tred2Row_zero sqrt 2 s hc, tred2Row_zero sqrt 2 t (hs.trans hc)]
    obtain ⟨hV, hd, he⟩ := tred2Zero_two_form s _ _ _ _ _ _ _ _ _ _ _ _ (is9_self s.V)
      ⟨rfl, rfl, rfl⟩
    obtain ⟨kV, kd, ke⟩ := tred2Zero_two_form t _ _ _ _ _ _ _ _ _ _ _ _ (is9_of_agree aV)
      (is3_of_agree ad')
    refine ⟨agree9 hV kV, ?_, ?_⟩
    · intro i _ hi
      interval_cases i
      · exact hd.1.trans kd.1.symm
      · exact hd.2.1.trans kd.2.1.symm
      · rfl
    · intro i h1 h2
      interval_cases i
      exact he.trans ke.symm
  · rw [tred2Row_house sqrt 2 s hc, tred2Row_house sqrt 2 t (fun h' => hc (hs.symm.trans h')), hs]
    obtain ⟨hV, hd, he, hh⟩ := tred2House_two_form sqrt (tred2Scale s.d 2) s
      _ _ _ _ _ _ _ _ _ _ _ _ _ _ _ _ _ _ _ _ _ _ (is9_self s.V) ⟨rfl, rfl, rfl⟩
      rfl rfl rfl rfl rfl rfl rfl rfl rfl rfl
    obtain ⟨kV, kd, ke, kh⟩ := tred2House_two_form sqrt (tred2Scale s.d 2) t
      _ _ _ _ _ _ _ _ _ _ _ _ _ _ _ _ _ _ _ _ _ _ (is9_of_agree aV) (is3_of_agree ad')
      rfl rfl rfl rfl rfl rfl rfl rfl rfl rfl
    refine ⟨agree9 hV kV, ?_, ?_⟩
    · intro i _ hi
      interval_cases i
      · exact hd.1.trans kd.1.symm
      · exact hd.2.1.trans kd.2.1.symm
      · exact hh.trans kh.symm
    · intro i h1 h2
      interval_cases i
      exact he.trans ke.symm

theorem tred2Row_one_agree (sqrt : α → α) (s t : Bufs α) (h : Agree 0 2 s t) :
    Agree 0 1 (tred2Row sqrt 1 s) (tred2Row sqrt 1 t) := by
  obtain ⟨aV, ad, ae⟩ := h
  have ad' : ∀ i, i < 3 → s.d i = t.d i := fun i hi => ad i (by omega) hi
  have ae2 : t.e 2 = s.e 2 := (ae 2 (by omega) (by omega)).symm
  have hs : tred2Scale t.d 1 = tred2Scale s.d 1 := by
    show 0 + |t.d 0| = 0 + |s.d 0|
    rw [ad' 0 (by omega)]
  by_cases hc : tred2Scale s.d 1 = 0
  · rw [tred2Row_zero sqrt 1 s hc, tred2Row_zero sqrt 1 t (hs.trans hc)]
    obtain ⟨hV, hd, he1, he2⟩ := tred2Zero_one_form s _ _ _ _ _ _ _ _ _ _ _ _ _ (is9_self s.V)
      ⟨rfl, rfl, rfl⟩ rfl
    obtain ⟨kV, kd, ke1, ke2⟩ := tred2Zero_one_form t _ _ _ _ _ _ _ _ _ _ _ _ _
      (is9_of_agree aV) (is3_of_agree ad') ae2
    refine ⟨agree9 hV kV, ?_, ?_⟩
    · intro i _ hi
      interval_cases i
      · exact hd.1.trans kd.1.symm
      · rfl
      · exact hd.2.2.trans kd.2.2.symm
    · intro i h1 h2
      interval_cases i
      · exact he1.trans ke1.symm
      · exact he2.trans ke2.symm
  · rw [tred2Row_house sqrt 1 s hc, tred2Row_house sqrt 1 t (fun h' => hc (hs.symm.trans h')), hs]
    obtain ⟨hV, hd, he1, he2, hh⟩ := tred2House_one_form sqrt (tred2Scale s.d 1) s
      _ _ _ _ _ _ _ _ _ _ _ _ _ _ _ _ _ _ _ _ (is9_self s.V) ⟨rfl, rfl, rfl⟩ rfl
      rfl rfl rfl rfl rfl rfl rfl
    obtain ⟨kV, kd, ke1, ke2, kh⟩ := tred2House_one_form sqrt (tred2Scale s.d 1) t
      _ _ _ _ _ _ _ _ _ _ _ _ _ _ _ _ _ _ _ _ (is9_of_agree aV) (is3_of_agree ad') ae2
      rfl rfl rfl rfl rfl rfl rfl
    refine ⟨agree9 hV kV, ?_, ?_⟩
    · intro i _ hi
      interval_cases i
      · exact hd.1.trans kd.1.symm
      · exact hh.trans kh.symm
      · exact hd.2.2.trans kd.2.2.symm
    · intro i h1 h2
      interval_cases i
      · exact he1.trans ke1.symm
      · exact he2.trans ke2.symm

theorem tred2Accum_zero_agree (s t : Bufs α) (h : Agree 0 1 s t) :
    Agree 0 1 (tred2Accum 0 s) (tred2Accum 0 t) := by
  obtain ⟨aV, ad, ae⟩ := h
  have ad' : ∀ i, i < 3 → s.d i = t.d i := fun i hi => ad i (by omega) hi
  by_cases hc : s.d 1 = 0
  · obtain ⟨hV, hd, he⟩ := tred2Accum_zero_skip s _ _ _ _ _ _ _ _ _ _ _ _ (is9_self s.V)
      ⟨rfl, rfl, rfl⟩ hc
    obtain ⟨kV, kd, ke⟩ := tred2Accum_zero_skip t _ _ _ _ _ _ _ _ _ _ _ _ (is9_of_agree aV)
      (is3_of_agree ad') hc
    exact ⟨agree9 hV kV, fun i _ hi => agree3 hd kd i hi, fun i h1 h2 => by
      rw [he, ke]; exact ae i h1 h2⟩
  · obtain ⟨hV, hd, he⟩ := tred2Accum_zero_form s _ _ _ _ _ _ _ _ _ _ _ _ (is9_self s.V)
      ⟨rfl, rfl, rfl⟩ hc
    obtain ⟨kV, kd, ke⟩ := tred2Accum_zero_form t _ _ _ _ _ _ _ _ _ _ _ _ (is9_of_agree aV)
      (is3_of_agree ad') hc
    exact ⟨agree9 hV kV, fun i _ hi => agree3 hd kd i hi, fun i h1 h2 => by
      rw [he, ke]; exact ae i h1 h2⟩

theorem tred2Accum_one_agree (s t : Bufs α) (h : Agree 0 1 s t) :
    Agree 0 1 (tred2Accum 1 s) (tred2Accum 1 t) := by
  obtain ⟨aV, ad, ae⟩ := h
  have ad' : ∀ i, i < 3 → s.d i = t.d i := fun i hi => ad i (by omega) hi
  by_cases hc : s.d 2 = 0
  · obtain ⟨hV, hd, he⟩ := tred2Accum_one_skip s _ _ _ _ _ _ _ _ _ _ _ _ (is9_self s.V)
      ⟨rfl, rfl, rfl⟩ hc
    obtain ⟨kV, kd, ke⟩ := tred2Accum_one_skip t _ _ _ _ _ _ _ _ _ _ _ _ (is9_of_agree aV)
      (is3_of_agree ad') hc
    exact ⟨agree9 hV kV, fun i _ hi => agree3 hd kd i hi, fun i h1 h2 => by
      rw [he, ke]; exact ae i h1 h2⟩
  · obtain ⟨hV, hd, he⟩ := tred2Accum_one_form s _ _ _ _ _ _ _ _ _ _ _ _ _ _ _ _
      (is9_self s.V) ⟨rfl, rfl, rfl⟩ hc rfl rfl rfl rfl
    obtain ⟨kV, kd, ke⟩ := tred2Accum_one_form t _ _ _ _ _ _ _ _ _ _ _ _ _ _ _ _
      (is9_of_agree aV) (is3_of_agree ad') hc rfl rfl rfl rfl
    exact ⟨agree9 hV kV, fun i _ hi => agree3 hd kd i hi, fun i h1 h2 => by
      rw [he, ke]; exact ae i h1 h2⟩

theorem tred2Final_agree (s t : Bufs α) (h : Agree 0 1 s t) :
    Agree 0 0 (tred2Final s) (tred2Final t) := by
  obtain ⟨aV, -, ae⟩ := h
  obtain ⟨hV, hd, he⟩ := tred2Final_form s _ _ _ _ _ _ _ _ _ _ _ (is9_self s.V) rfl rfl
  obtain ⟨kV, kd, ke⟩ := tred2Final_form t _ _ _ _ _ _ _ _ _ _ _ (is9_of_agree aV)
    (ae 1 (by omega) (by omega)).symm (ae 2 (by omega) (by omega)).symm
  exact ⟨agree9 hV kV, fun i _ hi => agree3 hd kd i hi, fun i _ hi => agree3 he ke i hi⟩

theorem tred2_eq (sqrt : α → α) (s : Bufs α) :
    tred2 sqrt s = tred2Final (tred2Accum 1 (tred2Accum 0 (tred2Row sqrt 1
      (tred2Row sqrt 2 (tred2Init s))))) := by
  simp only [tred2, N, Nat.reduceSub, forDown_two_one, forUp_step, forUp_done, Nat.lt_irrefl,
    Nat.reduceAdd, Nat.reduceLT, Nat.le_refl]

/-- The observable result of `tred2` depends on `V[0..8]` only. -/
theorem tred2_agree (sqrt : α → α) (s t : Bufs α) (h : ∀ i, i < 9 → s.V i = t.V i) :
    Agree 0 0 (tred2 sqrt s) (tred2 sqrt t) := by
  rw [tred2_eq, tred2_eq]
  exact tred2Final_agree _ _ (tred2Accum_one_agree _ _ (tred2Accum_zero_agree _ _
    (tred2Row_one_agree sqrt _ _ (tred2Row_two_agree sqrt _ _ (tred2Init_agree s t h)))))

/-! ## Claims about the sort stage -/

theorem sortPerm_perm (d : Nat → α) : IsPerm3 (sortPerm d) :=
  ⟨fun i hi => sortPerm_lt d i hi, fun i j _ _ h => sortPerm_inj d i j h⟩

theorem sortPerm_tracks (V d : Nat → α) :
    Tracks (sortPerm d) V d (sortEig V d).1 (sortEig V d).2 := by
  obtain ⟨-, -, hk0⟩ := sortScan_val d 0 (by omega)
  obtain ⟨-, -, hk1⟩ := sortScan_val (sortPass 0 (d, d)).2 1 (by omega)
  have e1 := sortPass_spec (sortPass 0 (V, d)).1 (sortPass 0 (V, d)).2 1 (by omega)
  have e0 := sortPass_spec V d 0 (by omega)
  have hd : (sortPass 0 (V, d)).2 = (sortPass 0 (d, d)).2 := sortPass_snd_indep V d d 0
  rw [sortEig_eq]
  rw [show sortPass 0 (V, d) = ((sortPass 0 (V, d)).1, (sortPass 0 (V, d)).2) from rfl]
  rw [hd] at e1
  unfold sortPerm
  refine ⟨?_, ?_, ?_, ?_⟩
  · intro i _
    rw [hd, e1.1, ← hd, e0.1]
  · intro r i hr hi
    rw [hd, e1.2.1 r i hr hi, e0.2.1 r _ hr (swapIdx_lt _ _ _ (by omega) hk1 hi)]
  · intro j hj
    rw [hd, e1.1, swapIdx_ge 1 _ j 3 (by omega) hk1 hj, ← hd, e0.1,
      swapIdx_ge 0 _ j 3 (by omega) hk0 hj]
  · intro j hj
    rw [hd, e1.2.2 j hj, e0.2.2 j hj]

theorem sortEig_sorted (V d : Nat → α) :
    (sortEig V d).2 0 ≤ (sortEig V d).2 1 ∧ (sortEig V d).2 1 ≤ (sortEig V d).2 2 := by
  have ht := (sortPerm_tracks V d).1
  rw [ht 0 (by omega), ht 1 (by omega), ht 2 (by omega)]
  rcases sortPerm_table d with h | h | h | h | h | h <;>
    obtain ⟨h0, h1, h2, ha, hb⟩ := h <;>
    rw [h0, h1, h2] <;>
    constructor <;> linarith

/-! ### The sort stage on doubles -/

/-- The integer `sval` as a rational number. -/
theorem sval_cast (a : Bool) (m : Nat) (e e0 : Int) (h : e0 ≤ e) :
    ((sval a m e e0 : Int) : ℚ) =
      (if a then -1 else 1) * (m : ℚ) * 2 ^ e * ((2 : ℚ) ^ e0)⁻¹ := by
  have h2 : ((2 : ℚ) ^ (e - e0).toNat) = 2 ^ e * ((2 : ℚ) ^ e0)⁻¹ := by
    rw [← zpow_natCast, Int.toNat_of_nonneg (sub_nonneg.mpr h), zpow_sub₀ (by norm_num)]
    rfl
  unfold sval
  cases a <;> simp only [Bool.false_eq_true, if_false, if_true] <;> push_cast <;> rw [h2] <;> ring

/-- The map `v ↦ v / (1 + |v|)` is strictly increasing. -/
theorem squash_lt (v w : ℚ) : v / (1 + |v|) < w / (1 + |w|) ↔ v < w := by
  have hv : 0 < 1 + |v| := by positivity
  have hw : 0 < 1 + |w| := by positivity
  rw [div_lt_div_iff hv hw]
  rcases abs_cases v with ⟨h1, h2⟩ | ⟨h1, h2⟩ <;> rcases abs_cases w with ⟨h3, h4⟩ | ⟨h3, h4⟩ <;>
    rw [h1, h3] <;> constructor <;> intro h <;> nlinarith

/-- The map `v ↦ v / (1 + |v|)` has its values strictly between `-1` and `1`. -/
theorem squash_bound (v : ℚ) : -1 < v / (1 + |v|) ∧ v / (1 + |v|) < 1 := by
  have hv : 0 < 1 + |v| := by positivity
  constructor
  · rw [lt_div_iff hv]
    have := neg_abs_le v
    linarith
  · rw [div_lt_iff hv]
    have := le_abs_self v
    linarith

/-- The doubles that are not NaN are ordered by `<` and `<=` like the rational
numbers `Dbl.key` maps them to. -/
theorem Dbl.order_key (x y : Dbl) (hx : x ≠ Dbl.nan) (hy : y ≠ Dbl.nan) :
    (Dbl.lt x y = true ↔ x.key < y.key) ∧ (Dbl.le x y = true ↔ x.key ≤ y.key) := by
  rcases x with ⟨a, m, e⟩ | ⟨a⟩ | _ <;> rcases y with ⟨b, n, f⟩ | ⟨b⟩ | _
  · -- finite, finite
    have hp : (0 : ℚ) < ((2 : ℚ) ^ (min e f))⁻¹ := inv_pos.mpr (zpow_pos (by norm_num) _)
    have hlt : Dbl.lt (.fin a m e) (.fin b n f) = true ↔
        (if a then -1 else 1) * (m : ℚ) * 2 ^ e < (if b then -1 else 1) * (n : ℚ) * 2 ^ f := by
      simp only [Dbl.lt, decide_eq_true_eq]
      rw [← Int.cast_lt (R := ℚ), sval_cast _ _ _ _ (min_le_left e f),
        sval_cast _ _ _ _ (min_le_right e f), mul_lt_mul_right hp]
    have heq : Dbl.eq (.fin a m e) (.fin b n f) = true ↔
        (if a then -1 else 1) * (m : ℚ) * 2 ^ e = (if b then -1 else 1) * (n : ℚ) * 2 ^ f := by
      simp only [Dbl.eq, decide_eq_true_eq]
      rw [← Int.cast_inj (α := ℚ), sval_cast _ _ _ _ (min_le_left e f),
        sval_cast _ _ _ _ (min_le_right e f), mul_left_inj' hp.ne']
    refine ⟨by rw [hlt]; exact (squash_lt _ _).symm, ?_⟩
    simp only [Dbl.le, Bool.or_eq_true, hlt, heq]
    show _ ↔ _ / _ ≤ _ / _
    rw [← not_lt, squash_lt, not_lt, le_iff_lt_or_eq]
  · -- finite, infinite
    obtain ⟨h1, h2⟩ := squash_bound ((if a then -1 else 1) * (m : ℚ) * 2 ^ e)
    cases b
    · exact ⟨⟨fun _ => h2, fun _ => rfl⟩, ⟨fun _ => h2.le, fun _ => rfl⟩⟩
    · refine ⟨⟨fun h => absurd h (by simp [Dbl.lt]), fun h => absurd h (not_lt.mpr h1.le)⟩,
        ⟨fun h => absurd h (by simp [Dbl.le, Dbl.lt, Dbl.eq]), fun h => absurd h (not_le.mpr h1)⟩⟩
  · exact absurd rfl hy
  · -- infinite, finite
    obtain ⟨h1, h2⟩ := squash_bound ((if b then -1 else 1) * (n : ℚ) * 2 ^ f)
    cases a
    · refine ⟨⟨fun h => absurd h (by simp [Dbl.lt]), fun h => absurd h (not_lt.mpr h2.le)⟩,
        ⟨fun h => absurd h (by simp [Dbl.le, Dbl.lt, Dbl.eq]), fun h => absurd h (not_le.mpr h2)⟩⟩
    · exact ⟨⟨fun _ => h1, fun _ => rfl⟩, ⟨fun _ => h1.le, fun _ => rfl⟩⟩
  · cases a <;> cases b <;> simp [Dbl.lt, Dbl.le, Dbl.eq, Dbl.key]
  · exact absurd rfl hy
  · exact absurd rfl hx
  · exact absurd rfl hx
  · exact absurd rfl hx

/-- The sort stage on doubles returns an ordered `d` when no entry is a NaN. -/
theorem sortEigD_sorted (V d : Nat → Dbl) (h0 : d 0 ≠ Dbl.nan) (h1 : d 1 ≠ Dbl.nan)
    (h2 : d 2 ≠ Dbl.nan) :
    Dbl.le ((sortEigD V d).2 0) ((sortEigD V d).2 1) = true ∧
    Dbl.le ((sortEigD V d).2 1) ((sortEigD V d).2 2) = true := by
  have k01 := Dbl.order_key (d 0) (d 1) h0 h1
  have k10 := Dbl.order_key (d 1) (d 0) h1 h0
  have k02 := Dbl.order_key (d 0) (d 2) h0 h2
  have k20 := Dbl.order_key (d 2) (d 0) h2 h0
  have k12 := Dbl.order_key (d 1) (d 2) h1 h2
  have k21 := Dbl.order_key (d 2) (d 1) h2 h1
  by_cases c10 : (d 1).key < (d 0).key <;> by_cases c20 : (d 2).key < (d 0).key <;>
    by_cases c21 : (d 2).key < (d 1).key <;> by_cases c01 : (d 0).key < (d 1).key <;>
    simp [sortEigD, sortPassD, sortScanD, N, forUp_step, forUp_done, store_apply,
      k01.1, k10.1, k02.1, k20.1, k12.1, k21.1, k01.2, k10.2, k02.2, k20.2, k12.2, k21.2,
      c10, c20, c21, c01] <;>
    simp only [not_lt] at * <;>
    first
      | exact ⟨by linarith, by linarith⟩
      | linarith


/-- The sort stage on doubles only rearranges `d[0..2]`: when its output holds no
NaN, neither does its input. -/
theorem sortEigD_nan (V d : Nat → Dbl) (h0 : (sortEigD V d).2 0 ≠ Dbl.nan)
    (h1 : (sortEigD V d).2 1 ≠ Dbl.nan) (h2 : (sortEigD V d).2 2 ≠ Dbl.nan) :
    d 0 ≠ Dbl.nan ∧ d 1 ≠ Dbl.nan ∧ d 2 ≠ Dbl.nan := by
  cases c10 : Dbl.lt (d 1) (d 0) <;> cases c20 : Dbl.lt (d 2) (d 0) <;>
    cases c21 : Dbl.lt (d 2) (d 1) <;> cases c01 : Dbl.lt (d 0) (d 1) <;>
    simp [sortEigD, sortPassD, sortScanD, N, forUp_step, forUp_done, store_apply,
      c10, c20, c21, c01] at h0 h1 h2 <;>
    exact ⟨by assumption, by assumption, by assumption⟩

/-- C3, as amended (ordering).  The eigenvalue vector leaving the sort stage of
`tql2` is non-decreasing for every `d` and `V` entering it with no NaN among
`d[0..2]`: in exact arithmetic (an ordered field, where there is no NaN) for every
`d`, and on doubles for every `d` of finite or infinite doubles.  Hence so is the
vector returned by `eigen_decomposition` whenever it returns; on doubles,
whenever it returns a `d` without NaN. -/
theorem ordering_nondecreasing :
    (∀ V d : Nat → α,
      (sortEig V d).2 0 ≤ (sortEig V d).2 1 ∧ (sortEig V d).2 1 ≤ (sortEig V d).2 2) ∧
    (∀ (sqrt : α → α) (fuel : Nat) (A V d e : Nat → α) (R : (Nat → α) × (Nat → α)),
      eigen_decomposition sqrt fuel A V d e = some R → R.2 0 ≤ R.2 1 ∧ R.2 1 ≤ R.2 2) ∧
    (∀ V d : Nat → Dbl, d 0 ≠ Dbl.nan → d 1 ≠ Dbl.nan → d 2 ≠ Dbl.nan →
      Dbl.le ((sortEigD V d).2 0) ((sortEigD V d).2 1) = true ∧
      Dbl.le ((sortEigD V d).2 1) ((sortEigD V d).2 2) = true) ∧
    (∀ (fuel : Nat) (A V d e : Nat → Dbl) (R : (Nat → Dbl) × (Nat → Dbl)),
      eigen_decompositionD fuel A V d e = some R →
      R.2 0 ≠ Dbl.nan → R.2 1 ≠ Dbl.nan → R.2 2 ≠ Dbl.nan →
      Dbl.le (R.2 0) (R.2 1) = true ∧ Dbl.le (R.2 1) (R.2 2) = true) := by
  refine ⟨sortEig_sorted, ?_, sortEigD_sorted, ?_⟩
  · intro sqrt fuel A V d e R h
    simp only [eigen_decomposition, tql2, Option.map_eq_some'] at h
    obtain ⟨q, -, rfl⟩ := h
    exact sortEig_sorted q.V q.d
  · intro fuel A V d e R h h0 h1 h2
    simp only [eigen_decompositionD, tql2D, Option.map_eq_some'] at h
    obtain ⟨q, -, rfl⟩ := h
    obtain ⟨n0, n1, n2⟩ := sortEigD_nan q.V q.d h0 h1 h2
    exact sortEigD_sorted q.V q.d n0 n1 n2

/-- C4 (eigenpairs move as a unit).  For every `d` there is a permutation `σ` of
`{0,1,2}` such that, for every `V`, the sort stage returns `d'[i] = d[σ i]` and
column `i` of `V'` equal to column `σ i` of `V`, and changes nothing else. -/
theorem sort_permutes_pairs (d : Nat → α) :
    ∃ σ : Nat → Nat, IsPerm3 σ ∧
      ∀ V : Nat → α, Tracks σ V d (sortEig V d).1 (sortEig V d).2 :=
  ⟨sortPerm d, sortPerm_perm d, fun V => sortPerm_tracks V d⟩

/-- C10, as amended.  With `σ` the permutation the sort applies (position `i`
of the output holds the eigenpair that was at index `σ i`), equal eigenvalues
keep their original index order except in the one pattern `d[0] = d[1] > d[2]`,
where pass 0 swaps index 0 with index 2 and so puts the pair from index 0
behind the pair from index 1. -/
theorem sort_ties (d : Nat → α) :
    ∃ σ : Nat → Nat, IsPerm3 σ ∧
      (∀ V : Nat → α, Tracks σ V d (sortEig V d).1 (sortEig V d).2) ∧
      (∀ i j, i < 3 → j < 3 → σ i < σ j → d (σ i) = d (σ j) →
        ¬(d 2 < d 0 ∧ σ i = 0 ∧ σ j = 1) → i < j) ∧
      (d 0 = d 1 → d 2 < d 0 → σ 0 = 2 ∧ σ 1 = 1 ∧ σ 2 = 0) :=
  ⟨sortPerm d, sortPerm_perm d, fun V => sortPerm_tracks V d,
    fun i j hi hj => sortPerm_stable d i j hi hj, sortPerm_reversed d⟩

/-- C10, counterexample.  For `d = [2, 2, 1]` no permutation that describes what
the sort does to the eigenpairs keeps the tie `d[0] = d[1]` in index order: the
pair from index 0 ends at position 2, behind the pair from index 1. -/
theorem sort_not_stable :
    ¬ ∃ σ : Nat → Nat, IsPerm3 σ ∧
      (∀ V : Nat → ℚ, Tracks σ V (buf3 2 2 1) (sortEig V (buf3 2 2 1)).1
        (sortEig V (buf3 2 2 1)).2) ∧
      (∀ i j, i < 3 → j < 3 → σ i < σ j →
        (buf3 2 2 1 : Nat → ℚ) (σ i) = (buf3 2 2 1 : Nat → ℚ) (σ j) → i < j) := by
  rintro ⟨σ, hp, ht, hs⟩
  have h := (ht (buf9 0 0 0 1 1 1 2 2 2)).2.1
  have h1 := h 0 1 (by omega) (by omega)
  have h2 := h 0 2 (by omega) (by omega)
  have e1 : (sortEig (buf9 0 0 0 1 1 1 2 2 2) (buf3 2 2 1 : Nat → ℚ)).1 (IND3X3 0 1) = 1 := by
    simp [sortEig, sortPass, sortScan, sortSwapCols, N, IND3X3, forUp_step, forUp_done,
      buf3, buf9]
  have e2 : (sortEig (buf9 0 0 0 1 1 1 2 2 2) (buf3 2 2 1 : Nat → ℚ)).1 (IND3X3 0 2) = 0 := by
    simp [sortEig, sortPass, sortScan, sortSwapCols, N, IND3X3, forUp_step, forUp_done,
      buf3, buf9]
  rw [e1] at h1
  rw [e2] at h2
  have b1 := hp.1 1 (by omega)
  have b2 := hp.1 2 (by omega)
  have s1 : σ 1 = 1 := by
    generalize σ 1 = a at h1 b1
    interval_cases a <;> simp [IND3X3, N, buf9] at h1 ⊢
  have s2 : σ 2 = 0 := by
    generalize σ 2 = a at h2 b2
    interval_cases a <;> simp [IND3X3, N, buf9] at h2 ⊢
  have := hs 2 1 (by omega) (by omega) (by rw [s1, s2]; omega) (by rw [s1, s2]; rfl)
  omega


/-! ## Claims about diagonal inputs -/

/-- C6 (the input `diag(3,1,2)`).  `eigen_decomposition` returns, with any fuel
and any initial buffer contents, `d = [1, 2, 3]` and the flat `V`
`[0,1,0, 0,0,1, 1,0,0]`: columns 0, 1, 2 are `e2`, `e3`, `e1`. -/
theorem diag_3_1_2 (sqrt : α → α) (fuel : Nat) (V d e : Nat → α) :
    ∃ R, eigen_decomposition sqrt fuel (buf9 3 0 0 0 1 0 0 0 2) V d e = some R ∧
      (List.range 3).map R.2 = [1, 2, 3] ∧
      (List.range 9).map R.1 = [0, 1, 0, 0, 0, 1, 1, 0, 0] := by
  obtain ⟨W, D, hR, hW, hD⟩ := eigen_diag_core sqrt (buf9 3 0 0 0 1 0 0 0 2) V d e
    rfl rfl rfl
  refine ⟨_, hR fuel, ?_⟩
  simp only [List.range, List.range.loop, List.map_cons, List.map_nil, List.cons.injEq,
    and_true, buf9] at hW hD
  obtain ⟨w0, w1, w2, w3, w4, w5, w6, w7, w8⟩ := hW
  obtain ⟨d0, d1, d2⟩ := hD
  norm_num [sortEig, sortPass, sortScan, sortSwapCols, N, IND3X3, forUp_step, forUp_done,
    List.range, List.range.loop, w0, w1, w2, w3, w4, w5, w6, w7, w8, d0, d1, d2]

/-- C7 (diagonal inputs).  For `A = diag(a, b, c)` the result does not depend on
the fuel and is already produced with fuel 0, that is without running the body
of the QL loop; the returned `d` is non-decreasing and is the diagonal of `A`
permuted, `Vᵀ V = I`, and `V diag(d) Vᵀ = A` exactly. -/
theorem diagonal_input (sqrt : α → α) (A V d e : Nat → α)
    (hA : ∀ r c, r < 3 → c < 3 → r ≠ c → ent A r c = 0) :
    (∀ fuel, eigen_decomposition sqrt fuel A V d e = eigen_decomposition sqrt 0 A V d e) ∧
    ∃ R, eigen_decomposition sqrt 0 A V d e = some R ∧
      (R.2 0 ≤ R.2 1 ∧ R.2 1 ≤ R.2 2) ∧
      (∃ σ : Nat → Nat, IsPerm3 σ ∧ ∀ i, i < 3 → R.2 i = ent A (σ i) (σ i)) ∧
      IsOrtho R.1 ∧
      (∀ r c, r < 3 → c < 3 → recon R.1 R.2 r c = ent A r c) := by
  have a1 : A 1 = 0 := hA 1 0 (by omega) (by omega) (by omega)
  have a2 : A 2 = 0 := hA 2 0 (by omega) (by omega) (by omega)
  have a5 : A 5 = 0 := hA 2 1 (by omega) (by omega) (by omega)
  have a3 : A 3 = 0 := hA 0 1 (by omega) (by omega) (by omega)
  have a6 : A 6 = 0 := hA 0 2 (by omega) (by omega) (by omega)
  have a7 : A 7 = 0 := hA 1 2 (by omega) (by omega) (by omega)
  obtain ⟨W, D, hR, hW, hD⟩ := eigen_diag_core sqrt A V d e a1 a2 a5
  simp only [List.range, List.range.loop, List.map_cons, List.map_nil, List.cons.injEq,
    and_true] at hW hD
  obtain ⟨w0, w1, w2, w3, w4, w5, w6, w7, w8⟩ := hW
  obtain ⟨d0, d1, d2⟩ := hD
  refine ⟨fun fuel => (hR fuel).trans (hR 0).symm, sortEig W D, hR 0, sortEig_sorted W D,
    ?_, ?_, ?_⟩
  · refine ⟨sortPerm D, sortPerm_perm D, ?_⟩
    intro i hi
    rw [(sortPerm_tracks W D).1 i hi]
    have := sortPerm_lt D i hi
    generalize sortPerm D i = k at this
    interval_cases k <;> simp [ent, IND3X3, N, d0, d1, d2]
  · obtain ⟨-, hv, -, -⟩ := sortPerm_tracks W D
    intro i j hi hj
    have hi' : i < 3 := hi
    have hj' : j < 3 := hj
    unfold gram ent
    simp only [hv _ _ (show 0 < 3 by omega) hi, hv _ _ (show 1 < 3 by omega) hi,
      hv _ _ (show 2 < 3 by omega) hi, hv _ _ (show 0 < 3 by omega) hj,
      hv _ _ (show 1 < 3 by omega) hj, hv _ _ (show 2 < 3 by omega) hj]
    rcases sortPerm_table D with h | h | h | h | h | h <;>
      obtain ⟨h0, h1, h2, -, -⟩ := h <;>
      interval_cases i <;> interval_cases j <;>
      simp [h0, h1, h2, IND3X3, N, w0, w1, w2, w3, w4, w5, w6, w7, w8]
  · obtain ⟨hd, hv, -, -⟩ := sortPerm_tracks W D
    intro r c hr hc
    unfold recon ent
    simp only [hv _ _ hr (show 0 < 3 by omega), hv _ _ hr (show 1 < 3 by omega),
      hv _ _ hr (show 2 < 3 by omega), hv _ _ hc (show 0 < 3 by omega),
      hv _ _ hc (show 1 < 3 by omega), hv _ _ hc (show 2 < 3 by omega),
      hd 0 (by omega), hd 1 (by omega), hd 2 (by omega)]
    rcases sortPerm_table D with h | h | h | h | h | h <;>
      obtain ⟨h0, h1, h2, -, -⟩ := h <;>
      interval_cases r <;> interval_cases c <;>
      simp [h0, h1, h2, IND3X3, N, w0, w1, w2, w3, w4, w5, w6, w7, w8, d0, d1, d2,
        a1, a2, a3, a5, a6, a7]


/-- C7, witness: `diag(5,1,1)` over `ℚ`, which takes the zero-scale branch of
`tred2` at both rows. -/
theorem diagonal_input_witness :
    (∀ r c, r < 3 → c < 3 → r ≠ c → ent (buf9 (5 : ℚ) 0 0 0 1 0 0 0 1) r c = 0) ∧
    ∃ R, eigen_decomposition qsqrt 0 (buf9 5 0 0 0 1 0 0 0 1) (buf3 0 0 0) (buf3 0 0 0)
        (buf3 0 0 0) = some R ∧
      (R.2 0 ≤ R.2 1 ∧ R.2 1 ≤ R.2 2) ∧ IsOrtho R.1 ∧
      (∀ r c, r < 3 → c < 3 → recon R.1 R.2 r c = ent (buf9 (5 : ℚ) 0 0 0 1 0 0 0 1) r c) := by
  have hA : ∀ r c, r < 3 → c < 3 → r ≠ c → ent (buf9 (5 : ℚ) 0 0 0 1 0 0 0 1) r c = 0 := by
    intro r c hr hc hrc
    interval_cases r <;> interval_cases c <;> first | exact absurd rfl hrc | rfl
  obtain ⟨-, R, hR, hs, -, ho, hrec⟩ :=
    diagonal_input qsqrt (buf9 5 0 0 0 1 0 0 0 1) (buf3 0 0 0) (buf3 0 0 0) (buf3 0 0 0) hA
  exact ⟨hA, R, hR, hs, ho, hrec⟩

/-! ## Determinism of the QL stage and of the whole routine -/

theorem is3_self (d : Nat → α) : Is3 d (d 0) (d 1) (d 2) := ⟨rfl, rfl, rfl⟩

theorem tql2Step_agree (sqrt : α → α) (l m : Nat) (q r : QL α)
    (hlm : (l = 0 ∧ m = 1) ∨ (l = 0 ∧ m = 2) ∨ (l = 1 ∧ m = 2)) (h : AgreeQ q r) :
    AgreeQ (tql2Step sqrt l m q) (tql2Step sqrt l m r) := by
  obtain ⟨aV, ad, ae, af, at1⟩ := h
  rcases hlm with ⟨rfl, rfl⟩ | ⟨rfl, rfl⟩ | ⟨rfl, rfl⟩
  · obtain ⟨hV, hd, he, hf, ht⟩ := tql2Step_01_form sqrt q
      _ _ _ _ _ _ _ _ _ _ _ _ _ _ _ _ _ _ _ _ _ _ _ _ (is9_self q.V) (is3_self q.d) (is3_self q.e)
      rfl rfl rfl rfl rfl rfl rfl rfl rfl
    obtain ⟨kV, kd, ke, kf, kt⟩ := tql2Step_01_form sqrt r
      _ _ _ _ _ _ _ _ _ _ _ _ _ _ _ _ _ _ _ _ _ _ _ _ (is9_of_agree aV) (is3_of_agree ad)
      (is3_of_agree ae) rfl rfl rfl rfl rfl rfl rfl rfl rfl
    exact ⟨agree9 hV kV, agree3 hd kd, agree3 he ke, by rw [hf, kf, af], by rw [ht, kt, at1]⟩
  · obtain ⟨hV, hd, he, hf, ht⟩ := tql2Step_02_form sqrt q
      _ _ _ _ _ _ _ _ _ _ _ _ _ _ _ _ _ _ _ _ _ _ _ _ _ _ _ _ _ _ _ _
      (is9_self q.V) (is3_self q.d) (is3_self q.e)
      rfl rfl rfl rfl rfl rfl rfl rfl rfl rfl rfl rfl rfl rfl rfl rfl rfl
    obtain ⟨kV, kd, ke, kf, kt⟩ := tql2Step_02_form sqrt r
      _ _ _ _ _ _ _ _ _ _ _ _ _ _ _ _ _ _ _ _ _ _ _ _ _ _ _ _ _ _ _ _
      (is9_of_agree aV) (is3_of_agree ad) (is3_of_agree ae)
      rfl rfl rfl rfl rfl rfl rfl rfl rfl rfl rfl rfl rfl rfl rfl rfl rfl
    exact ⟨agree9 hV kV, agree3 hd kd, agree3 he ke, by rw [hf, kf, af], by rw [ht, kt, at1]⟩
  · obtain ⟨hV, hd, he, hf, ht⟩ := tql2Step_12_form sqrt q
      _ _ _ _ _ _ _ _ _ _ _ _ _ _ _ _ _ _ _ _ _ _ _ _ (is9_self q.V) (is3_self q.d) (is3_self q.e)
      rfl rfl rfl rfl rfl rfl rfl rfl rfl
    obtain ⟨kV, kd, ke, kf, kt⟩ := tql2Step_12_form sqrt r
      _ _ _ _ _ _ _ _ _ _ _ _ _ _ _ _ _ _ _ _ _ _ _ _ (is9_of_agree aV) (is3_of_agree ad)
      (is3_of_agree ae) rfl rfl rfl rfl rfl rfl rfl rfl rfl
    exact ⟨agree9 hV kV, agree3 hd kd, agree3 he ke, by rw [hf, kf, af], by rw [ht, kt, at1]⟩

/-- The rotation chain always leaves `e[2] = 0`. -/
theorem tql2Step_e2 (sqrt : α → α) (l m : Nat) (q : QL α)
    (hlm : (l = 0 ∧ m = 1) ∨ (l = 0 ∧ m = 2) ∨ (l = 1 ∧ m = 2)) (h : q.e 2 = 0) :
    (tql2Step sqrt l m q).e 2 = 0 := by
  rcases hlm with ⟨rfl, rfl⟩ | ⟨rfl, rfl⟩ | ⟨rfl, rfl⟩
  · obtain ⟨-, -, he, -, -⟩ := tql2Step_01_form sqrt q
      _ _ _ _ _ _ _ _ _ _ _ _ _ _ _ _ _ _ _ _ _ _ _ _ (is9_self q.V) (is3_self q.d) (is3_self q.e)
      rfl rfl rfl rfl rfl rfl rfl rfl rfl
    rw [he.2.2, h]
  · obtain ⟨-, -, he, -, -⟩ := tql2Step_02_form sqrt q
      _ _ _ _ _ _ _ _ _ _ _ _ _ _ _ _ _ _ _ _ _ _ _ _ _ _ _ _ _ _ _ _
      (is9_self q.V) (is3_self q.d) (is3_self q.e)
      rfl rfl rfl rfl rfl rfl rfl rfl rfl rfl rfl rfl rfl rfl rfl rfl rfl
    rw [he.2.2, zero_mul]
  · obtain ⟨-, -, he, -, -⟩ := tql2Step_12_form sqrt q
      _ _ _ _ _ _ _ _ _ _ _ _ _ _ _ _ _ _ _ _ _ _ _ _ (is9_self q.V) (is3_self q.d) (is3_self q.e)
      rfl rfl rfl rfl rfl rfl rfl rfl rfl
    rw [he.2.2, zero_mul]

theorem tql2Iterate_agree (sqrt : α → α) (l m : Nat)
    (hlm : (l = 0 ∧ m = 1) ∨ (l = 0 ∧ m = 2) ∨ (l = 1 ∧ m = 2)) (fuel : Nat) :
    ∀ q r : QL α, AgreeQ q r → q.e 2 = 0 → r.e 2 = 0 →
      AgreeOpt (tql2Iterate sqrt l m fuel q) (tql2Iterate sqrt l m fuel r) := by
  induction fuel with
  | zero => intro q r _ _ _; exact trivial
  | succ n ih =>
    intro q r h hq hr
    have hs := tql2Step_agree sqrt l m q r hlm h
    have hq' := tql2Step_e2 sqrt l m q hlm hq
    have hr' := tql2Step_e2 sqrt l m r hlm hr
    have hl : l < 3 := by omega
    have hc : (|(tql2Step sqrt l m q).e l| > eps * (tql2Step sqrt l m q).tst1) ↔
        (|(tql2Step sqrt l m r).e l| > eps * (tql2Step sqrt l m r).tst1) := by
      rw [hs.2.2.1 l hl, hs.2.2.2.2]
    unfold tql2Iterate
    by_cases hb : |(tql2Step sqrt l m q).e l| > eps * (tql2Step sqrt l m q).tst1
    · simp only [hb, hc.mp hb, if_true]
      exact ih _ _ hs hq' hr'
    · have hb' : ¬ |(tql2Step sqrt l m r).e l| > eps * (tql2Step sqrt l m r).tst1 :=
        fun h' => hb (hc.mpr h')
      simp only [hb, hb', if_false]
      exact ⟨hs, hq', hr'⟩

theorem tql2Scan_zero (e : Nat → α) (t : α) :
    tql2Scan e t 3 0 = if |e 0| ≤ eps * t then 0 else if |e 1| ≤ eps * t then 1
      else if |e 2| ≤ eps * t then 2 else 3 := rfl

theorem tql2Scan_one (e : Nat → α) (t : α) :
    tql2Scan e t 2 1 = if |e 1| ≤ eps * t then 1 else if |e 2| ≤ eps * t then 2 else 3 := rfl

theorem tql2Scan_two (e : Nat → α) (t : α) :
    tql2Scan e t 1 2 = if |e 2| ≤ eps * t then 2 else 3 := rfl

/-- With `e[2] = 0` and `tst1 ≥ 0` the scan from `l` stops at some `m ≤ 2`, and
every entry it passed is nonzero. -/
theorem tql2Scan_spec (e : Nat → α) (t : α) (l : Nat) (hl : l < 3) (he : e 2 = 0) (ht : 0 ≤ t) :
    l ≤ tql2Scan e t (N - l) l ∧ tql2Scan e t (N - l) l ≤ 2 ∧
      ∀ i, l ≤ i → i < tql2Scan e t (N - l) l → eps * t < |e i| := by
  have h2 : |e 2| ≤ eps * t := by rw [he, abs_zero]; exact mul_nonneg eps_pos.le ht
  interval_cases l
  · rw [show tql2Scan e t (N - 0) 0 = tql2Scan e t 3 0 from rfl, tql2Scan_zero]
    simp only [h2, if_true]
    split_ifs with h0 h1
    · exact ⟨le_refl _, by omega, fun i _ hi => by omega⟩
    · exact ⟨by omega, by omega, fun i _ hi => by
        interval_cases i; exact not_le.mp h0⟩
    · exact ⟨by omega, by omega, fun i _ hi => by
        interval_cases i
        · exact not_le.mp h0
        · exact not_le.mp h1⟩
  · rw [show tql2Scan e t (N - 1) 1 = tql2Scan e t 2 1 from rfl, tql2Scan_one]
    simp only [h2, if_true]
    split_ifs with h1
    · exact ⟨le_refl _, by omega, fun i _ hi => by omega⟩
    · exact ⟨by omega, by omega, fun i h hi => by
        interval_cases i; exact not_le.mp h1⟩
  · rw [show tql2Scan e t (N - 2) 2 = tql2Scan e t 1 2 from rfl, tql2Scan_two]
    simp only [h2, if_true]
    exact ⟨le_refl _, le_refl _, fun i h hi => by omega⟩

theorem tql2Scan_agree (e e' : Nat → α) (t : α) (l : Nat) (hl : l < 3)
    (h : ∀ i, i < 3 → e i = e' i) : tql2Scan e t (N - l) l = tql2Scan e' t (N - l) l := by
  interval_cases l
  · show tql2Scan e t 3 0 = tql2Scan e' t 3 0
    rw [tql2Scan_zero, tql2Scan_zero, h 0 (by omega), h 1 (by omega), h 2 (by omega)]
  · show tql2Scan e t 2 1 = tql2Scan e' t 2 1
    rw [tql2Scan_one, tql2Scan_one, h 1 (by omega), h 2 (by omega)]
  · show tql2Scan e t 1 2 = tql2Scan e' t 1 2
    rw [tql2Scan_two, tql2Scan_two, h 2 (by omega)]

/-- Lines 234-235: `d[l] = d[l] + f; e[l] = 0.0;`. -/
theorem tql2Outer_eq (sqrt : α → α) (fuel l : Nat) (q : QL α) :
    tql2Outer sqrt fuel l q =
      (if tql2Scan q.e (MAX q.tst1 (|q.d l| + |q.e l|)) (N - l) l > l then
        tql2Iterate sqrt l (tql2Scan q.e (MAX q.tst1 (|q.d l| + |q.e l|)) (N - l) l) fuel
          { q with tst1 := MAX q.tst1 (|q.d l| + |q.e l|) }
      else some { q with tst1 := MAX q.tst1 (|q.d l| + |q.e l|) }).map
        (fun q => { q with d := store q.d l (q.d l + q.f), e := store q.e l 0 }) := rfl

theorem agreeOpt_map (l : Nat) (hl : l < 3) (a b : Option (QL α)) (h : AgreeOpt a b) :
    AgreeOpt (a.map (fun q => { q with d := store q.d l (q.d l + q.f), e := store q.e l 0 }))
      (b.map (fun q => { q with d := store q.d l (q.d l + q.f), e := store q.e l 0 })) := by
  cases a with
  | none => cases b with
    | none => exact trivial
    | some y => exact h
  | some x => cases b with
    | none => exact h
    | some y =>
      obtain ⟨⟨aV, ad, ae, af, at1⟩, hx, hy⟩ := h
      refine ⟨⟨aV, ?_, ?_, af, at1⟩, ?_, ?_⟩
      · intro i hi
        simp only [store_apply]
        rw [ad i hi, ad l hl, af]
      · intro i hi
        simp only [store_apply]
        rw [ae i hi]
      · simp only [store_apply]
        split_ifs
        · rfl
        · exact hx
      · simp only [store_apply]
        split_ifs
        · rfl
        · exact hy

theorem tql2Outer_agree (sqrt : α → α) (fuel l : Nat) (hl : l < 3) (q r : QL α)
    (h : AgreeQ q r) (hq : q.e 2 = 0) (hr : r.e 2 = 0) :
    AgreeOpt (tql2Outer sqrt fuel l q) (tql2Outer sqrt fuel l r) := by
  obtain ⟨aV, ad, ae, af, at1⟩ := h
  have ht : MAX r.tst1 (|r.d l| + |r.e l|) = MAX q.tst1 (|q.d l| + |q.e l|) := by
    rw [ad l hl, ae l hl, at1]
  have hm : tql2Scan r.e (MAX q.tst1 (|q.d l| + |q.e l|)) (N - l) l =
      tql2Scan q.e (MAX q.tst1 (|q.d l| + |q.e l|)) (N - l) l :=
    (tql2Scan_agree q.e r.e _ l hl ae).symm
  obtain ⟨h1, h2, -⟩ := tql2Scan_spec q.e (MAX q.tst1 (|q.d l| + |q.e l|)) l hl hq
    (MAX_nonneg _ _ (by positivity))
  rw [tql2Outer_eq, tql2Outer_eq, ht, hm]
  apply agreeOpt_map l hl
  have hag : AgreeQ { q with tst1 := MAX q.tst1 (|q.d l| + |q.e l|) }
      { r with tst1 := MAX q.tst1 (|q.d l| + |q.e l|) } := ⟨aV, ad, ae, af, rfl⟩
  by_cases hc : tql2Scan q.e (MAX q.tst1 (|q.d l| + |q.e l|)) (N - l) l > l
  · rw [if_pos hc, if_pos hc]
    exact tql2Iterate_agree sqrt l _ (by omega) fuel _ _ hag hq hr
  · rw [if_neg hc, if_neg hc]
    exact ⟨hag, hq, hr⟩

theorem tql2Diag_agree (sqrt : α → α) (fuel : Nat) (s t : Bufs α) (h : Agree 0 0 s t) :
    AgreeOpt (tql2Diag sqrt fuel s) (tql2Diag sqrt fuel t) := by
  obtain ⟨aV, ad, ae⟩ := h
  have h0 : AgreeOpt (some ({ V := s.V, d := s.d, e := tql2Shift s.e, f := 0, tst1 := 0 } : QL α))
      (some { V := t.V, d := t.d, e := tql2Shift t.e, f := 0, tst1 := 0 }) := by
    refine ⟨⟨aV, fun i hi => ad i (by omega) hi, ?_, rfl, rfl⟩, rfl, rfl⟩
    intro i hi
    interval_cases i
    · exact ae 1 (by omega) (by omega)
    · exact ae 2 (by omega) (by omega)
    · rfl
  have step : ∀ (l : Nat), l < 3 → ∀ a b : Option (QL α), AgreeOpt a b →
      AgreeOpt (a.bind (tql2Outer sqrt fuel l)) (b.bind (tql2Outer sqrt fuel l)) := by
    intro l hl a b hab
    cases a with
    | none => cases b with
      | none => exact trivial
      | some y => exact hab.elim
    | some x => cases b with
      | none => exact hab.elim
      | some y => exact tql2Outer_agree sqrt fuel l hl x y hab.1 hab.2.1 hab.2.2
  have e : ∀ u : Bufs α, tql2Diag sqrt fuel u =
      (((some ({ V := u.V, d := u.d, e := tql2Shift u.e, f := 0, tst1 := 0 } : QL α)).bind
        (tql2Outer sqrt fuel 0)).bind (tql2Outer sqrt fuel 1)).bind (tql2Outer sqrt fuel 2) := by
    intro u
    simp only [tql2Diag, N, forUp_step, forUp_done, Nat.lt_irrefl, Nat.reduceAdd, Nat.reduceLT,
      Nat.le_refl]
  rw [e, e]
  exact step 2 (by omega) _ _ (step 1 (by omega) _ _ (step 0 (by omega) _ _ h0))

theorem sortPerm_agree (d d' : Nat → α) (h : ∀ i, i < 3 → d i = d' i) :
    ∀ i, i < 3 → sortPerm d i = sortPerm d' i := by
  have e0 := h 0 (by omega)
  have e1 := h 1 (by omega)
  have e2 := h 2 (by omega)
  intro i hi
  rcases sortPerm_table d with h | h | h | h | h | h <;>
    rcases sortPerm_table d' with k | k | k | k | k | k <;>
    obtain ⟨h0, h1, h2, ha, hb⟩ := h <;>
    obtain ⟨k0, k1, k2, ka, kb⟩ := k <;>
    first
      | (exfalso; linarith)
      | (interval_cases i
         · exact h0.trans k0.symm
         · exact h1.trans k1.symm
         · exact h2.trans k2.symm)

theorem sortEig_agree (V W d d' : Nat → α) (hV : ∀ i, i < 9 → V i = W i)
    (hd : ∀ i, i < 3 → d i = d' i) :
    (∀ i, i < 9 → (sortEig V d).1 i = (sortEig W d').1 i) ∧
    (∀ i, i < 3 → (sortEig V d).2 i = (sortEig W d').2 i) := by
  obtain ⟨td, tV, -, -⟩ := sortPerm_tracks V d
  obtain ⟨td', tV', -, -⟩ := sortPerm_tracks W d'
  have hp := sortPerm_agree d d' hd
  have key : ∀ r c, r < 3 → c < 3 →
      (sortEig V d).1 (IND3X3 r c) = (sortEig W d').1 (IND3X3 r c) := by
    intro r c hr hc
    rw [tV r c hr hc, tV' r c hr hc, ← hp c hc]
    have := sortPerm_lt d c hc
    exact hV _ (by unfold IND3X3 N; omega)
  refine ⟨?_, ?_⟩
  · intro i hi
    interval_cases i
    · exact key 0 0 (by omega) (by omega)
    · exact key 1 0 (by omega) (by omega)
    · exact key 2 0 (by omega) (by omega)
    · exact key 0 1 (by omega) (by omega)
    · exact key 1 1 (by omega) (by omega)
    · exact key 2 1 (by omega) (by omega)
    · exact key 0 2 (by omega) (by omega)
    · exact key 1 2 (by omega) (by omega)
    · exact key 2 2 (by omega) (by omega)
  · intro i hi
    rw [td i hi, td' i hi, ← hp i hi]
    exact hd _ (sortPerm_lt d i hi)

/-- C9 (determinism).  For every input matrix `A`, every square-root function and
every fuel, two runs of `eigen_decomposition` started with arbitrary contents
of the output buffers `V`, `d` and of the scratch array `e` either both fail to
finish within the fuel or both return, with the same `V[0..8]` and `d[0..2]`. -/
theorem eigen_decomposition_deterministic (sqrt : α → α) (fuel : Nat)
    (A V d e V' d' e' : Nat → α) :
    SameResult (eigen_decomposition sqrt fuel A V d e)
      (eigen_decomposition sqrt fuel A V' d' e') := by
  have hV : ∀ i, i < 9 → copyMatrix A V i = copyMatrix A V' i := by
    intro i hi
    rw [copyMatrix_apply, copyMatrix_apply, if_pos hi, if_pos hi]
  have ht := tred2_agree sqrt { V := copyMatrix A V, d := d, e := e }
    { V := copyMatrix A V', d := d', e := e' } hV
  have hq := tql2Diag_agree sqrt fuel _ _ ht
  unfold eigen_decomposition tql2
  revert hq
  cases tql2Diag sqrt fuel (tred2 sqrt { V := copyMatrix A V, d := d, e := e }) with
  | none =>
    cases tql2Diag sqrt fuel (tred2 sqrt { V := copyMatrix A V', d := d', e := e' }) with
    | none => intro _; exact trivial
    | some y => intro h; exact h.elim
  | some x =>
    cases tql2Diag sqrt fuel (tred2 sqrt { V := copyMatrix A V', d := d', e := e' }) with
    | none => intro h; exact h.elim
    | some y =>
      intro h
      exact sortEig_agree x.V y.V x.d y.d h.1.1 h.1.2.1

/-! ## `tred2` in exact arithmetic -/

theorem isSqrt_real : IsSqrt Real.sqrt :=
  fun x hx => ⟨Real.sqrt_nonneg x, Real.mul_self_sqrt hx⟩

theorem IsSqrt.one {sqrt : α → α} (hs : IsSqrt sqrt) : sqrt 1 = 1 := by
  obtain ⟨h0, h1⟩ := hs 1 zero_le_one
  have : (sqrt 1 - 1) * (sqrt 1 + 1) = 0 := by linear_combination h1
  rcases mul_eq_zero.mp this with h | h
  · linarith
  · linarith

/-- Facts about the Householder scalars of row 2 (lines 58-69). -/
theorem house_two_facts {sqrt : α → α} (hs : IsSqrt sqrt) (d0 d1 scale x y g h : α)
    (hsc : scale = 0 + |d0| + |d1|) (hne : ¬ scale = 0)
    (hx : x = d0 / scale) (hy : y = d1 / scale)
    (hg : g = if y > 0 then -sqrt (0 + x * x + y * y) else sqrt (0 + x * x + y * y))
    (hh : h = 0 + x * x + y * y - y * g) :
    0 < scale ∧ scale * x = d0 ∧ scale * y = d1 ∧ g * g = x * x + y * y ∧
      h = x * x + y * y - y * g ∧ 0 < x * x + y * y ∧ 0 ≤ -(y * g) ∧ 0 < h := by
  have hpos : 0 < scale := by
    have : 0 ≤ scale := by rw [hsc]; positivity
    exact lt_of_le_of_ne this (fun h' => hne h'.symm)
  have hx' : scale * x = d0 := by rw [hx]; field_simp
  have hy' : scale * y = d1 := by rw [hy]; field_simp
  have h0 : 0 < x * x + y * y := by
    by_contra hcon
    have hz : x * x + y * y = 0 := le_antisymm (not_lt.mp hcon)
      (add_nonneg (mul_self_nonneg x) (mul_self_nonneg y))
    have hx0 : x = 0 := by nlinarith [mul_self_nonneg x, mul_self_nonneg y]
    have hy0 : y = 0 := by nlinarith [mul_self_nonneg x, mul_self_nonneg y]
    rw [hx0, mul_zero] at hx'
    rw [hy0, mul_zero] at hy'
    apply hne
    rw [hsc, ← hx', ← hy']
    simp
  obtain ⟨r0, r1⟩ := hs (0 + x * x + y * y) (by rw [zero_add]; exact h0.le)
  have hgg : g * g = x * x + y * y := by
    rw [hg]; split_ifs <;> linear_combination r1
  have hyg : 0 ≤ -(y * g) := by
    rw [hg]
    split_ifs with hpos'
    · have := mul_nonneg hpos'.le r0
      linarith
    · have := mul_nonneg (neg_nonneg.mpr (not_lt.mp hpos')) r0
      linarith
  refine ⟨hpos, hx', hy', hgg, by rw [hh]; ring, h0, hyg, ?_⟩
  rw [hh]; linarith

/-- Facts about the Householder scalars of row 1: with one entry the reflector is
`-1`, the new off-diagonal entry is `-d[0]` and the diagonal entry is unchanged. -/
theorem house_one_facts {sqrt : α → α} (hs : IsSqrt sqrt) (d0 v0 scale x g h w p K q : α)
    (hsc : scale = 0 + |d0|) (hne : ¬ scale = 0)
    (hx : x = d0 / scale)
    (hg : g = if x > 0 then -sqrt (0 + x * x) else sqrt (0 + x * x))
    (hh : h = 0 + x * x - x * g)
    (hw : w = x - g)
    (hp : p = (0 + v0 * w) / h)
    (hK : K = (0 + p * w) / (h + h))
    (hq : q = p - K * w) :
    x * x = 1 ∧ g = -x ∧ h = 2 ∧ w = 2 * x ∧ q = 0 ∧ scale * g = -d0 := by
  have hd0 : d0 ≠ 0 := by
    intro h0; apply hne; rw [hsc, h0]; simp
  have habs : scale = |d0| := by rw [hsc, zero_add]
  have hpos : 0 < scale := by rw [habs]; exact abs_pos.mpr hd0
  have hxx : x * x = 1 := by
    rw [hx, habs, div_mul_div_comm, abs_mul_abs_self, div_self (mul_self_ne_zero.mpr hd0)]
  have hsq : sqrt (0 + x * x) = 1 := by rw [zero_add, hxx]; exact hs.one
  have hx1 : x = 1 ∨ x = -1 := by
    have : (x - 1) * (x + 1) = 0 := by linear_combination hxx
    rcases mul_eq_zero.mp this with h' | h'
    · left; linarith
    · right; linarith
  have hgx : g = -x := by
    rw [hg, hsq]
    rcases hx1 with h' | h' <;> rw [h'] <;> norm_num
  have hh2 : h = 2 := by rw [hh, hgx]; linear_combination 2 * hxx
  have hw2 : w = 2 * x := by rw [hw, hgx]; ring
  have hq0 : q = 0 := by
    rw [hq, hK, hp, hh2, hw2]
    field_simp
    linear_combination (-(16 * v0 * x)) * hxx
  refine ⟨hxx, hgx, hh2, hw2, hq0, ?_⟩
  rw [hgx, hx, habs]
  field_simp
  rcases abs_cases d0 with ⟨h', -⟩ | ⟨h', -⟩
  · rw [h']
  · rw [h']; ring

theorem house_conj (a0 a1 a4 a8 scale x y g h u1 σ p0 p1 K q0 q1 : α)
    (hh : h = x * x + y * y - y * g)
    (hne : h ≠ 0) (hu : u1 = y - g) (hσ : σ * σ = 1)
    (hp0 : p0 = (0 + a0 * x + a1 * u1) / h)
    (hp1 : p1 = (0 + a1 * x + a4 * u1) / h)
    (hK : K = (0 + p0 * x + p1 * u1) / (h + h))
    (hq0 : q0 = p0 - K * x) (hq1 : q1 = p1 - K * u1) (i j : Nat) (hi : i < 3) (hj : j < 3) :
    conj (buf9 a0 a1 (scale * x) a1 a4 (scale * y) (scale * x) (scale * y) a8)
      (buf9 (σ - (0 + x * σ + u1 * 0) * (x / h)) (0 - (0 + x * σ + u1 * 0) * (u1 / h)) 0
      (0 - (0 + x * 0 + u1 * 1) * (x / h)) (1 - (0 + x * 0 + u1 * 1) * (u1 / h)) 0 0 0 1) i j =
    buf9 (a0 - (x * q0 + q0 * x)) (σ * (a1 - (x * q1 + q0 * u1))) 0
      (σ * (a1 - (x * q1 + q0 * u1))) (a4 - (u1 * q1 + q1 * u1)) (scale * g)
      0 (scale * g) a8 (IND3X3 i j) := by
  have hinv : h * h⁻¹ = 1 := mul_inv_cancel₀ hne
  have hxy : x * x + y * u1 = h := by rw [hu, hh]; ring
  subst hq0 hq1 hK hp0 hp1
  interval_cases i <;> interval_cases j <;>
    simp only [conj, mulAV, ent, IND3X3, N, buf9, Nat.reduceMul, Nat.reduceAdd]
  · linear_combination (a0 -
      (x * ((0 + a0 * x + a1 * u1) / h - (0 + (0 + a0 * x + a1 * u1) / h * x
        + (0 + a1 * x + a4 * u1) / h * u1) / (h + h) * x) +
      ((0 + a0 * x + a1 * u1) / h - (0 + (0 + a0 * x + a1 * u1) / h * x
        + (0 + a1 * x + a4 * u1) / h * u1) / (h + h) * x) * x)) * hσ
  · ring1
  · linear_combination (-(σ * scale * x * h⁻¹)) * hxy + (-(σ * scale * x)) * hinv
  · ring1
  · ring1
  · linear_combination (-(scale * u1 * h⁻¹)) * hxy + (-(scale * u1)) * hinv + (-scale) * hu
  · linear_combination (-(σ * scale * x * h⁻¹)) * hxy + (-(σ * scale * x)) * hinv
  · linear_combination (-(scale * u1 * h⁻¹)) * hxy + (-(scale * u1)) * hinv + (-scale) * hu
  · ring1

theorem house_ortho (x y g h u1 σ : α) (hg : g * g = x * x + y * y)
    (hh : h = x * x + y * y - y * g) (hne : h ≠ 0) (hu : u1 = y - g) (hσ : σ * σ = 1) :
    IsOrtho (buf9 (σ - (0 + x * σ + u1 * 0) * (x / h)) (0 - (0 + x * σ + u1 * 0) * (u1 / h)) 0
      (0 - (0 + x * 0 + u1 * 1) * (x / h)) (1 - (0 + x * 0 + u1 * 1) * (u1 / h)) 0 0 0 1) := by
  have huu : x * x + u1 * u1 = 2 * h := by rw [hu, hh]; linear_combination hg
  intro i j hi hj
  have hi' : i < 3 := hi
  have hj' : j < 3 := hj
  interval_cases i <;> interval_cases j <;>
    simp only [gram, ent, IND3X3, N, buf9, Nat.reduceMul, Nat.reduceAdd] <;>
    norm_num <;> field_simp
  · linear_combination (σ * σ * x * x) * huu + (h * h) * hσ
  · linear_combination (σ * x * u1 * h * h) * huu
  · linear_combination (σ * x * u1 * h * h) * huu
  · linear_combination (u1 * u1) * huu

/-- Row 2 of the reduction (lines 38-106 with `i = 2`), in exact arithmetic. -/
theorem tred2Row_two_spec {sqrt : α → α} (hs : IsSqrt sqrt) (s : Bufs α)
    (a0 a1 a2 a3 a4 a5 a6 a7 a8 : α)
    (hV : Is9 s.V a0 a1 a2 a3 a4 a5 a6 a7 a8) (hd : Is3 s.d a2 a5 a8) :
    (a2 = 0 ∧ a5 = 0 ∧ Is9 (tred2Row sqrt 2 s).V a0 a1 0 a3 a4 0 0 0 a8 ∧
      Is3 (tred2Row sqrt 2 s).d a1 a4 0 ∧ (tred2Row sqrt 2 s).e 2 = 0) ∨
    (∃ scale x y g h u1 p0 p1 K q0 q1 : α,
      scale * x = a2 ∧ scale * y = a5 ∧ g * g = x * x + y * y ∧
      h = x * x + y * y - y * g ∧ 0 < h ∧ u1 = y - g ∧
      p0 = (0 + a0 * x + a1 * u1) / h ∧ p1 = (0 + a1 * x + a4 * u1) / h ∧
      K = (0 + p0 * x + p1 * u1) / (h + h) ∧ q0 = p0 - K * x ∧ q1 = p1 - K * u1 ∧
      Is9 (tred2Row sqrt 2 s).V (a0 - (x * q0 + q0 * x)) (a1 - (x * q1 + q0 * u1)) 0
        a3 (a4 - (u1 * q1 + q1 * u1)) 0 x u1 a8 ∧
      Is3 (tred2Row sqrt 2 s).d (a1 - (x * q1 + q0 * u1)) (a4 - (u1 * q1 + q1 * u1)) h ∧
      (tred2Row sqrt 2 s).e 2 = scale * g) := by
  have hsc : tred2Scale s.d 2 = 0 + |a2| + |a5| := by
    show 0 + |s.d 0| + |s.d 1| = _
    rw [hd.1, hd.2.1]
  by_cases hc : tred2Scale s.d 2 = 0
  · left
    have h2 : a2 = 0 := by
      have := abs_nonneg a2; have := abs_nonneg a5
      exact abs_eq_zero.mp (by rw [hsc] at hc; linarith)
    have h5 : a5 = 0 := by
      have := abs_nonneg a2; have := abs_nonneg a5
      exact abs_eq_zero.mp (by rw [hsc] at hc; linarith)
    obtain ⟨fV, fd, fe⟩ := tred2Zero_two_form s _ _ _ _ _ _ _ _ _ _ _ _ hV hd
    rw [tred2Row_zero sqrt 2 s hc]
    exact ⟨h2, h5, fV, ⟨fd.1, fd.2.1, rfl⟩, fe.trans h5⟩
  · right
    obtain ⟨fV, fd, fe, fh⟩ := tred2House_two_form sqrt (tred2Scale s.d 2) s
      _ _ _ _ _ _ _ _ _ _ _ _ _ _ _ _ _ _ _ _ _ _ hV hd
      rfl rfl rfl rfl rfl rfl rfl rfl rfl rfl
    obtain ⟨-, k1, k2, k3, k4, -, -, k7⟩ := house_two_facts hs a2 a5 (tred2Scale s.d 2)
      _ _ _ _ hsc hc rfl rfl rfl rfl
    rw [tred2Row_house sqrt 2 s hc]
    exact ⟨_, _, _, _, _, _, _, _, _, _, _, k1, k2, k3, k4, k7, rfl, rfl, rfl, rfl, rfl, rfl,
      fV, ⟨fd.1, fd.2.1, fh⟩, fe⟩

/-- Row 1 of the reduction followed by the first accumulation step, in exact
arithmetic: column 0 becomes `σ e₀` with `σ = ±1`, and `e[1] = σ V[1]`. -/
theorem tred2Row_one_spec {sqrt : α → α} (hs : IsSqrt sqrt) (s : Bufs α)
    (v0 v1 v2 v3 v4 v5 v6 v7 v8 d1 d2 e2 : α)
    (hV : Is9 s.V v0 v1 v2 v3 v4 v5 v6 v7 v8) (hd : Is3 s.d v1 d1 d2) (he : s.e 2 = e2) :
    ∃ σ : α, σ * σ = 1 ∧
      Is9 (tred2Accum 0 (tred2Row sqrt 1 s)).V σ 0 v0 0 v4 v5 v6 v7 v8 ∧
      (tred2Accum 0 (tred2Row sqrt 1 s)).d 2 = d2 ∧
      (tred2Accum 0 (tred2Row sqrt 1 s)).e 1 = σ * v1 ∧
      (tred2Accum 0 (tred2Row sqrt 1 s)).e 2 = e2 := by
  have hsc : tred2Scale s.d 1 = 0 + |v1| := by
    show 0 + |s.d 0| = _
    rw [hd.1]
  by_cases hc : tred2Scale s.d 1 = 0
  · have h1 : v1 = 0 := abs_eq_zero.mp (by rw [hsc, zero_add] at hc; exact hc)
    obtain ⟨fV, fd, fe1, fe2⟩ := tred2Zero_one_form s _ _ _ _ _ _ _ _ _ _ _ _ _ hV hd he
    have gd : Is3 (tred2Row sqrt 1 s).d v0 0 d2 := by
      rw [tred2Row_zero sqrt 1 s hc]; exact ⟨fd.1, rfl, fd.2.2⟩
    have gV : Is9 (tred2Row sqrt 1 s).V v0 0 v2 0 v4 v5 v6 v7 v8 := by
      rw [tred2Row_zero sqrt 1 s hc]; exact fV
    have ge : (tred2Row sqrt 1 s).e 1 = v1 ∧ (tred2Row sqrt 1 s).e 2 = e2 := by
      rw [tred2Row_zero sqrt 1 s hc]; exact ⟨fe1, fe2⟩
    obtain ⟨aV, ad, ae⟩ := tred2Accum_zero_skip (tred2Row sqrt 1 s) _ _ _ _ _ _ _ _ _ _ _ _
      gV gd rfl
    refine ⟨1, by ring, aV, ad.2.2, ?_, ?_⟩
    · rw [ae, ge.1, h1]; ring
    · rw [ae, ge.2]
  · obtain ⟨fV, fd, fe1, fe2, fh⟩ := tred2House_one_form sqrt (tred2Scale s.d 1) s
      _ _ _ _ _ _ _ _ _ _ _ _ _ _ _ _ _ _ _ _ hV hd he rfl rfl rfl rfl rfl rfl rfl
    obtain ⟨k1, k2, k3, k4, k5, k6⟩ := house_one_facts hs v1 v0 (tred2Scale s.d 1)
      _ _ _ _ _ _ _ hsc hc rfl rfl rfl rfl rfl rfl rfl
    rw [k5] at fV fd
    rw [k4] at fV
    rw [k3] at fh
    have gd : Is3 (tred2Row sqrt 1 s).d v0 2 d2 := by
      rw [tred2Row_house sqrt 1 s hc]
      exact ⟨fd.1.trans (by ring), fh, fd.2.2⟩
    have gV : Is9 (tred2Row sqrt 1 s).V v0 0 v2 (2 * (v1 / tred2Scale s.d 1)) v4 v5 v6 v7 v8 := by
      rw [tred2Row_house sqrt 1 s hc]
      exact ⟨fV.1.trans (by ring), fV.2.1, fV.2.2.1, fV.2.2.2.1, fV.2.2.2.2.1, fV.2.2.2.2.2.1,
        fV.2.2.2.2.2.2.1, fV.2.2.2.2.2.2.2.1, fV.2.2.2.2.2.2.2.2⟩
    have ge : (tred2Row sqrt 1 s).e 1 = -v1 ∧ (tred2Row sqrt 1 s).e 2 = e2 := by
      rw [tred2Row_house sqrt 1 s hc]; exact ⟨fe1.trans k6, fe2⟩
    obtain ⟨aV, ad, ae⟩ := tred2Accum_zero_form (tred2Row sqrt 1 s) _ _ _ _ _ _ _ _ _ _ _ _
      gV gd (by norm_num)
    refine ⟨-1, by ring, ?_, ad.2.2, ?_, ?_⟩
    · refine ⟨aV.1.trans ?_, aV.2⟩
      linear_combination (-2 : α) * k1
    · rw [ae, ge.1]; ring
    · rw [ae, ge.2]

theorem ent_of_is9 {V : Nat → α} {v0 v1 v2 v3 v4 v5 v6 v7 v8 : α}
    (h : Is9 V v0 v1 v2 v3 v4 v5 v6 v7 v8) (r c : Nat) (hr : r < 3) (hc : c < 3) :
    ent V r c = ent (buf9 v0 v1 v2 v3 v4 v5 v6 v7 v8) r c := by
  obtain ⟨h0, h1, h2, h3, h4, h5, h6, h7, h8⟩ := h
  interval_cases r <;> interval_cases c <;> simp only [ent, IND3X3, N, Nat.reduceMul,
    Nat.reduceAdd, buf9] <;> assumption

theorem gram_of_is9 {V : Nat → α} {v0 v1 v2 v3 v4 v5 v6 v7 v8 : α}
    (h : Is9 V v0 v1 v2 v3 v4 v5 v6 v7 v8) (i j : Nat) (hi : i < 3) (hj : j < 3) :
    gram V i j = gram (buf9 v0 v1 v2 v3 v4 v5 v6 v7 v8) i j := by
  unfold gram
  rw [ent_of_is9 h 0 i (by omega) hi, ent_of_is9 h 1 i (by omega) hi,
    ent_of_is9 h 2 i (by omega) hi, ent_of_is9 h 0 j (by omega) hj,
    ent_of_is9 h 1 j (by omega) hj, ent_of_is9 h 2 j (by omega) hj]

theorem isOrtho_of_is9 {V : Nat → α} {v0 v1 v2 v3 v4 v5 v6 v7 v8 : α}
    (h : Is9 V v0 v1 v2 v3 v4 v5 v6 v7 v8) (ho : IsOrtho (buf9 v0 v1 v2 v3 v4 v5 v6 v7 v8)) :
    IsOrtho V := fun i j hi hj => (gram_of_is9 h i j hi hj).trans (ho i j hi hj)

theorem mulAV_of_is9 {A V : Nat → α} {a0 a1 a2 a3 a4 a5 a6 a7 a8 v0 v1 v2 v3 v4 v5 v6 v7 v8 : α}
    (hA : Is9 A a0 a1 a2 a3 a4 a5 a6 a7 a8) (hV : Is9 V v0 v1 v2 v3 v4 v5 v6 v7 v8)
    (r i : Nat) (hr : r < 3) (hi : i < 3) :
    mulAV A V r i = mulAV (buf9 a0 a1 a2 a3 a4 a5 a6 a7 a8) (buf9 v0 v1 v2 v3 v4 v5 v6 v7 v8) r i := by
  unfold mulAV
  rw [ent_of_is9 hA r 0 hr (by omega), ent_of_is9 hA r 1 hr (by omega),
    ent_of_is9 hA r 2 hr (by omega), ent_of_is9 hV 0 i (by omega) hi,
    ent_of_is9 hV 1 i (by omega) hi, ent_of_is9 hV 2 i (by omega) hi]

theorem conj_of_is9 {A V : Nat → α} {a0 a1 a2 a3 a4 a5 a6 a7 a8 v0 v1 v2 v3 v4 v5 v6 v7 v8 : α}
    (hA : Is9 A a0 a1 a2 a3 a4 a5 a6 a7 a8) (hV : Is9 V v0 v1 v2 v3 v4 v5 v6 v7 v8)
    (i j : Nat) (hi : i < 3) (hj : j < 3) :
    conj A V i j = conj (buf9 a0 a1 a2 a3 a4 a5 a6 a7 a8) (buf9 v0 v1 v2 v3 v4 v5 v6 v7 v8) i j := by
  unfold conj
  rw [ent_of_is9 hV 0 i (by omega) hi, ent_of_is9 hV 1 i (by omega) hi,
    ent_of_is9 hV 2 i (by omega) hi, mulAV_of_is9 hA hV 0 j (by omega) hj,
    mulAV_of_is9 hA hV 1 j (by omega) hj, mulAV_of_is9 hA hV 2 j (by omega) hj]

theorem tridiag_of_is3 {d e : Nat → α} {d0 d1 d2 e0 e1 e2 : α} (hd : Is3 d d0 d1 d2)
    (he : Is3 e e0 e1 e2) (i j : Nat) (hi : i < 3) (hj : j < 3) :
    tridiag d e i j = buf9 d0 e1 0 e1 d1 e2 0 e2 d2 (IND3X3 i j) := by
  obtain ⟨h0, h1, h2⟩ := hd
  obtain ⟨k0, k1, k2⟩ := he
  interval_cases i <;> interval_cases j <;>
    simp [tridiag, IND3X3, N, buf9, h0, h1, h2, k1, k2]

/-- The second accumulation step and the final reload (lines 110-137 for `i = 1`). -/
theorem tred2_tail_spec (s : Bufs α) (σ b00 b11 c6 c7 v8 h2 e1 e2 : α)
    (hV : Is9 s.V σ 0 b00 0 b11 0 c6 c7 v8) (hd2 : s.d 2 = h2) (he1 : s.e 1 = e1)
    (he2 : s.e 2 = e2) :
    Is3 (tred2Final (tred2Accum 1 s)).d b00 b11 v8 ∧
    Is3 (tred2Final (tred2Accum 1 s)).e 0 e1 e2 ∧
    (h2 = 0 → Is9 (tred2Final (tred2Accum 1 s)).V σ 0 0 0 1 0 0 0 1) ∧
    (h2 ≠ 0 → Is9 (tred2Final (tred2Accum 1 s)).V
      (σ - (0 + c6 * σ + c7 * 0) * (c6 / h2)) (0 - (0 + c6 * σ + c7 * 0) * (c7 / h2)) 0
      (0 - (0 + c6 * 0 + c7 * 1) * (c6 / h2)) (1 - (0 + c6 * 0 + c7 * 1) * (c7 / h2)) 0
      0 0 1) := by
  by_cases hc : h2 = 0
  · obtain ⟨aV, -, ae⟩ := tred2Accum_one_skip s _ _ _ _ _ _ _ _ _ _ _ _ hV ⟨rfl, rfl, hd2⟩ hc
    obtain ⟨fV, fd, fe⟩ := tred2Final_form (tred2Accum 1 s) _ _ _ _ _ _ _ _ _ e1 e2 aV
      (by rw [ae]; exact he1) (by rw [ae]; exact he2)
    exact ⟨fd, fe, fun _ => fV, fun h => absurd hc h⟩
  · obtain ⟨aV, -, ae⟩ := tred2Accum_one_form s _ _ _ _ _ _ _ _ _ _ _ _ _ _ _ _ hV
      ⟨rfl, rfl, hd2⟩ hc rfl rfl rfl rfl
    obtain ⟨fV, fd, fe⟩ := tred2Final_form (tred2Accum 1 s) _ _ _ _ _ _ _ _ _ e1 e2 aV
      (by rw [ae]; exact he1) (by rw [ae]; exact he2)
    exact ⟨fd, fe, fun h => absurd h hc, fun _ => fV⟩

/-- The contract of `tred2` in exact arithmetic: for a symmetric input the
returned `V` is orthogonal and `Vᵀ A V` is the tridiagonal matrix given by the
returned `d` and `e`. -/
theorem tred2_spec {sqrt : α → α} (hs : IsSqrt sqrt) (A d e : Nat → α) (hA : IsSymm A) :
    IsOrtho (tred2 sqrt { V := A, d := d, e := e }).V ∧
    ∀ i j, i < 3 → j < 3 →
      conj A (tred2 sqrt { V := A, d := d, e := e }).V i j =
        tridiag (tred2 sqrt { V := A, d := d, e := e }).d
          (tred2 sqrt { V := A, d := d, e := e }).e i j := by
  have s3 : A 3 = A 1 := hA 0 1 (by decide) (by decide)
  have s6 : A 6 = A 2 := hA 0 2 (by decide) (by decide)
  have s7 : A 7 = A 5 := hA 1 2 (by decide) (by decide)
  have hAV : Is9 A (A 0) (A 1) (A 2) (A 1) (A 4) (A 5) (A 2) (A 5) (A 8) :=
    ⟨rfl, rfl, rfl, s3, rfl, rfl, s6, s7, rfl⟩
  rw [tred2_eq]
  obtain ⟨iV, id, -⟩ := tred2Init_form { V := A, d := d, e := e } _ _ _ _ _ _ _ _ _ hAV
  rcases tred2Row_two_spec hs (tred2Init { V := A, d := d, e := e }) _ _ _ _ _ _ _ _ _ iV id with
    ⟨z2, z5, rV, rd, re⟩ |
    ⟨scale, x, y, g, h, u1, p0, p1, K, q0, q1, k1, k2, k3, k4, k5, k6, k7, k8, k9, k10, k11,
      rV, rd, re⟩
  · obtain ⟨σ, hσ, oV, od, oe1, oe2⟩ := tred2Row_one_spec hs _ _ _ _ _ _ _ _ _ _ _ _ _ rV rd re
    obtain ⟨fd, fe, fV, -⟩ := tred2_tail_spec _ _ _ _ _ _ _ _ _ _ oV od oe1 oe2
    have fV' := fV rfl
    rw [z2, z5] at hAV
    refine ⟨isOrtho_of_is9 fV' ?_, ?_⟩
    · intro i j hi hj
      have hi' : i < 3 := hi
      have hj' : j < 3 := hj
      interval_cases i <;> interval_cases j <;>
        simp [gram, ent, IND3X3, N, buf9, hσ]
    · intro i j hi hj
      rw [conj_of_is9 hAV fV' i j hi hj, tridiag_of_is3 fd fe i j hi hj]
      interval_cases i <;> interval_cases j <;>
        simp only [conj, mulAV, ent, IND3X3, N, buf9, Nat.reduceMul, Nat.reduceAdd] <;>
        first
          | ring1
          | linear_combination (A 0) * hσ
  · obtain ⟨σ, hσ, oV, od, oe1, oe2⟩ := tred2Row_one_spec hs _ _ _ _ _ _ _ _ _ _ _ _ _ rV rd re
    obtain ⟨fd, fe, -, fV⟩ := tred2_tail_spec _ _ _ _ _ _ _ _ _ _ oV od oe1 oe2
    have fV' := fV (ne_of_gt k5)
    rw [← k1, ← k2] at hAV
    refine ⟨isOrtho_of_is9 fV' (house_ortho x y g h u1 σ k3 k4 (ne_of_gt k5) k6 hσ), ?_⟩
    intro i j hi hj
    rw [conj_of_is9 hAV fV' i j hi hj, tridiag_of_is3 fd fe i j hi hj]
    exact house_conj (A 0) (A 1) (A 4) (A 8) scale x y g h u1 σ p0 p1 K q0 q1 k4 (ne_of_gt k5)
      k6 hσ k7 k8 k9 k10 k11 i j hi hj

/-- C5 (tridiagonaliser contract).  In exact real arithmetic, for every symmetric
3x3 matrix `A` and any initial contents of `d` and `e`, `tred2` run on `V = A`
returns an orthogonal `V` (`Vᵀ V = I`) such that `Vᵀ A V` is the symmetric
tridiagonal matrix with diagonal `d[0..2]`, off-diagonal entries
`T[i][i-1] = T[i-1][i] = e[i]` and `T[0][2] = T[2][0] = 0`. -/
theorem tred2_contract (A d e : Nat → ℝ) (hA : IsSymm A) :
    IsOrtho (tred2 Real.sqrt { V := A, d := d, e := e }).V ∧
    ∀ i j, i < 3 → j < 3 →
      conj A (tred2 Real.sqrt { V := A, d := d, e := e }).V i j =
        tridiag (tred2 Real.sqrt { V := A, d := d, e := e }).d
          (tred2 Real.sqrt { V := A, d := d, e := e }).e i j :=
  tred2_spec isSqrt_real A d e hA

/-- C5, witness: the symmetric matrix `[[2,0,0],[0,3,4],[0,4,9]]`, which takes the
Householder branch at row 2. -/
theorem tred2_contract_witness :
    IsSymm (buf9 (2 : ℝ) 0 0 0 3 4 0 4 9) ∧
    IsOrtho (tred2 Real.sqrt
      { V := buf9 (2 : ℝ) 0 0 0 3 4 0 4 9, d := buf3 0 0 0, e := buf3 0 0 0 }).V := by
  have hA : IsSymm (buf9 (2 : ℝ) 0 0 0 3 4 0 4 9) := by
    intro r c hr hc
    have hr' : r < 3 := hr
    have hc' : c < 3 := hc
    interval_cases r <;> interval_cases c <;> rfl
  exact ⟨hA, (tred2_contract _ (buf3 0 0 0) (buf3 0 0 0) hA).1⟩

/-! ## The QL iteration in exact arithmetic -/

theorem hypot_pos {sqrt : α → α} (hs : IsSqrt sqrt) (a b : α) (hb : b ≠ 0) :
    0 < sqrt (a * a + b * b) ∧ sqrt (a * a + b * b) * sqrt (a * a + b * b) = a * a + b * b := by
  have hpos : 0 < a * a + b * b := by
    have := mul_self_nonneg a
    have := mul_self_pos.mpr hb
    linarith
  obtain ⟨h0, h1⟩ := hs _ hpos.le
  refine ⟨lt_of_le_of_ne h0 ?_, h1⟩
  intro h
  rw [← h, mul_zero] at h1
  exact absurd h1 (ne_of_lt hpos)

theorem tql2Step_tst1 (sqrt : α → α) (l m : Nat) (q : QL α) :
    (tql2Step sqrt l m q).tst1 = q.tst1 := rfl

theorem tql2Step_live {sqrt : α → α} (hs : IsSqrt sqrt) (l m : Nat) (q : QL α)
    (hlm : (l = 0 ∧ m = 1) ∨ (l = 0 ∧ m = 2) ∨ (l = 1 ∧ m = 2)) (hq : Live l m q)
    (hc : |(tql2Step sqrt l m q).e l| > eps * (tql2Step sqrt l m q).tst1) :
    Live l m (tql2Step sqrt l m q) := by
  obtain ⟨h2, ht, hne⟩ := hq
  have hl : (tql2Step sqrt l m q).e l ≠ 0 := by
    intro h0
    rw [h0, abs_zero, tql2Step_tst1] at hc
    exact absurd (mul_nonneg eps_pos.le ht) (not_le.mpr hc)
  refine ⟨tql2Step_e2 sqrt l m q hlm h2, by rw [tql2Step_tst1]; exact ht, ?_⟩
  intro i hi1 hi2
  rcases hlm with ⟨rfl, rfl⟩ | ⟨rfl, rfl⟩ | ⟨rfl, rfl⟩
  · obtain rfl : i = 0 := by omega
    exact hl
  · have hi : i = 0 ∨ i = 1 := by omega
    rcases hi with rfl | rfl
    · exact hl
    · obtain ⟨-, -, he, -, -⟩ := tql2Step_02_form sqrt q
        _ _ _ _ _ _ _ _ _ _ _ _ _ _ _ _ _ _ _ _ _ _ _ _ _ _ _ _ _ _ _ _
        (is9_self q.V) (is3_self q.d) (is3_self q.e)
        rfl rfl rfl rfl rfl rfl rfl rfl rfl rfl rfl rfl rfl rfl rfl rfl rfl
      rw [he.2.1]
      have e0 : q.e 0 ≠ 0 := hne 0 (by omega) (by omega)
      have e1 : q.e 1 ≠ 0 := hne 1 (by omega) (by omega)
      exact mul_ne_zero (div_ne_zero e1 (ne_of_gt (hypot_pos hs _ _ e1).1))
        (ne_of_gt (hypot_pos hs _ _ e0).1)
  · obtain rfl : i = 1 := by omega
    exact hl

/-- Induction over the `do … while` loop: a property kept by every step taken
on a live block holds of the state the loop returns. -/
theorem tql2Iterate_inv {sqrt : α → α} (hs : IsSqrt sqrt) (l m : Nat)
    (hlm : (l = 0 ∧ m = 1) ∨ (l = 0 ∧ m = 2) ∨ (l = 1 ∧ m = 2)) (P : QL α → Prop)
    (hP : ∀ q, Live l m q → P q → P (tql2Step sqrt l m q)) (fuel : Nat) :
    ∀ q q', Live l m q → P q → tql2Iterate sqrt l m fuel q = some q' →
      P q' ∧ q'.e 2 = 0 ∧ q'.tst1 = q.tst1 := by
  induction fuel with
  | zero => intro q q' _ _ h; exact absurd h (by simp [tql2Iterate])
  | succ n ih =>
    intro q q' hq hp h
    unfold tql2Iterate at h
    by_cases hc : |(tql2Step sqrt l m q).e l| > eps * (tql2Step sqrt l m q).tst1
    · simp only [hc, if_true] at h
      obtain ⟨r1, r2, r3⟩ := ih _ q' (tql2Step_live hs l m q hlm hq hc) (hP q hq hp) h
      exact ⟨r1, r2, r3.trans (tql2Step_tst1 sqrt l m q)⟩
    · simp only [hc, if_false, Option.some.injEq] at h
      subst h
      exact ⟨hP q hq hp, tql2Step_e2 sqrt l m q hlm hq.1, tql2Step_tst1 sqrt l m q⟩

/-- What the body of the outer loop does: either the scan stops at `m = l`, or
the block `l … m` is live and the loop is run on it; then lines 234-235. -/
theorem tql2Outer_cases (sqrt : α → α) (fuel l : Nat) (hl : l < 3) (q q' : QL α)
    (h2 : q.e 2 = 0) (h : tql2Outer sqrt fuel l q = some q') :
    ∃ q1 : QL α, q' = { q1 with d := store q1.d l (q1.d l + q1.f), e := store q1.e l 0 } ∧
      (q1 = { q with tst1 := MAX q.tst1 (|q.d l| + |q.e l|) } ∨
       ∃ m, ((l = 0 ∧ m = 1) ∨ (l = 0 ∧ m = 2) ∨ (l = 1 ∧ m = 2)) ∧
         Live l m { q with tst1 := MAX q.tst1 (|q.d l| + |q.e l|) } ∧
         tql2Iterate sqrt l m fuel { q with tst1 := MAX q.tst1 (|q.d l| + |q.e l|) } =
           some q1) := by
  have ht : 0 ≤ MAX q.tst1 (|q.d l| + |q.e l|) := MAX_nonneg _ _ (by positivity)
  obtain ⟨s1, s2, s3⟩ := tql2Scan_spec q.e (MAX q.tst1 (|q.d l| + |q.e l|)) l hl h2 ht
  rw [tql2Outer_eq] at h
  by_cases hc : tql2Scan q.e (MAX q.tst1 (|q.d l| + |q.e l|)) (N - l) l > l
  · rw [if_pos hc] at h
    simp only [Option.map_eq_some'] at h
    obtain ⟨q1, hq1, rfl⟩ := h
    refine ⟨q1, rfl, Or.inr ⟨_, by omega, ⟨h2, ht, ?_⟩, hq1⟩⟩
    intro i hi1 hi2 h0
    have := s3 i hi1 hi2
    rw [h0, abs_zero] at this
    exact absurd (mul_nonneg eps_pos.le ht) (not_le.mpr this)
  · rw [if_neg hc] at h
    simp only [Option.map_some', Option.some.injEq] at h
    exact ⟨_, h.symm, Or.inl rfl⟩

theorem isOrtho_buf9 {V : Nat → α} (h : IsOrtho V) :
    IsOrtho (buf9 (V 0) (V 1) (V 2) (V 3) (V 4) (V 5) (V 6) (V 7) (V 8)) :=
  fun i j hi hj => (gram_of_is9 (is9_self V) i j hi hj).symm.trans (h i j hi hj)

theorem cs_unit {sqrt : α → α} (hs : IsSqrt sqrt) (a b : α) (hb : b ≠ 0) :
    a / sqrt (a * a + b * b) * (a / sqrt (a * a + b * b)) +
      b / sqrt (a * a + b * b) * (b / sqrt (a * a + b * b)) = 1 := by
  obtain ⟨h0, h1⟩ := hypot_pos hs a b hb
  have hne := ne_of_gt h0
  field_simp
  linear_combination -h1

theorem tql2Diag_eq (sqrt : α → α) (fuel : Nat) (u : Bufs α) :
    tql2Diag sqrt fuel u =
      (((some ({ V := u.V, d := u.d, e := tql2Shift u.e, f := 0, tst1 := 0 } : QL α)).bind
        (tql2Outer sqrt fuel 0)).bind (tql2Outer sqrt fuel 1)).bind (tql2Outer sqrt fuel 2) := by
  simp only [tql2Diag, N, forUp_step, forUp_done, Nat.lt_irrefl, Nat.reduceAdd, Nat.reduceLT,
    Nat.le_refl]

/-- The three passes of the outer loop, one after the other. -/
theorem tql2Diag_cases (sqrt : α → α) (fuel : Nat) (u : Bufs α) (q : QL α)
    (h : tql2Diag sqrt fuel u = some q) :
    ∃ q1 q2 : QL α,
      tql2Outer sqrt fuel 0 { V := u.V, d := u.d, e := tql2Shift u.e, f := 0, tst1 := 0 } =
        some q1 ∧
      tql2Outer sqrt fuel 1 q1 = some q2 ∧ tql2Outer sqrt fuel 2 q2 = some q := by
  rw [tql2Diag_eq] at h
  simp only [Option.some_bind, Option.bind_eq_some] at h
  obtain ⟨q2, ⟨q1, h0, h1⟩, h2⟩ := h
  exact ⟨q1, q2, h0, h1, h2⟩

theorem isOrtho_agree {V W : Nat → α} (h : ∀ i, i < 9 → V i = W i) (ho : IsOrtho V) :
    IsOrtho W := isOrtho_of_is9 (is9_of_agree h) (isOrtho_buf9 ho)

theorem copyMatrix_agree (A V : Nat → α) : ∀ i, i < 9 → A i = copyMatrix A V i := by
  intro i hi
  rw [copyMatrix_apply, if_pos hi]

theorem is9_congr {α : Type} [LinearOrderedField α] {V : Nat → α}
    {a0 a1 a2 a3 a4 a5 a6 a7 a8 b0 b1 b2 b3 b4 b5 b6 b7 b8 : α}
    (h : Is9 V a0 a1 a2 a3 a4 a5 a6 a7 a8) (e0 : a0 = b0) (e1 : a1 = b1) (e2 : a2 = b2)
    (e3 : a3 = b3) (e4 : a4 = b4) (e5 : a5 = b5) (e6 : a6 = b6) (e7 : a7 = b7) (e8 : a8 = b8) :
    Is9 V b0 b1 b2 b3 b4 b5 b6 b7 b8 := by
  subst e0 e1 e2 e3 e4 e5 e6 e7 e8; exact h

theorem is3_congr {α : Type} [LinearOrderedField α] {d : Nat → α} {a0 a1 a2 b0 b1 b2 : α}
    (h : Is3 d a0 a1 a2) (e0 : a0 = b0) (e1 : a1 = b1) (e2 : a2 = b2) : Is3 d b0 b1 b2 := by
  subst e0 e1 e2; exact h

/-- `tred2` on `[[2,0,0],[0,3,4],[0,4,9]]`: Householder branch at row 2, zero-scale
branch at row 1. -/
theorem tred2_example (s : Bufs ℝ) (hV : Is9 s.V 2 0 0 0 3 4 0 4 9) :
    Is9 (tred2 Real.sqrt s).V 1 0 0 0 (-1) 0 0 0 1 ∧ Is3 (tred2 Real.sqrt s).d 2 3 9 ∧
      Is3 (tred2 Real.sqrt s).e 0 0 (-4) := by
  rw [tred2_eq]
  obtain ⟨iV, id, -⟩ := tred2Init_form s _ _ _ _ _ _ _ _ _ hV
  -- row 2: Householder branch with scale 4
  have hsc : tred2Scale (tred2Init s).d 2 = 4 := by
    show 0 + |(tred2Init s).d 0| + |(tred2Init s).d 1| = 4
    rw [id.1, id.2.1]; norm_num
  have hc : ¬ tred2Scale (tred2Init s).d 2 = 0 := by rw [hsc]; norm_num
  obtain ⟨rV, rd, re, rh⟩ := tred2House_two_form Real.sqrt 4 (tred2Init s)
    2 0 0 0 3 4 0 4 9 0 4 9 0 1 (-1) 2 2 0 3 (3 / 2) 0 0 iV id
    (by norm_num) (by norm_num) (by norm_num) (by norm_num) (by norm_num) (by norm_num)
    (by norm_num) (by norm_num) (by norm_num) (by norm_num)
  have r2V : Is9 (tred2Row Real.sqrt 2 (tred2Init s)).V 2 0 0 0 3 0 0 2 9 := by
    rw [tred2Row_house Real.sqrt 2 _ hc, hsc]
    exact is9_congr rV (by norm_num) (by norm_num) rfl rfl (by norm_num) rfl rfl rfl rfl
  have r2d : Is3 (tred2Row Real.sqrt 2 (tred2Init s)).d 0 3 2 := by
    rw [tred2Row_house Real.sqrt 2 _ hc, hsc]
    exact ⟨rd.1.trans (by norm_num), rd.2.1.trans (by norm_num), rh⟩
  have r2e : (tred2Row Real.sqrt 2 (tred2Init s)).e 2 = -4 := by
    rw [tred2Row_house Real.sqrt 2 _ hc, hsc]
    exact re.trans (by norm_num)
  -- row 1: zero-scale branch
  have hc1 : tred2Scale (tred2Row Real.sqrt 2 (tred2Init s)).d 1 = 0 := by
    show 0 + |(tred2Row Real.sqrt 2 (tred2Init s)).d 0| = 0
    rw [r2d.1]; norm_num
  obtain ⟨zV, zd, ze1, ze2⟩ := tred2Zero_one_form _ _ _ _ _ _ _ _ _ _ _ _ _ _ r2V r2d r2e
  have r1V : Is9 (tred2Row Real.sqrt 1 (tred2Row Real.sqrt 2 (tred2Init s))).V
      2 0 0 0 3 0 0 2 9 := by
    rw [tred2Row_zero Real.sqrt 1 _ hc1]; exact zV
  have r1d : Is3 (tred2Row Real.sqrt 1 (tred2Row Real.sqrt 2 (tred2Init s))).d 2 0 2 := by
    rw [tred2Row_zero Real.sqrt 1 _ hc1]; exact ⟨zd.1, rfl, zd.2.2⟩
  have r1e : (tred2Row Real.sqrt 1 (tred2Row Real.sqrt 2 (tred2Init s))).e 1 = 0 ∧
      (tred2Row Real.sqrt 1 (tred2Row Real.sqrt 2 (tred2Init s))).e 2 = -4 := by
    rw [tred2Row_zero Real.sqrt 1 _ hc1]; exact ⟨ze1, ze2⟩
  -- accumulation
  obtain ⟨aV, ad, ae⟩ := tred2Accum_zero_skip _ _ _ _ _ _ _ _ _ _ _ _ _ r1V r1d rfl
  obtain ⟨bV, bd, be⟩ := tred2Accum_one_form _ _ _ _ _ _ _ _ _ _ _ _ _ 0 2 1 0 aV ad
    (by norm_num) (by norm_num) (by norm_num) (by norm_num) (by norm_num)
  obtain ⟨fV, fd, fe⟩ := tred2Final_form _ _ _ _ _ _ _ _ _ _ 0 (-4) bV
    (by rw [be, ae]; exact r1e.1) (by rw [be, ae]; exact r1e.2)
  exact ⟨is9_congr fV rfl rfl rfl (by norm_num) (by norm_num) rfl rfl rfl rfl, fd, fe⟩

theorem IsSqrt.eq_of_mul_self {sqrt : α → α} (hs : IsSqrt sqrt) (x y : α) (hy : 0 ≤ y)
    (h : y * y = x) : sqrt x = y := by
  obtain ⟨h0, h1⟩ := hs x (by rw [← h]; exact mul_self_nonneg y)
  have : (sqrt x - y) * (sqrt x + y) = 0 := by linear_combination h1 - h
  rcases mul_eq_zero.mp this with h' | h'
  · linarith
  · have hy0 : y = 0 := by linarith
    have : sqrt x = 0 := by linarith
    rw [this, hy0]

/-- The loop stops after its first pass when the convergence test fails there. -/
theorem tql2Iterate_once (sqrt : α → α) (l m n : Nat) (q : QL α)
    (h : ¬ |(tql2Step sqrt l m q).e l| > eps * (tql2Step sqrt l m q).tst1) :
    tql2Iterate sqrt l m (n + 1) q = some (tql2Step sqrt l m q) := by
  unfold tql2Iterate
  simp only [h, if_false]

theorem tql2Iterate_zero (sqrt : α → α) (l m : Nat) (q : QL α) :
    tql2Iterate sqrt l m 0 q = none := rfl

theorem MAX_eq_right (a b : α) (h : a ≤ b) : MAX a b = b := by
  unfold MAX; rw [if_neg (not_lt.mpr h)]

/-- The QL stage on the tridiagonal form of `[[2,0,0],[0,3,4],[0,4,9]]`: index 0 is
deflated at once, index 1 needs exactly one pass of the loop, index 2 none. -/
theorem tql2Diag_example (u : Bufs ℝ) (hV : Is9 u.V 1 0 0 0 (-1) 0 0 0 1)
    (hd : Is3 u.d 2 3 9) (he : Is3 u.e 0 0 (-4)) :
    tql2Diag Real.sqrt 0 u = none ∧
    ∀ n, ∃ q, tql2Diag Real.sqrt (n + 1) u = some q ∧
      ∃ c s : ℝ, c * c + s * s = 1 ∧ c = -2 * s ∧
        Is9 q.V 1 0 0 0 (-c) (-s) 0 (-s) c ∧ Is3 q.d 2 1 11 := by
  have hs := isSqrt_real
  -- pass l = 0: deflated at once
  have e0 : Is3 (tql2Shift u.e) 0 (-4) 0 := ⟨he.2.1, he.2.2, rfl⟩
  have h0 : ∀ fuel, tql2Diag Real.sqrt fuel u =
      ((tql2Outer Real.sqrt fuel 1 (tql2Skip 0
        ({ V := u.V, d := u.d, e := tql2Shift u.e, f := 0, tst1 := 0 } : QL ℝ))).bind
        (tql2Outer Real.sqrt fuel 2)) := by
    intro fuel
    rw [tql2Diag_eq, Option.some_bind, tql2Outer_deflated Real.sqrt fuel 0 _ (by omega) e0.1,
      Option.some_bind]
  have q1V : Is9 (tql2Skip 0 ({ V := u.V, d := u.d, e := tql2Shift u.e, f := 0, tst1 := 0 } :
      QL ℝ)).V 1 0 0 0 (-1) 0 0 0 1 := hV
  have q1d : Is3 (tql2Skip 0 ({ V := u.V, d := u.d, e := tql2Shift u.e, f := 0, tst1 := 0 } :
      QL ℝ)).d 2 3 9 := by
    refine ⟨?_, hd.2.1, hd.2.2⟩
    show u.d 0 + 0 = 2
    rw [hd.1, add_zero]
  have q1e : Is3 (tql2Skip 0 ({ V := u.V, d := u.d, e := tql2Shift u.e, f := 0, tst1 := 0 } :
      QL ℝ)).e 0 (-4) 0 := ⟨rfl, e0.2.1, e0.2.2⟩
  have q1t : (tql2Skip 0 ({ V := u.V, d := u.d, e := tql2Shift u.e, f := 0, tst1 := 0 } :
      QL ℝ)).tst1 = 2 := by
    show MAX 0 (|u.d 0| + |tql2Shift u.e 0|) = 2
    rw [hd.1, e0.1, MAX_eq_right _ _ (by norm_num)]; norm_num
  have q1f : (tql2Skip 0 ({ V := u.V, d := u.d, e := tql2Shift u.e, f := 0, tst1 := 0 } :
      QL ℝ)).f = 0 := rfl
  generalize tql2Skip 0 ({ V := u.V, d := u.d, e := tql2Shift u.e, f := 0, tst1 := 0 } :
      QL ℝ) = q1 at h0 q1V q1d q1e q1t q1f
  -- pass l = 1: the scan stops at m = 2
  have ht : MAX q1.tst1 (|q1.d 1| + |q1.e 1|) = 7 := by
    rw [q1t, q1d.2.1, q1e.2.1, MAX_eq_right _ _ (by norm_num)]; norm_num
  have hscan : tql2Scan q1.e 7 (N - 1) 1 = 2 := by
    rw [show tql2Scan q1.e 7 (N - 1) 1 = tql2Scan q1.e 7 2 1 from rfl, tql2Scan_one,
      q1e.2.1, q1e.2.2]
    norm_num [eps]
  have h1 : ∀ fuel, tql2Outer Real.sqrt fuel 1 q1 =
      (tql2Iterate Real.sqrt 1 2 fuel { q1 with tst1 := 7 }).map
        (fun q => { q with d := store q.d 1 (q.d 1 + q.f), e := store q.e 1 0 }) := by
    intro fuel
    rw [tql2Outer_eq, ht, hscan, if_pos (by omega)]
  refine ⟨by rw [h0, h1, tql2Iterate_zero]; rfl, fun n => ?_⟩
  -- the single pass of the loop
  have hsq : Real.sqrt (-3 / 4 * (-3 / 4) + 1 * 1) = 5 / 4 :=
    hs.eq_of_mul_self _ _ (by norm_num) (by norm_num)
  obtain ⟨sV, sd, se, sf, st⟩ := tql2Step_12_form Real.sqrt { q1 with tst1 := 7 }
    1 0 0 0 (-1) 0 0 0 1 2 3 9 0 (-4) 0 (-3 / 4) (-(5 / 4)) 2 8 1
    (Real.sqrt (8 * 8 + -4 * -4)) (-4 / Real.sqrt (8 * 8 + -4 * -4))
    (8 / Real.sqrt (8 * 8 + -4 * -4)) 0 q1V q1d q1e
    (by norm_num) (by rw [hsq]; norm_num) (by norm_num) (by norm_num) (by norm_num)
    rfl rfl rfl (by ring)
  generalize hc : (8 / Real.sqrt (8 * 8 + -4 * -4) : ℝ) = c at sV sd se
  generalize hs' : (-4 / Real.sqrt (8 * 8 + -4 * -4) : ℝ) = s at sV sd se
  have hcs : c * c + s * s = 1 := by
    rw [← hc, ← hs']
    exact cs_unit hs 8 (-4) (by norm_num)
  have hc2 : c = -2 * s := by rw [← hc, ← hs']; ring
  have hconv : ¬ |(tql2Step Real.sqrt 1 2 { q1 with tst1 := 7 }).e 1| >
      eps * (tql2Step Real.sqrt 1 2 { q1 with tst1 := 7 }).tst1 := by
    rw [se.2.1, st, mul_zero, abs_zero]
    exact not_lt.mpr (mul_nonneg eps_pos.le (by norm_num))
  have h2 : tql2Outer Real.sqrt (n + 1) 1 q1 = some
      ((fun q : QL ℝ => { q with d := store q.d 1 (q.d 1 + q.f), e := store q.e 1 0 })
        (tql2Step Real.sqrt 1 2 { q1 with tst1 := 7 })) := by
    rw [h1, tql2Iterate_once _ _ _ _ _ hconv, Option.map_some']
  have q2e : ((fun q : QL ℝ => { q with d := store q.d 1 (q.d 1 + q.f), e := store q.e 1 0 })
      (tql2Step Real.sqrt 1 2 { q1 with tst1 := 7 })).e 2 = 0 := by
    show (tql2Step Real.sqrt 1 2 { q1 with tst1 := 7 }).e 2 = 0
    rw [se.2.2, zero_mul]
  refine ⟨_, by rw [h0, h2, Option.some_bind,
    tql2Outer_deflated Real.sqrt (n + 1) 2 _ (by omega) q2e], c, s, hcs, hc2, ?_, ?_⟩
  · exact is9_congr sV rfl rfl rfl (by ring) (by ring) (by ring) (by ring) (by ring) (by ring)
  · refine ⟨sd.1, ?_, ?_⟩
    · show (tql2Step Real.sqrt 1 2 { q1 with tst1 := 7 }).d 1 +
        (tql2Step Real.sqrt 1 2 { q1 with tst1 := 7 }).f = 1
      rw [sd.2.1, sf]
      show c * 0 + (q1.f + 1) = 1
      rw [q1f]; ring
    · show (tql2Step Real.sqrt 1 2 { q1 with tst1 := 7 }).d 2 +
        (tql2Step Real.sqrt 1 2 { q1 with tst1 := 7 }).f = 11
      rw [sd.2.2, sf]
      show 1 * 8 + s * (c * (1 * -4) + s * 2) + (q1.f + 1) = 11
      rw [q1f, hc2]
      have h5 : s * s = 1 / 5 := by rw [hc2] at hcs; linarith
      linear_combination 10 * h5

/-- The sorted result in terms of the permutation, as explicit entries. -/
theorem sortEig_is9 (V d : Nat → α) (σ0 σ1 σ2 : Nat) (h0 : sortPerm d 0 = σ0)
    (h1 : sortPerm d 1 = σ1) (h2 : sortPerm d 2 = σ2) :
    Is9 (sortEig V d).1 (V (IND3X3 0 σ0)) (V (IND3X3 1 σ0)) (V (IND3X3 2 σ0))
      (V (IND3X3 0 σ1)) (V (IND3X3 1 σ1)) (V (IND3X3 2 σ1))
      (V (IND3X3 0 σ2)) (V (IND3X3 1 σ2)) (V (IND3X3 2 σ2)) ∧
    Is3 (sortEig V d).2 (d σ0) (d σ1) (d σ2) := by
  obtain ⟨td, tV, -, -⟩ := sortPerm_tracks V d
  subst h0 h1 h2
  exact ⟨⟨tV 0 0 (by omega) (by omega), tV 1 0 (by omega) (by omega),
    tV 2 0 (by omega) (by omega), tV 0 1 (by omega) (by omega), tV 1 1 (by omega) (by omega),
    tV 2 1 (by omega) (by omega), tV 0 2 (by omega) (by omega), tV 1 2 (by omega) (by omega),
    tV 2 2 (by omega) (by omega)⟩, td 0 (by omega), td 1 (by omega), td 2 (by omega)⟩

theorem recon_of_is9 {V d : Nat → α} {v0 v1 v2 v3 v4 v5 v6 v7 v8 d0 d1 d2 : α}
    (hV : Is9 V v0 v1 v2 v3 v4 v5 v6 v7 v8) (hd : Is3 d d0 d1 d2) (r c : Nat)
    (hr : r < 3) (hc : c < 3) :
    recon V d r c = recon (buf9 v0 v1 v2 v3 v4 v5 v6 v7 v8) (buf3 d0 d1 d2) r c := by
  unfold recon
  rw [ent_of_is9 hV r 0 hr (by omega), ent_of_is9 hV r 1 hr (by omega),
    ent_of_is9 hV r 2 hr (by omega), ent_of_is9 hV c 0 hc (by omega),
    ent_of_is9 hV c 1 hc (by omega), ent_of_is9 hV c 2 hc (by omega), hd.1, hd.2.1, hd.2.2]
  rfl

/-- The run on `[[2,0,0],[0,3,4],[0,4,9]]`, step by step. -/
theorem eigen_example_core (V d e : Nat → ℝ) :
    eigen_decomposition Real.sqrt 0 (buf9 2 0 0 0 3 4 0 4 9) V d e = none ∧
    ∀ n, ∃ R, eigen_decomposition Real.sqrt (n + 1) (buf9 2 0 0 0 3 4 0 4 9) V d e = some R ∧
      Is3 R.2 1 2 11 ∧
      (∀ r i, r < 3 → i < 3 →
        mulAV (buf9 2 0 0 0 3 4 0 4 9) R.1 r i = R.2 i * ent R.1 r i) ∧
      (∀ r c, r < 3 → c < 3 → recon R.1 R.2 r c = ent (buf9 2 0 0 0 3 4 0 4 9) r c) := by
  have hV : Is9 (copyMatrix (buf9 (2 : ℝ) 0 0 0 3 4 0 4 9) V) 2 0 0 0 3 4 0 4 9 := by
    refine ⟨?_, ?_, ?_, ?_, ?_, ?_, ?_, ?_, ?_⟩ <;> simp [copyMatrix_apply, buf9]
  obtain ⟨tV, td, te⟩ := tred2_example
    { V := copyMatrix (buf9 (2 : ℝ) 0 0 0 3 4 0 4 9) V, d := d, e := e } hV
  obtain ⟨hnone, hsome⟩ := tql2Diag_example _ tV td te
  refine ⟨by simp only [eigen_decomposition, tql2, hnone, Option.map_none'], fun n => ?_⟩
  obtain ⟨q, hq, c, s, hcs, hc2, qV, qd⟩ := hsome n
  refine ⟨sortEig q.V q.d, by simp only [eigen_decomposition, tql2, hq, Option.map_some'], ?_⟩
  have hperm : sortPerm q.d 0 = 1 ∧ sortPerm q.d 1 = 0 ∧ sortPerm q.d 2 = 2 := by
    have d0 := qd.1
    have d1 := qd.2.1
    have d2 := qd.2.2
    rcases sortPerm_table q.d with h | h | h | h | h | h <;>
      obtain ⟨h0, h1, h2, ha, hb⟩ := h <;>
      rw [d0, d1, d2] at * <;>
      first
        | exact ⟨h0, h1, h2⟩
        | (exfalso; norm_num at ha hb)
  obtain ⟨rV, rd⟩ := sortEig_is9 q.V q.d 1 0 2 hperm.1 hperm.2.1 hperm.2.2
  have rV' : Is9 (sortEig q.V q.d).1 0 (-c) (-s) 1 0 0 0 (-s) c :=
    is9_congr rV qV.2.2.2.1 qV.2.2.2.2.1 qV.2.2.2.2.2.1 qV.1 qV.2.1 qV.2.2.1
      qV.2.2.2.2.2.2.1 qV.2.2.2.2.2.2.2.1 qV.2.2.2.2.2.2.2.2
  have rd' : Is3 (sortEig q.V q.d).2 1 2 11 := is3_congr rd qd.2.1 qd.1 qd.2.2
  have h5 : s * s = 1 / 5 := by rw [hc2] at hcs; linarith
  subst hc2
  refine ⟨rd', ?_, ?_⟩
  · intro r i hr hi
    have hA := is9_self (buf9 (2 : ℝ) 0 0 0 3 4 0 4 9)
    rw [mulAV_of_is9 hA rV' r i hr hi, ent_of_is9 rV' r i hr hi]
    interval_cases i
    · rw [rd'.1]
      interval_cases r <;> simp only [mulAV, ent, IND3X3, N, buf9, Nat.reduceMul,
        Nat.reduceAdd] <;> ring
    · rw [rd'.2.1]
      interval_cases r <;> simp only [mulAV, ent, IND3X3, N, buf9, Nat.reduceMul,
        Nat.reduceAdd] <;> ring
    · rw [rd'.2.2]
      interval_cases r <;> simp only [mulAV, ent, IND3X3, N, buf9, Nat.reduceMul,
        Nat.reduceAdd] <;> ring
  · intro r c' hr hc
    rw [recon_of_is9 rV' rd' r c' hr hc]
    interval_cases r <;> interval_cases c' <;>
      simp only [recon, ent, IND3X3, N, buf9, buf3, Nat.reduceMul, Nat.reduceAdd] <;>
      first
        | ring1
        | linear_combination 15 * h5
        | linear_combination 20 * h5
        | linear_combination 45 * h5

theorem mk3_apply (a00 a01 a02 a10 a11 a12 a20 a21 a22 : α) :
    mk3 a00 a01 a02 a10 a11 a12 a20 a21 a22 0 0 = a00 ∧
    mk3 a00 a01 a02 a10 a11 a12 a20 a21 a22 0 1 = a01 ∧
    mk3 a00 a01 a02 a10 a11 a12 a20 a21 a22 0 2 = a02 ∧
    mk3 a00 a01 a02 a10 a11 a12 a20 a21 a22 1 0 = a10 ∧
    mk3 a00 a01 a02 a10 a11 a12 a20 a21 a22 1 1 = a11 ∧
    mk3 a00 a01 a02 a10 a11 a12 a20 a21 a22 1 2 = a12 ∧
    mk3 a00 a01 a02 a10 a11 a12 a20 a21 a22 2 0 = a20 ∧
    mk3 a00 a01 a02 a10 a11 a12 a20 a21 a22 2 1 = a21 ∧
    mk3 a00 a01 a02 a10 a11 a12 a20 a21 a22 2 2 = a22 :=
  ⟨rfl, rfl, rfl, rfl, rfl, rfl, rfl, rfl, rfl⟩

theorem mk3_mul (a00 a01 a02 a10 a11 a12 a20 a21 a22 b00 b01 b02 b10 b11 b12 b20 b21 b22 : α) :
    mk3 a00 a01 a02 a10 a11 a12 a20 a21 a22 * mk3 b00 b01 b02 b10 b11 b12 b20 b21 b22 =
      mk3 (a00 * b00 + a01 * b10 + a02 * b20) (a00 * b01 + a01 * b11 + a02 * b21)
        (a00 * b02 + a01 * b12 + a02 * b22)
        (a10 * b00 + a11 * b10 + a12 * b20) (a10 * b01 + a11 * b11 + a12 * b21)
        (a10 * b02 + a11 * b12 + a12 * b22)
        (a20 * b00 + a21 * b10 + a22 * b20) (a20 * b01 + a21 * b11 + a22 * b21)
        (a20 * b02 + a21 * b12 + a22 * b22) := by
  ext i j
  rw [Matrix.mul_apply, Fin.sum_univ_three]
  fin_cases i <;> fin_cases j <;> rfl

theorem mk3_transpose (a00 a01 a02 a10 a11 a12 a20 a21 a22 : α) :
    (mk3 a00 a01 a02 a10 a11 a12 a20 a21 a22).transpose = mk3 a00 a10 a20 a01 a11 a21 a02 a12 a22 := by
  ext i j
  fin_cases i <;> fin_cases j <;> rfl

theorem mk3_one : (1 : Matrix (Fin 3) (Fin 3) α) = mk3 1 0 0 0 1 0 0 0 1 := by
  ext i j
  fin_cases i <;> fin_cases j <;> rfl

theorem mk3_congr {a00 a01 a02 a10 a11 a12 a20 a21 a22 b00 b01 b02 b10 b11 b12 b20 b21 b22 : α}
    (h00 : a00 = b00) (h01 : a01 = b01) (h02 : a02 = b02) (h10 : a10 = b10) (h11 : a11 = b11)
    (h12 : a12 = b12) (h20 : a20 = b20) (h21 : a21 = b21) (h22 : a22 = b22) :
    mk3 a00 a01 a02 a10 a11 a12 a20 a21 a22 = mk3 b00 b01 b02 b10 b11 b12 b20 b21 b22 := by
  rw [h00, h01, h02, h10, h11, h12, h20, h21, h22]

theorem toM_apply (V : Nat → α) (r c : Fin 3) : toM V r c = ent V r.val c.val := by
  fin_cases r <;> fin_cases c <;> rfl

theorem toM_congr {V W : Nat → α} (h : ∀ i, i < 9 → V i = W i) : toM V = toM W := by
  unfold toM
  rw [h 0 (by omega), h 1 (by omega), h 2 (by omega), h 3 (by omega), h 4 (by omega),
    h 5 (by omega), h 6 (by omega), h 7 (by omega), h 8 (by omega)]

theorem isOrtho_toM {V : Nat → α} (h : IsOrtho V) : (toM V).transpose * toM V = 1 := by
  ext i j
  have := h i.val j.val i.isLt j.isLt
  rw [Matrix.mul_apply, Fin.sum_univ_three]
  simp only [Matrix.transpose_apply, toM_apply, Matrix.one_apply]
  unfold gram at this
  simp only [Fin.val_zero, Fin.val_one, Fin.val_two] 
  rw [this]
  simp only [Fin.ext_iff]

theorem rot01M_orth (c s : α) (h : c * c + s * s = 1) : rot01M c s * (rot01M c s).transpose = 1 := by
  unfold rot01M
  rw [mk3_transpose, mk3_mul, mk3_one]
  apply mk3_congr <;> first | linear_combination h | ring1

theorem rot12M_orth (c s : α) (h : c * c + s * s = 1) : rot12M c s * (rot12M c s).transpose = 1 := by
  unfold rot12M
  rw [mk3_transpose, mk3_mul, mk3_one]
  apply mk3_congr <;> first | linear_combination h | ring1

theorem rot01M_conj (c s t00 t01 t02 t11 t12 t22 : α) :
    (rot01M c s).transpose * symM t00 t01 t02 t11 t12 t22 * rot01M c s =
      symM (c * c * t00 - 2 * c * s * t01 + s * s * t11)
        (c * s * t00 + (c * c - s * s) * t01 - c * s * t11) (c * t02 - s * t12)
        (s * s * t00 + 2 * c * s * t01 + c * c * t11) (s * t02 + c * t12) t22 := by
  unfold rot01M symM
  rw [mk3_transpose, mk3_mul, mk3_mul]
  apply mk3_congr <;> ring1

theorem rot12M_conj (c s t00 t01 t02 t11 t12 t22 : α) :
    (rot12M c s).transpose * symM t00 t01 t02 t11 t12 t22 * rot12M c s =
      symM t00 (c * t01 - s * t02) (s * t01 + c * t02)
        (c * c * t11 - 2 * c * s * t12 + s * s * t22)
        (c * s * t11 + (c * c - s * s) * t12 - c * s * t22)
        (s * s * t11 + 2 * c * s * t12 + c * c * t22) := by
  unfold rot12M symM
  rw [mk3_transpose, mk3_mul, mk3_mul]
  apply mk3_congr <;> ring1

theorem toM_rot01 {V W : Nat → α} (c s : α)
    (h : Is9 W (c * V 0 - s * V 3) (c * V 1 - s * V 4) (c * V 2 - s * V 5)
      (s * V 0 + c * V 3) (s * V 1 + c * V 4) (s * V 2 + c * V 5) (V 6) (V 7) (V 8)) :
    toM W = toM V * rot01M c s := by
  obtain ⟨h0, h1, h2, h3, h4, h5, h6, h7, h8⟩ := h
  unfold toM rot01M
  rw [mk3_mul, h0, h1, h2, h3, h4, h5, h6, h7, h8]
  apply mk3_congr <;> ring1

theorem toM_rot12 {V W : Nat → α} (c s : α)
    (h : Is9 W (V 0) (V 1) (V 2) (c * V 3 - s * V 6) (c * V 4 - s * V 7) (c * V 5 - s * V 8)
      (s * V 3 + c * V 6) (s * V 4 + c * V 7) (s * V 5 + c * V 8)) :
    toM W = toM V * rot12M c s := by
  obtain ⟨h0, h1, h2, h3, h4, h5, h6, h7, h8⟩ := h
  unfold toM rot12M
  rw [mk3_mul, h0, h1, h2, h3, h4, h5, h6, h7, h8]
  apply mk3_congr <;> ring1

theorem symM_congr {a0 a1 a2 a3 a4 a5 b0 b1 b2 b3 b4 b5 : α} (h0 : a0 = b0) (h1 : a1 = b1)
    (h2 : a2 = b2) (h3 : a3 = b3) (h4 : a4 = b4) (h5 : a5 = b5) :
    symM a0 a1 a2 a3 a4 a5 = symM b0 b1 b2 b3 b4 b5 := by
  rw [h0, h1, h2, h3, h4, h5]

/-- The rotation `(c, s)` computed from `(p, e)` at lines 210-213. -/
theorem givens_facts {sqrt : α → α} (hs : IsSqrt sqrt) (p e r s c : α) (he : e ≠ 0)
    (hr : r = sqrt (p * p + e * e)) (hs' : s = e / r) (hc : c = p / r) :
    0 < r ∧ c * c + s * s = 1 ∧ s * r = e ∧ c * r = p := by
  obtain ⟨h0, h1⟩ := hypot_pos hs p e he
  rw [← hr] at h0 h1
  have hne := ne_of_gt h0
  have g2 : s * r = e := by rw [hs']; field_simp
  have g3 : c * r = p := by rw [hc]; field_simp
  refine ⟨h0, ?_, g2, g3⟩
  have : (c * c + s * s - 1) * (r * r) = 0 := by
    linear_combination (c * r + p) * g3 + (s * r + e) * g2 - h1
  rcases mul_eq_zero.mp this with h | h
  · linarith
  · exact absurd (mul_self_eq_zero.mp h) hne

/-- The implicit shift of lines 180-188: `d[l]`, `d[l+1]` become `dl`, `dl1`. -/
theorem shift_facts {sqrt : α → α} (hs : IsSqrt sqrt) (d0 d1 e0 p r dl dl1 : α) (he : e0 ≠ 0)
    (hp : p = (d1 - d0) / (2 * e0))
    (hr : r = if p < 0 then -sqrt (p * p + 1 * 1) else sqrt (p * p + 1 * 1))
    (hdl : dl = e0 / (p + r)) (hdl1 : dl1 = e0 * (p + r)) :
    dl * dl1 = e0 * e0 ∧ dl1 - dl = d1 - d0 ∧ dl1 ≠ 0 ∧ |dl| ≤ |e0| := by
  obtain ⟨σ0, σ1⟩ := hypot_pos hs p 1 one_ne_zero
  have hσ : 1 ≤ sqrt (p * p + 1 * 1) := by
    by_contra hlt
    have hlt' := not_le.mp hlt
    nlinarith [mul_self_nonneg p]
  have hrr : r * r = p * p + 1 := by
    rw [hr]; split_ifs <;> linear_combination σ1
  have habs : 1 ≤ |p + r| := by
    rw [hr]
    split_ifs with hneg
    · rw [abs_of_neg (by linarith)]; linarith
    · rw [abs_of_pos (by linarith [not_lt.mp hneg])]; linarith [not_lt.mp hneg]
  have hne : p + r ≠ 0 := by
    intro h0; rw [h0, abs_zero] at habs; linarith
  have h2 : 2 * e0 * p = d1 - d0 := by rw [hp]; field_simp
  have hdl' : dl * (p + r) = e0 := by rw [hdl]; field_simp
  have hdl2 : dl = e0 * (r - p) := by
    have : (dl - e0 * (r - p)) * (p + r) = 0 := by linear_combination hdl' - e0 * hrr
    rcases mul_eq_zero.mp this with h | h
    · linarith
    · exact absurd h hne
  refine ⟨?_, ?_, ?_, ?_⟩
  · rw [hdl1]; linear_combination e0 * hdl'
  · rw [hdl1, hdl2]; linear_combination h2
  · rw [hdl1]; exact mul_ne_zero he hne
  · have h3 : |dl| * |p + r| = |e0| := by rw [← abs_mul, hdl']
    calc |dl| = |dl| * 1 := (mul_one _).symm
      _ ≤ |dl| * |p + r| := by gcongr
      _ = |e0| := h3

/-- The algebra of a QL step on a 2x2 block: the entries the code stores are
those of `Qᵀ T Q`. -/
theorem blk2_alg (a b e dl dl1 r0 s c pf f h : α) (f1 : dl * dl1 = e * e)
    (f2 : dl1 - dl = b - a) (g1 : c * c + s * s = 1) (g2 : s * r0 = e) (g3 : c * r0 = dl1)
    (hr0 : r0 ≠ 0) (hpf : pf = 0) (hh : h = a - dl) :
    c * pf + (f + h) = c * c * (a + f) - 2 * c * s * e + s * s * (b + f) ∧
    s * pf = c * s * (a + f) + (c * c - s * s) * e - c * s * (b + f) ∧
    (1 * dl1 + s * (c * (1 * e) + s * dl)) + (f + h) =
      s * s * (a + f) + 2 * c * s * e + c * c * (b + f) := by
  have k7 : c * e = s * dl1 := by linear_combination s * g3 - c * g2
  have k8 : s * e = c * dl := by
    have : (s * e - c * dl) * r0 = 0 := by linear_combination e * g2 - dl * g3 - f1
    rcases mul_eq_zero.mp this with h | h
    · linarith
    · exact absurd h hr0
  subst hpf hh
  refine ⟨?_, ?_, ?_⟩
  · linear_combination (dl - f - a) * g1 + s * s * f2 + s * k7 + c * k8
  · linear_combination -(s * c) * f2 - c * k7 + s * k8
  · linear_combination (dl - dl1 - f - a) * g1 + c * c * f2 - s * k7

/-- The algebra of the first rotation (plane 1-2) of a QL step on the full block. -/
theorem blk3_stage1 (b g e1 dl1 P2 r1 s1 c1 p1 f f' : α) (u1 : c1 * c1 + s1 * s1 = 1)
    (u2 : s1 * r1 = e1) (u3 : c1 * r1 = P2) (hp1 : p1 = c1 * dl1 - s1 * (1 * e1))
    (hb : b + f = dl1 + f') (hg : g + f = P2 + f') :
    c1 * c1 * (b + f) - 2 * c1 * s1 * e1 + s1 * s1 * (g + f) = c1 * p1 + f' ∧
    c1 * s1 * (b + f) + (c1 * c1 - s1 * s1) * e1 - c1 * s1 * (g + f) = s1 * p1 ∧
    s1 * s1 * (b + f) + 2 * c1 * s1 * e1 + c1 * c1 * (g + f) =
      (1 * P2 + s1 * (c1 * (1 * e1) + s1 * dl1)) + f' := by
  have kk : c1 * e1 = s1 * P2 := by linear_combination s1 * u3 - c1 * u2
  rw [hb, hg, hp1]
  refine ⟨?_, ?_, ?_⟩
  · linear_combination f' * u1 - s1 * kk
  · linear_combination c1 * kk
  · linear_combination (f' + P2) * u1 + s1 * kk

/-- The algebra of the second rotation (plane 0-1) of a QL step on the full
block, with the closing formula of line 225 for `p`. -/
theorem blk3_stage2 (dl dl1 e0 e1 p1 r0 s0 c0 s1 c1 pf f' : α) (w1 : c0 * c0 + s0 * s0 = 1)
    (w2 : s0 * r0 = e0) (w3 : c0 * r0 = p1) (hp1 : p1 = c1 * dl1 - s1 * (1 * e1))
    (f1 : dl * dl1 = e0 * e0) (hdl1 : dl1 ≠ 0) (hpf : pf = -s0 * s1 * 1 * e1 * e0 / dl1) :
    c0 * c0 * (dl + f') - 2 * c0 * s0 * (c1 * e0) + s0 * s0 * (c1 * p1 + f') = c0 * pf + f' ∧
    c0 * s0 * (dl + f') + (c0 * c0 - s0 * s0) * (c1 * e0) - c0 * s0 * (c1 * p1 + f') = s0 * pf ∧
    c0 * (s1 * e0) - s0 * (s1 * p1) = 0 ∧
    s0 * s0 * (dl + f') + 2 * c0 * s0 * (c1 * e0) + c0 * c0 * (c1 * p1 + f') =
      (c1 * p1 + s0 * (c0 * (c1 * e0) + s0 * dl)) + f' ∧
    s0 * (s1 * e0) + c0 * (s1 * p1) = s1 * r0 := by
  have kq : c0 * e0 = s0 * p1 := by linear_combination s0 * w3 - c0 * w2
  have hpf' : pf * dl1 = -s0 * s1 * 1 * e1 * e0 := by rw [hpf]; field_simp
  have hpl : pf = c0 * dl - s0 * c1 * e0 := by
    have : (pf - (c0 * dl - s0 * c1 * e0)) * dl1 = 0 := by
      linear_combination hpf' - c0 * f1 - e0 * kq - e0 * s0 * hp1
    rcases mul_eq_zero.mp this with h | h
    · linarith
    · exact absurd h hdl1
  rw [hpl]
  refine ⟨?_, ?_, ?_, ?_, ?_⟩
  · linear_combination f' * w1 - s0 * c1 * kq
  · linear_combination c0 * c1 * kq
  · linear_combination s1 * kq
  · linear_combination (f' + c1 * p1) * w1 + s0 * c1 * kq
  · linear_combination s1 * r0 * w1 - s0 * s1 * w2 - c0 * s1 * w3

theorem triQ_01 (q : QL α) :
    triQ 0 1 q = symM (q.d 0 + q.f) (q.e 0) 0 (q.d 1 + q.f) 0 (q.d 2 + q.f) := rfl

theorem triQ_02 (q : QL α) :
    triQ 0 2 q = symM (q.d 0 + q.f) (q.e 0) 0 (q.d 1 + q.f) (q.e 1) (q.d 2 + q.f) := rfl

/-- A QL step on the block `0 … 1` is an orthogonal similarity of the matrix
without `e[1]`, and the new shift is bounded by the old entries. -/
theorem tql2Step_01_sim {sqrt : α → α} (hs : IsSqrt sqrt) (q : QL α) (hq : Live 0 1 q) :
    ∃ Q : Matrix (Fin 3) (Fin 3) α, Q * Q.transpose = 1 ∧
      toM (tql2Step sqrt 0 1 q).V = toM q.V * Q ∧
      triQ 0 1 (tql2Step sqrt 0 1 q) = Q.transpose * triQ 0 1 q * Q ∧
      |(tql2Step sqrt 0 1 q).f| ≤ |q.d 0 + q.f| + |q.e 0| ∧ (tql2Step sqrt 0 1 q).e 1 = 0 := by
  have e0 : q.e 0 ≠ 0 := hq.2.2 0 (by omega) (by omega)
  obtain ⟨p, hp⟩ : ∃ p, p = (q.d 1 - q.d 0) / (2 * q.e 0) := ⟨_, rfl⟩
  obtain ⟨r, hr⟩ : ∃ r, r = if p < 0 then -sqrt (p * p + 1 * 1) else sqrt (p * p + 1 * 1) :=
    ⟨_, rfl⟩
  obtain ⟨dl, hdl⟩ : ∃ dl, dl = q.e 0 / (p + r) := ⟨_, rfl⟩
  obtain ⟨dl1, hdl1⟩ : ∃ dl1, dl1 = q.e 0 * (p + r) := ⟨_, rfl⟩
  obtain ⟨h, hh⟩ : ∃ h, h = q.d 0 - dl := ⟨_, rfl⟩
  obtain ⟨r0, hr0⟩ : ∃ r0, r0 = sqrt (dl1 * dl1 + q.e 0 * q.e 0) := ⟨_, rfl⟩
  obtain ⟨s, hs'⟩ : ∃ s, s = q.e 0 / r0 := ⟨_, rfl⟩
  obtain ⟨c, hc⟩ : ∃ c, c = dl1 / r0 := ⟨_, rfl⟩
  obtain ⟨pf, hpf⟩ : ∃ pf, pf = -s * 0 * 1 * q.e 1 * q.e 0 / dl1 := ⟨_, rfl⟩
  obtain ⟨hV, hd, he, hf, -⟩ := tql2Step_01_form sqrt q
    _ _ _ _ _ _ _ _ _ _ _ _ _ _ _ p r dl dl1 h r0 s c pf
    (is9_self q.V) (is3_self q.d) (is3_self q.e) hp hr hdl hdl1 hh hr0 hs' hc hpf
  obtain ⟨f1, f2, f3, f4⟩ := shift_facts hs (q.d 0) (q.d 1) (q.e 0) p r dl dl1 e0 hp hr hdl hdl1
  obtain ⟨g0, g1, g2, g3⟩ := givens_facts hs dl1 (q.e 0) r0 s c e0 hr0 hs' hc
  have hpf0 : pf = 0 := by rw [hpf]; ring
  obtain ⟨a1, a2, a3⟩ := blk2_alg (q.d 0) (q.d 1) (q.e 0) dl dl1 r0 s c pf q.f h f1 f2 g1 g2 g3
    (ne_of_gt g0) hpf0 hh
  refine ⟨rot01M c s, rot01M_orth _ _ g1, toM_rot01 _ _ hV, ?_, ?_, ?_⟩
  · rw [triQ_01, triQ_01, rot01M_conj, hd.1, hd.2.1, hd.2.2, he.1, hf]
    exact symM_congr a1 a2 (by ring) a3 (by ring) (by ring)
  · rw [hf, hh]
    calc |q.f + (q.d 0 - dl)| = |(q.d 0 + q.f) - dl| := by congr 1; ring
      _ ≤ |q.d 0 + q.f| + |dl| := abs_sub _ _
      _ ≤ |q.d 0 + q.f| + |q.e 0| := by gcongr
  · rw [he.2.1, zero_mul]

/-- A QL step on the full block `0 … 2` is an orthogonal similarity, and the
new shift is bounded by the old entries. -/
theorem tql2Step_02_sim {sqrt : α → α} (hs : IsSqrt sqrt) (q : QL α) (hq : Live 0 2 q) :
    ∃ Q : Matrix (Fin 3) (Fin 3) α, Q * Q.transpose = 1 ∧
      toM (tql2Step sqrt 0 2 q).V = toM q.V * Q ∧
      triQ 0 2 (tql2Step sqrt 0 2 q) = Q.transpose * triQ 0 2 q * Q ∧
      |(tql2Step sqrt 0 2 q).f| ≤ |q.d 0 + q.f| + |q.e 0| ∧ (tql2Step sqrt 0 2 q).e 2 = 0 := by
  have e0 : q.e 0 ≠ 0 := hq.2.2 0 (by omega) (by omega)
  have e1 : q.e 1 ≠ 0 := hq.2.2 1 (by omega) (by omega)
  obtain ⟨p, hp⟩ : ∃ p, p = (q.d 1 - q.d 0) / (2 * q.e 0) := ⟨_, rfl⟩
  obtain ⟨r, hr⟩ : ∃ r, r = if p < 0 then -sqrt (p * p + 1 * 1) else sqrt (p * p + 1 * 1) :=
    ⟨_, rfl⟩
  obtain ⟨dl, hdl⟩ : ∃ dl, dl = q.e 0 / (p + r) := ⟨_, rfl⟩
  obtain ⟨dl1, hdl1⟩ : ∃ dl1, dl1 = q.e 0 * (p + r) := ⟨_, rfl⟩
  obtain ⟨h, hh⟩ : ∃ h, h = q.d 0 - dl := ⟨_, rfl⟩
  obtain ⟨P2, hP2⟩ : ∃ P2, P2 = q.d 2 - h := ⟨_, rfl⟩
  obtain ⟨r1, hr1⟩ : ∃ r1, r1 = sqrt (P2 * P2 + q.e 1 * q.e 1) := ⟨_, rfl⟩
  obtain ⟨s1, hs1⟩ : ∃ s1, s1 = q.e 1 / r1 := ⟨_, rfl⟩
  obtain ⟨c1, hc1⟩ : ∃ c1, c1 = P2 / r1 := ⟨_, rfl⟩
  obtain ⟨p1, hp1⟩ : ∃ p1, p1 = c1 * dl1 - s1 * (1 * q.e 1) := ⟨_, rfl⟩
  obtain ⟨r0, hr0⟩ : ∃ r0, r0 = sqrt (p1 * p1 + q.e 0 * q.e 0) := ⟨_, rfl⟩
  obtain ⟨s0, hs0⟩ : ∃ s0, s0 = q.e 0 / r0 := ⟨_, rfl⟩
  obtain ⟨c0, hc0⟩ : ∃ c0, c0 = p1 / r0 := ⟨_, rfl⟩
  obtain ⟨pf, hpf⟩ : ∃ pf, pf = -s0 * s1 * 1 * q.e 1 * q.e 0 / dl1 := ⟨_, rfl⟩
  obtain ⟨hV, hd, he, hf, -⟩ := tql2Step_02_form sqrt q
    _ _ _ _ _ _ _ _ _ _ _ _ _ _ _ p r dl dl1 h P2 r1 s1 c1 p1 r0 s0 c0 pf
    (c1 * q.V 3 - s1 * q.V 6) (c1 * q.V 4 - s1 * q.V 7) (c1 * q.V 5 - s1 * q.V 8)
    (is9_self q.V) (is3_self q.d) (is3_self q.e) hp hr hdl hdl1 hh hP2 hr1 hs1 hc1 hp1 hr0 hs0
    hc0 hpf rfl rfl rfl
  obtain ⟨f1, f2, f3, f4⟩ := shift_facts hs (q.d 0) (q.d 1) (q.e 0) p r dl dl1 e0 hp hr hdl hdl1
  obtain ⟨u0, u1, u2, u3⟩ := givens_facts hs P2 (q.e 1) r1 s1 c1 e1 hr1 hs1 hc1
  obtain ⟨w0, w1, w2, w3⟩ := givens_facts hs p1 (q.e 0) r0 s0 c0 e0 hr0 hs0 hc0
  obtain ⟨a1, a2, a3⟩ := blk3_stage1 (q.d 1) (q.d 2) (q.e 1) dl1 P2 r1 s1 c1 p1 q.f (q.f + h)
    u1 u2 u3 hp1 (by rw [hh]; linear_combination -f2) (by rw [hP2]; ring)
  obtain ⟨b1, b2, b3, b4, b5⟩ := blk3_stage2 dl dl1 (q.e 0) (q.e 1) p1 r0 s0 c0 s1 c1 pf
    (q.f + h) w1 w2 w3 hp1 f1 f3 hpf
  have st1 : (rot12M c1 s1).transpose * triQ 0 2 q * rot12M c1 s1 =
      symM (dl + (q.f + h)) (c1 * q.e 0) (s1 * q.e 0) (c1 * p1 + (q.f + h)) (s1 * p1)
        ((1 * P2 + s1 * (c1 * (1 * q.e 1) + s1 * dl1)) + (q.f + h)) := by
    rw [triQ_02, rot12M_conj]
    exact symM_congr (by rw [hh]; ring) (by ring) (by ring) a1 a2 a3
  refine ⟨rot12M c1 s1 * rot01M c0 s0, ?_, ?_, ?_, ?_, ?_⟩
  · rw [Matrix.transpose_mul]
    calc rot12M c1 s1 * rot01M c0 s0 * ((rot01M c0 s0).transpose * (rot12M c1 s1).transpose) =
          rot12M c1 s1 * (rot01M c0 s0 * (rot01M c0 s0).transpose) * (rot12M c1 s1).transpose := by
          simp only [Matrix.mul_assoc]
      _ = 1 := by rw [rot01M_orth _ _ w1, Matrix.mul_one, rot12M_orth _ _ u1]
  · have hW : toM (buf9 (q.V 0) (q.V 1) (q.V 2) (c1 * q.V 3 - s1 * q.V 6)
        (c1 * q.V 4 - s1 * q.V 7) (c1 * q.V 5 - s1 * q.V 8) (s1 * q.V 3 + c1 * q.V 6)
        (s1 * q.V 4 + c1 * q.V 7) (s1 * q.V 5 + c1 * q.V 8)) = toM q.V * rot12M c1 s1 :=
      toM_rot12 c1 s1 ⟨rfl, rfl, rfl, rfl, rfl, rfl, rfl, rfl, rfl⟩
    rw [← Matrix.mul_assoc, ← hW]
    exact toM_rot01 c0 s0 hV
  · calc triQ 0 2 (tql2Step sqrt 0 2 q) =
          (rot01M c0 s0).transpose * ((rot12M c1 s1).transpose * triQ 0 2 q * rot12M c1 s1) * rot01M c0 s0 := by
          rw [st1, rot01M_conj, triQ_02, hd.1, hd.2.1, hd.2.2, he.1, he.2.1, hf]
          exact symM_congr b1.symm b2.symm b3.symm b4.symm b5.symm rfl
      _ = (rot12M c1 s1 * rot01M c0 s0).transpose * triQ 0 2 q * (rot12M c1 s1 * rot01M c0 s0) := by
          rw [Matrix.transpose_mul]; simp only [Matrix.mul_assoc]
  · rw [hf, hh]
    calc |q.f + (q.d 0 - dl)| = |(q.d 0 + q.f) - dl| := by congr 1; ring
      _ ≤ |q.d 0 + q.f| + |dl| := abs_sub _ _
      _ ≤ |q.d 0 + q.f| + |q.e 0| := by gcongr
  · rw [he.2.2, zero_mul]

theorem le_maxAbs (A : Nat → α) (i : Nat) (hi : i < 9) : |A i| ≤ maxAbs A := by
  unfold maxAbs
  interval_cases i <;> simp only [le_max_iff, le_refl, true_or, or_true]

theorem toM_abs_le (A : Nat → α) (i j : Fin 3) : |toM A i j| ≤ maxAbs A := by
  fin_cases i <;> fin_cases j
  · exact le_maxAbs A 0 (by omega)
  · exact le_maxAbs A 3 (by omega)
  · exact le_maxAbs A 6 (by omega)
  · exact le_maxAbs A 1 (by omega)
  · exact le_maxAbs A 4 (by omega)
  · exact le_maxAbs A 7 (by omega)
  · exact le_maxAbs A 2 (by omega)
  · exact le_maxAbs A 5 (by omega)
  · exact le_maxAbs A 8 (by omega)

theorem Near.le {A : Nat → α} {x : α} {B : Matrix (Fin 3) (Fin 3) α} (h : Near A x B) :
    maxAbs A ≤ x := by
  have := le_trans (abs_nonneg _) (h 0 0)
  linarith

theorem Near.abs_le {A : Nat → α} {x : α} {B : Matrix (Fin 3) (Fin 3) α} (h : Near A x B)
    (i j : Fin 3) : |B i j| ≤ x := by
  have h1 := h i j
  have h2 := toM_abs_le A i j
  calc |B i j| = |(B i j - toM A i j) + toM A i j| := by congr 1; ring
    _ ≤ |B i j - toM A i j| + |toM A i j| := abs_add _ _
    _ ≤ x := by linarith

/-- Lines 234-235 (`d[l] = d[l] + f; e[l] = 0.0`) turn the matrix without
`e[l]` at index `l` into the matrix at index `l + 1`. -/
theorem triQ_final (l : Nat) (hl : l < 3) (q : QL α) :
    triQ (l + 1) 2 { q with d := store q.d l (q.d l + q.f), e := store q.e l 0 } =
      triQ l l q := by
  interval_cases l <;> simp [triQ, store_apply]

/-- The contract of `tred2` in matrix form. -/
theorem conj_toM (A V d e : Nat → α)
    (h : ∀ i j, i < 3 → j < 3 → conj A V i j = tridiag d e i j) :
    (toM V).transpose * toM A * toM V = symM (d 0) (e 1) 0 (d 1) (e 2) (d 2) := by
  have h00 := h 0 0 (by omega) (by omega)
  have h01 := h 0 1 (by omega) (by omega)
  have h02 := h 0 2 (by omega) (by omega)
  have h10 := h 1 0 (by omega) (by omega)
  have h11 := h 1 1 (by omega) (by omega)
  have h12 := h 1 2 (by omega) (by omega)
  have h20 := h 2 0 (by omega) (by omega)
  have h21 := h 2 1 (by omega) (by omega)
  have h22 := h 2 2 (by omega) (by omega)
  simp [conj, mulAV, ent, IND3X3, N, tridiag] at h00 h01 h02 h10 h11 h12 h20 h21 h22
  unfold toM symM
  rw [mk3_transpose, mk3_mul, mk3_mul]
  apply mk3_congr
  · linear_combination h00
  · linear_combination h01
  · linear_combination h02
  · linear_combination h10
  · linear_combination h11
  · linear_combination h12
  · linear_combination h20
  · linear_combination h21
  · linear_combination h22

theorem tql2Shift_apply (e : Nat → α) :
    tql2Shift e 0 = e 1 ∧ tql2Shift e 1 = e 2 ∧ tql2Shift e 2 = 0 := by
  simp [tql2Shift, forUp_step, forUp_done, store_apply, N]

/-- The scan of lines 164-169 started at `l` with `n` tests allowed stops at the
first index `m ≥ l` whose entry passes the test `|e[m]| ≤ eps * t`, or at
`l + n` when none does. -/
theorem tql2Scan_first (e : Nat → α) (t : α) (n : Nat) :
    ∀ l, l ≤ tql2Scan e t n l ∧ tql2Scan e t n l ≤ l + n ∧
      (tql2Scan e t n l < l + n → |e (tql2Scan e t n l)| ≤ eps * t) ∧
      ∀ i, l ≤ i → i < tql2Scan e t n l → eps * t < |e i| := by
  induction n with
  | zero =>
    intro l
    exact ⟨le_refl _, le_refl _, fun h => absurd h (lt_irrefl _), fun i h1 h2 => by
      have : tql2Scan e t 0 l = l := rfl
      omega⟩
  | succ n ih =>
    intro l
    unfold tql2Scan
    by_cases h : |e l| ≤ eps * t
    · rw [if_pos h]
      exact ⟨le_refl _, by omega, fun _ => h, fun i h1 h2 => by omega⟩
    · rw [if_neg h]
      obtain ⟨a, b, c, d⟩ := ih (l + 1)
      refine ⟨by omega, by omega, fun hlt => c (by omega), fun i h1 h2 => ?_⟩
      by_cases hi : i = l
      · subst hi; exact not_le.mp h
      · exact d i (by omega) h2

theorem MAX_eq_max (a b : α) : MAX a b = max a b := by
  unfold MAX
  split_ifs with h
  · exact (max_eq_left (le_of_lt h)).symm
  · exact (max_eq_right (not_lt.mp h)).symm

theorem tql2Iterate_tst1 (sqrt : α → α) (l m fuel : Nat) :
    ∀ q q', tql2Iterate sqrt l m fuel q = some q' → q'.tst1 = q.tst1 := by
  induction fuel with
  | zero => intro q q' h; exact absurd h (by simp [tql2Iterate])
  | succ n ih =>
    intro q q' h
    unfold tql2Iterate at h
    by_cases hc : |(tql2Step sqrt l m q).e l| > eps * (tql2Step sqrt l m q).tst1
    · simp only [hc, if_true] at h
      exact (ih _ _ h).trans (tql2Step_tst1 sqrt l m q)
    · simp only [hc, if_false, Option.some.injEq] at h
      subst h
      exact tql2Step_tst1 sqrt l m q

theorem tql2Outer_tst1 (sqrt : α → α) (fuel l : Nat) (q q' : QL α)
    (h : tql2Outer sqrt fuel l q = some q') :
    q'.tst1 = MAX q.tst1 (|q.d l| + |q.e l|) := by
  rw [tql2Outer_eq] at h
  simp only [Option.map_eq_some'] at h
  obtain ⟨q1, hq1, rfl⟩ := h
  show q1.tst1 = _
  split_ifs at hq1 with hc
  · exact tql2Iterate_tst1 sqrt l _ fuel _ _ hq1
  · simp only [Option.some.injEq] at hq1
    subst hq1; rfl

/-- C11, as amended.  At outer index `l` the scan of `tql2` runs with the
threshold `eps * tst1`, where `tst1 = max(tst1 carried over, |d[l]| + |e[l]|)` is a
running maximum over the indices handled so far: the scan stops at the first
`m ≥ l` with `|e[m]| ≤ eps * tst1` (or at `_N`), the value is handed on to the
next index, and it is the local `|d[l]| + |e[l]|` exactly when that is not below
the carried value. -/
theorem scan_threshold (sqrt : α → α) (fuel l : Nat) (q : QL α) :
    tql2Outer sqrt fuel l q =
      (if tql2Scan q.e (MAX q.tst1 (|q.d l| + |q.e l|)) (N - l) l > l then
        tql2Iterate sqrt l (tql2Scan q.e (MAX q.tst1 (|q.d l| + |q.e l|)) (N - l) l) fuel
          { q with tst1 := MAX q.tst1 (|q.d l| + |q.e l|) }
      else some { q with tst1 := MAX q.tst1 (|q.d l| + |q.e l|) }).map
        (fun q => { q with d := store q.d l (q.d l + q.f), e := store q.e l 0 }) ∧
    MAX q.tst1 (|q.d l| + |q.e l|) = max q.tst1 (|q.d l| + |q.e l|) ∧
    l ≤ tql2Scan q.e (MAX q.tst1 (|q.d l| + |q.e l|)) (N - l) l ∧
    tql2Scan q.e (MAX q.tst1 (|q.d l| + |q.e l|)) (N - l) l ≤ l + (N - l) ∧
    (tql2Scan q.e (MAX q.tst1 (|q.d l| + |q.e l|)) (N - l) l < l + (N - l) →
      |q.e (tql2Scan q.e (MAX q.tst1 (|q.d l| + |q.e l|)) (N - l) l)| ≤
        eps * MAX q.tst1 (|q.d l| + |q.e l|)) ∧
    (∀ i, l ≤ i → i < tql2Scan q.e (MAX q.tst1 (|q.d l| + |q.e l|)) (N - l) l →
      eps * MAX q.tst1 (|q.d l| + |q.e l|) < |q.e i|) ∧
    (∀ q', tql2Outer sqrt fuel l q = some q' → q'.tst1 = MAX q.tst1 (|q.d l| + |q.e l|)) := by
  obtain ⟨a, b, c, d⟩ := tql2Scan_first q.e (MAX q.tst1 (|q.d l| + |q.e l|)) (N - l) l
  exact ⟨tql2Outer_eq sqrt fuel l q, MAX_eq_max _ _, a, b, c, d,
    fun q' h => tql2Outer_tst1 sqrt fuel l q q' h⟩

/-- C11, counterexample.  `tql2` entered with `d = [2^53, 1, 1]` and
`e = [_, 0, 1]`: index 0 deflates at once and leaves `tst1 = 2^53`; at index 1
the scan of the code stops at `m = 1` (no iteration), although
`|e[1]| = 1 > eps * (|d[1]| + |e[1]|)`: with the local threshold the first
index passing the test would be `m = 2`. -/
theorem scan_threshold_not_local :
    tql2Outer qsqrt 0 0 (QL.mk (buf9 1 0 0 0 1 0 0 0 1) (buf3 (2 ^ 53) 1 1)
        (tql2Shift (buf3 0 0 1)) 0 0) =
      some (QL.mk (buf9 1 0 0 0 1 0 0 0 1) (store (buf3 (2 ^ 53) 1 1) 0 (2 ^ 53 + 0))
        (store (tql2Shift (buf3 0 0 1)) 0 0) 0 (2 ^ 53)) ∧
    tql2Scan (store (tql2Shift (buf3 (0 : ℚ) 0 1)) 0 0)
      (MAX (2 ^ 53) (|store (buf3 (2 ^ 53 : ℚ) 1 1) 0 (2 ^ 53 + 0) 1| +
        |store (tql2Shift (buf3 (0 : ℚ) 0 1)) 0 0 1|)) (N - 1) 1 = 1 ∧
    tql2Scan (store (tql2Shift (buf3 (0 : ℚ) 0 1)) 0 0)
      (|store (buf3 (2 ^ 53 : ℚ) 1 1) 0 (2 ^ 53 + 0) 1| +
        |store (tql2Shift (buf3 (0 : ℚ) 0 1)) 0 0 1|) (N - 1) 1 = 2 := by
  refine ⟨?_, ?_, ?_⟩
  · rw [tql2Outer_deflated qsqrt 0 0 _ (by omega) (by
      simp [tql2Shift, forUp_step, forUp_done, store_apply, N, buf3])]
    simp only [tql2Skip, Option.some.injEq]
    congr 1
    norm_num [MAX, tql2Shift, forUp_step, forUp_done, store_apply, N, buf3]
  · rw [show N - 1 = 2 from rfl, tql2Scan_one]
    norm_num [MAX, tql2Shift, forUp_step, forUp_done, store_apply, N, buf3, eps]
  · rw [show N - 1 = 2 from rfl, tql2Scan_one]
    norm_num [MAX, tql2Shift, forUp_step, forUp_done, store_apply, N, buf3, eps]

/-! ## The entries into the QL loop body -/

theorem tql2ScanStates_cases (sqrt : α → α) (fuel : Nat) (s : Bufs α) (l : Nat) (q : QL α)
    (h : (l, q) ∈ tql2ScanStates sqrt fuel s) :
    (l = 0 ∧ q = QL.mk s.V s.d (tql2Shift s.e) 0 0) ∨
    (l = 1 ∧ tql2Outer sqrt fuel 0 (QL.mk s.V s.d (tql2Shift s.e) 0 0) = some q) ∨
    (l = 2 ∧ ∃ q1, tql2Outer sqrt fuel 0 (QL.mk s.V s.d (tql2Shift s.e) 0 0) = some q1 ∧
      tql2Outer sqrt fuel 1 q1 = some q) := by
  simp only [tql2ScanStates, N, forUp_step, forUp_done, Nat.lt_irrefl, Nat.reduceAdd,
    Nat.reduceLT, Nat.le_refl, List.nil_append] at h
  cases h0 : tql2Outer sqrt fuel 0 (QL.mk s.V s.d (tql2Shift s.e) 0 0) with
  | none =>
    simp only [h0, List.mem_singleton, Prod.mk.injEq] at h
    exact Or.inl h
  | some q1 =>
    simp only [h0] at h
    cases h1 : tql2Outer sqrt fuel 1 q1 with
    | none =>
      simp only [h1, List.mem_append, List.mem_singleton, Prod.mk.injEq, List.mem_cons,
        List.not_mem_nil, or_false] at h
      rcases h with h | ⟨rfl, rfl⟩
      · exact Or.inl h
      · exact Or.inr (Or.inl ⟨rfl, rfl⟩)
    | some q2 =>
      simp only [h1, List.mem_append, List.mem_singleton, Prod.mk.injEq, List.mem_cons,
        List.not_mem_nil, or_false] at h
      rcases h with (h | ⟨rfl, rfl⟩) | ⟨rfl, rfl⟩
      · exact Or.inl h
      · exact Or.inr (Or.inl ⟨rfl, rfl⟩)
      · exact Or.inr (Or.inr ⟨rfl, q1, rfl, h1⟩)

theorem tql2ScanStates_head (sqrt : α → α) (fuel : Nat) (s : Bufs α) :
    (0, QL.mk s.V s.d (tql2Shift s.e) 0 0) ∈ tql2ScanStates sqrt fuel s := by
  simp only [tql2ScanStates, N, forUp_step, forUp_done, Nat.lt_irrefl, Nat.reduceAdd,
    Nat.reduceLT, Nat.le_refl, List.nil_append]
  cases h0 : tql2Outer sqrt fuel 0 (QL.mk s.V s.d (tql2Shift s.e) 0 0) with
  | none => simp
  | some q1 =>
    simp only []
    cases h1 : tql2Outer sqrt fuel 1 q1 with
    | none => simp
    | some q2 => simp

theorem tql2Iterate_e2 (sqrt : α → α) (l m : Nat)
    (hlm : (l = 0 ∧ m = 1) ∨ (l = 0 ∧ m = 2) ∨ (l = 1 ∧ m = 2)) (fuel : Nat) :
    ∀ q q', q.e 2 = 0 → tql2Iterate sqrt l m fuel q = some q' → q'.e 2 = 0 := by
  induction fuel with
  | zero => intro q q' _ h; exact absurd h (by simp [tql2Iterate])
  | succ n ih =>
    intro q q' hq h
    unfold tql2Iterate at h
    by_cases hc : |(tql2Step sqrt l m q).e l| > eps * (tql2Step sqrt l m q).tst1
    · simp only [hc, if_true] at h
      exact ih _ _ (tql2Step_e2 sqrt l m q hlm hq) h
    · simp only [hc, if_false, Option.some.injEq] at h
      subst h
      exact tql2Step_e2 sqrt l m q hlm hq

/-- The body of the outer loop keeps `e[2] = 0`, whatever `sqrt` is. -/
theorem tql2Outer_e2 (sqrt : α → α) (fuel l : Nat) (hl : l < 3) (q q' : QL α)
    (h2 : q.e 2 = 0) (h : tql2Outer sqrt fuel l q = some q') : q'.e 2 = 0 := by
  have ht : 0 ≤ MAX q.tst1 (|q.d l| + |q.e l|) := MAX_nonneg _ _ (by positivity)
  obtain ⟨s1, s2, -⟩ := tql2Scan_spec q.e (MAX q.tst1 (|q.d l| + |q.e l|)) l hl h2 ht
  rw [tql2Outer_eq] at h
  simp only [Option.map_eq_some'] at h
  obtain ⟨q1, hq1, rfl⟩ := h
  obtain ⟨m, hm⟩ : ∃ m, m = tql2Scan q.e (MAX q.tst1 (|q.d l| + |q.e l|)) (N - l) l :=
    ⟨_, rfl⟩
  rw [← hm] at s1 s2 hq1
  have key : q1.e 2 = 0 := by
    split_ifs at hq1 with hc
    · exact tql2Iterate_e2 sqrt l m (by omega) fuel
        (QL.mk q.V q.d q.e q.f (MAX q.tst1 (|q.d l| + |q.e l|))) q1 h2 hq1
    · simp only [Option.some.injEq] at hq1
      subst hq1; exact h2
  show store q1.e l 0 2 = 0
  rw [store_apply]
  split_ifs
  · rfl
  · exact key

theorem tql2ScanStates_e2 (sqrt : α → α) (fuel : Nat) (s : Bufs α) (l : Nat) (q : QL α)
    (h : (l, q) ∈ tql2ScanStates sqrt fuel s) : l < 3 ∧ q.e 2 = 0 := by
  have h0 : (QL.mk s.V s.d (tql2Shift s.e) 0 0).e 2 = 0 := by
    simp [tql2Shift, store_apply, N]
  rcases tql2ScanStates_cases sqrt fuel s l q h with ⟨rfl, rfl⟩ | ⟨rfl, h1⟩ | ⟨rfl, q1, h1, h2⟩
  · exact ⟨by omega, h0⟩
  · exact ⟨by omega, tql2Outer_e2 sqrt fuel 0 (by omega) _ q h0 h1⟩
  · exact ⟨by omega, tql2Outer_e2 sqrt fuel 1 (by omega) _ q
      (tql2Outer_e2 sqrt fuel 0 (by omega) _ q1 h0 h1) h2⟩

/-! ### The scan and the loop body on doubles -/

theorem Dbl.round_zero (a : Bool) (e : Int) (s : Bool) :
    Dbl.round a 0 e s = Dbl.fin a 0 (-1074) := by
  unfold Dbl.round
  rw [if_pos rfl]

theorem Dbl.mul_zn_left (x y : Dbl) (h : x.IsZeroOrNaN) : (x * y).IsZeroOrNaN := by
  show (Dbl.mul x y).IsZeroOrNaN
  rcases h with rfl | ⟨a, e, rfl⟩
  · exact Or.inl (by cases y <;> rfl)
  · rcases y with ⟨b, n, f⟩ | ⟨b⟩ | _
    · refine Or.inr ⟨xor a b, -1074, ?_⟩
      show Dbl.round (xor a b) (0 * n) (e + f) false = _
      rw [Nat.zero_mul, Dbl.round_zero]
    · exact Or.inl rfl
    · exact Or.inl rfl

theorem Dbl.mul_zn_right (x y : Dbl) (h : y.IsZeroOrNaN) : (x * y).IsZeroOrNaN := by
  show (Dbl.mul x y).IsZeroOrNaN
  rcases h with rfl | ⟨b, f, rfl⟩
  · exact Or.inl (by cases x <;> rfl)
  · rcases x with ⟨a, m, e⟩ | ⟨a⟩ | _
    · refine Or.inr ⟨xor a b, -1074, ?_⟩
      show Dbl.round (xor a b) (m * 0) (e + f) false = _
      rw [Nat.mul_zero, Dbl.round_zero]
    · exact Or.inl rfl
    · exact Or.inl rfl

theorem Dbl.div_zn_left (x y : Dbl) (h : x.IsZeroOrNaN) : (x / y).IsZeroOrNaN := by
  show (Dbl.div x y).IsZeroOrNaN
  rcases h with rfl | ⟨a, e, rfl⟩
  · exact Or.inl (by cases y <;> rfl)
  · rcases y with ⟨b, n, f⟩ | ⟨b⟩ | _
    · by_cases hn : n = 0
      · subst hn
        exact Or.inl rfl
      · refine Or.inr ⟨xor a b, -1074, ?_⟩
        show (if n = 0 then (if 0 = 0 then Dbl.nan else Dbl.inf (xor a b))
          else Dbl.round (xor a b) (0 * 2 ^ 128 / n) (e - f - 128)
            (decide (0 * 2 ^ 128 % n ≠ 0))) = _
        rw [if_neg hn, Nat.zero_mul, Nat.zero_div, Dbl.round_zero]
    · exact Or.inr ⟨xor a b, -1074, rfl⟩
    · exact Or.inl rfl

theorem Dbl.zero_zn : Dbl.zero.IsZeroOrNaN := Or.inr ⟨false, -1074, rfl⟩

theorem Dbl.round_signClear (m : Nat) (e : Int) (s : Bool) :
    (Dbl.round false m e s).SignClear := by
  unfold Dbl.round
  simp only []
  split_ifs <;> exact rfl

theorem Dbl.fabs_signClear (x : Dbl) : (fabs x).SignClear := by
  cases x <;> first | exact rfl | exact trivial

theorem sval_nonneg (m : Nat) (e e0 : Int) : 0 ≤ sval false m e e0 := by
  unfold sval
  simp only [Bool.false_eq_true, if_false, one_mul]
  exact Int.natCast_nonneg _

theorem sval_nonpos (m : Nat) (e e0 : Int) : sval true m e e0 ≤ 0 := by
  unfold sval
  simp only [if_true, neg_mul, one_mul, Left.neg_nonpos_iff]
  exact Int.natCast_nonneg _

theorem Dbl.add_signClear (x y : Dbl) (hx : x.SignClear) (hy : y.SignClear) :
    (x + y).SignClear := by
  show (Dbl.add x y).SignClear
  rcases x with ⟨a, m, e⟩ | ⟨a⟩ | _ <;> rcases y with ⟨b, n, f⟩ | ⟨b⟩ | _ <;>
    first
      | exact trivial
      | skip
  · have ha : a = false := hx
    have hb : b = false := hy
    subst ha hb
    unfold Dbl.add
    simp only []
    have h1 := sval_nonneg m e (min e f)
    have h2 := sval_nonneg n f (min e f)
    split_ifs with h0
    · exact rfl
    · have : decide (sval false m e (min e f) + sval false n f (min e f) < 0) = false :=
        decide_eq_false (by omega)
      rw [this]
      exact Dbl.round_signClear _ _ _
  · exact hy
  · exact hx
  · have ha : a = false := hx
    have hb : b = false := hy
    subst ha hb
    exact rfl

theorem Dbl.max_signClear (a b : Dbl) (hb : b.SignClear) : (MAXD a b).SignClear := by
  unfold MAXD
  split_ifs with h
  · rcases a with ⟨s, m, e⟩ | ⟨s⟩ | _
    · rcases b with ⟨t, n, f⟩ | ⟨t⟩ | _
      · have ht : t = false := hb
        subst ht
        cases s
        · exact rfl
        · exfalso
          simp only [Dbl.lt, decide_eq_true_eq] at h
          have h1 := sval_nonneg n f (min f e)
          have h2 := sval_nonpos m e (min f e)
          omega
      · have ht : t = false := hb
        subst ht
        exact absurd h (by simp [Dbl.lt])
      · exact absurd h (by simp [Dbl.lt])
    · rcases b with ⟨t, n, f⟩ | ⟨t⟩ | _
      · cases s
        · exact rfl
        · exact absurd h (by simp [Dbl.lt])
      · have ht : t = false := hb
        subst ht
        cases s
        · exact rfl
        · exact absurd h (by simp [Dbl.lt])
      · exact absurd h (by simp [Dbl.lt])
    · exact trivial
  · exact hb

theorem Dbl.eps_mul_signClear (x : Dbl) (hx : x.SignClear) : (epsD * x).SignClear := by
  show (Dbl.mul epsD x).SignClear
  rcases x with ⟨a, m, e⟩ | ⟨a⟩ | _
  · have ha : a = false := hx
    subst ha
    exact Dbl.round_signClear _ _ _
  · have ha : a = false := hx
    subst ha
    exact rfl
  · exact trivial

/-- No double with a clear sign is below the absolute value of a zero or a
NaN. -/
theorem Dbl.not_lt_fabs_zn (y z : Dbl) (hy : y.SignClear) (hz : z.IsZeroOrNaN) :
    Dbl.lt y (fabs z) = false := by
  rcases hz with rfl | ⟨a, e, rfl⟩
  · cases y <;> rfl
  · rcases y with ⟨b, n, f⟩ | ⟨b⟩ | _
    · have hb : b = false := hy
      subst hb
      show decide (sval false n f (min f e) < sval false 0 e (min f e)) = false
      have h1 := sval_nonneg n f (min f e)
      have h2 : sval false 0 e (min f e) = 0 := by simp [sval]
      exact decide_eq_false (by omega)
    · have hb : b = false := hy
      subst hb
      rfl
    · rfl

/-- On a 2x2 block the closing formula of line 226 has the factor `s2 = 0`:
the step leaves `e[l] = 0` and `d[l] = 0`. -/
theorem tql2Step_block2 (sqrt : α → α) (l : Nat) (hl : l < 2) (q : QL α) :
    (tql2Step sqrt l (l + 1) q).e l = 0 ∧ (tql2Step sqrt l (l + 1) q).d l = 0 := by
  interval_cases l
  · obtain ⟨p, hp⟩ : ∃ p, p = (q.d 1 - q.d 0) / (2 * q.e 0) := ⟨_, rfl⟩
    obtain ⟨r, hr⟩ : ∃ r, r = if p < 0 then -sqrt (p * p + 1 * 1) else sqrt (p * p + 1 * 1) :=
      ⟨_, rfl⟩
    obtain ⟨dl, hdl⟩ : ∃ dl, dl = q.e 0 / (p + r) := ⟨_, rfl⟩
    obtain ⟨dl1, hdl1⟩ : ∃ dl1, dl1 = q.e 0 * (p + r) := ⟨_, rfl⟩
    obtain ⟨h, hh⟩ : ∃ h, h = q.d 0 - dl := ⟨_, rfl⟩
    obtain ⟨r0, hr0⟩ : ∃ r0, r0 = sqrt (dl1 * dl1 + q.e 0 * q.e 0) := ⟨_, rfl⟩
    obtain ⟨s, hs'⟩ : ∃ s, s = q.e 0 / r0 := ⟨_, rfl⟩
    obtain ⟨c, hc⟩ : ∃ c, c = dl1 / r0 := ⟨_, rfl⟩
    obtain ⟨pf, hpf⟩ : ∃ pf, pf = -s * 0 * 1 * q.e 1 * q.e 0 / dl1 := ⟨_, rfl⟩
    obtain ⟨-, hd, he, -, -⟩ := tql2Step_01_form sqrt q
      _ _ _ _ _ _ _ _ _ _ _ _ _ _ _ p r dl dl1 h r0 s c pf
      (is9_self q.V) (is3_self q.d) (is3_self q.e) hp hr hdl hdl1 hh hr0 hs' hc hpf
    have hpf0 : pf = 0 := by rw [hpf]; ring
    exact ⟨by rw [he.1, hpf0, mul_zero], by rw [hd.1, hpf0, mul_zero]⟩
  · obtain ⟨p, hp⟩ : ∃ p, p = (q.d 2 - q.d 1) / (2 * q.e 1) := ⟨_, rfl⟩
    obtain ⟨r, hr⟩ : ∃ r, r = if p < 0 then -sqrt (p * p + 1 * 1) else sqrt (p * p + 1 * 1) :=
      ⟨_, rfl⟩
    obtain ⟨dl, hdl⟩ : ∃ dl, dl = q.e 1 / (p + r) := ⟨_, rfl⟩
    obtain ⟨dl1, hdl1⟩ : ∃ dl1, dl1 = q.e 1 * (p + r) := ⟨_, rfl⟩
    obtain ⟨h, hh⟩ : ∃ h, h = q.d 1 - dl := ⟨_, rfl⟩
    obtain ⟨r0, hr0⟩ : ∃ r0, r0 = sqrt (dl1 * dl1 + q.e 1 * q.e 1) := ⟨_, rfl⟩
    obtain ⟨s, hs'⟩ : ∃ s, s = q.e 1 / r0 := ⟨_, rfl⟩
    obtain ⟨c, hc⟩ : ∃ c, c = dl1 / r0 := ⟨_, rfl⟩
    obtain ⟨pf, hpf⟩ : ∃ pf, pf = -s * 0 * 1 * q.e 2 * q.e 1 / dl1 := ⟨_, rfl⟩
    obtain ⟨-, hd, he, -, -⟩ := tql2Step_12_form sqrt q
      _ _ _ _ _ _ _ _ _ _ _ _ _ _ _ p r dl dl1 h r0 s c pf
      (is9_self q.V) (is3_self q.d) (is3_self q.e) hp hr hdl hdl1 hh hr0 hs' hc hpf
    have hpf0 : pf = 0 := by rw [hpf]; ring
    exact ⟨by rw [he.2.1, hpf0, mul_zero], by rw [hd.2.1, hpf0, mul_zero]⟩

theorem tql2IterateTrace_once (sqrt : α → α) (l m n : Nat) (q : QL α)
    (h : ¬ |(tql2Step sqrt l m q).e l| > eps * (tql2Step sqrt l m q).tst1) :
    tql2IterateTrace sqrt l m (n + 1) q = [q] := by
  unfold tql2IterateTrace
  rw [if_neg h]

/-! ### Blocks of size two on doubles -/

/-- On doubles too, one execution of the loop body on a block `l, l + 1` leaves
`e[l]` and `d[l]` zero or NaN. -/
theorem tql2StepD_block2 (l : Nat) (hl : l < 2) (q : QL Dbl) :
    ((tql2StepD l (l + 1) q).e l).IsZeroOrNaN ∧ ((tql2StepD l (l + 1) q).d l).IsZeroOrNaN := by
  interval_cases l
  · exact ⟨Dbl.mul_zn_right _ _ (Dbl.div_zn_left _ _ (Dbl.mul_zn_left _ _ (Dbl.mul_zn_left _ _
      (Dbl.mul_zn_left _ _ (Dbl.mul_zn_right _ _ Dbl.zero_zn))))),
      Dbl.mul_zn_right _ _ (Dbl.div_zn_left _ _ (Dbl.mul_zn_left _ _ (Dbl.mul_zn_left _ _
      (Dbl.mul_zn_left _ _ (Dbl.mul_zn_right _ _ Dbl.zero_zn)))))⟩
  · exact ⟨Dbl.mul_zn_right _ _ (Dbl.div_zn_left _ _ (Dbl.mul_zn_left _ _ (Dbl.mul_zn_left _ _
      (Dbl.mul_zn_left _ _ (Dbl.mul_zn_right _ _ Dbl.zero_zn))))),
      Dbl.mul_zn_right _ _ (Dbl.div_zn_left _ _ (Dbl.mul_zn_left _ _ (Dbl.mul_zn_left _ _
      (Dbl.mul_zn_left _ _ (Dbl.mul_zn_right _ _ Dbl.zero_zn)))))⟩

/-- On doubles too, a pass on a block `l, l + 1` ends after one execution of
the loop body. -/
theorem tql2IterateD_block2 (fuel l : Nat) (hl : l < 2) (q : QL Dbl) :
    tql2IterateD l (l + 1) (fuel + 1)
        (QL.mk q.V q.d q.e q.f (MAXD q.tst1 (fabs (q.d l) + fabs (q.e l)))) =
      some (tql2StepD l (l + 1)
        (QL.mk q.V q.d q.e q.f (MAXD q.tst1 (fabs (q.d l) + fabs (q.e l))))) := by
  have hz := (tql2StepD_block2 l hl
    (QL.mk q.V q.d q.e q.f (MAXD q.tst1 (fabs (q.d l) + fabs (q.e l))))).1
  have ht : (MAXD q.tst1 (fabs (q.d l) + fabs (q.e l))).SignClear :=
    Dbl.max_signClear _ _ (Dbl.add_signClear _ _ (Dbl.fabs_signClear _) (Dbl.fabs_signClear _))
  have hc := Dbl.not_lt_fabs_zn _ _ (Dbl.eps_mul_signClear _ ht) hz
  show (if Dbl.lt (epsD * (tql2StepD l (l + 1)
      (QL.mk q.V q.d q.e q.f (MAXD q.tst1 (fabs (q.d l) + fabs (q.e l))))).tst1)
      (fabs ((tql2StepD l (l + 1)
        (QL.mk q.V q.d q.e q.f (MAXD q.tst1 (fabs (q.d l) + fabs (q.e l))))).e l)) = true
    then _ else _) = _
  rw [show (tql2StepD l (l + 1)
      (QL.mk q.V q.d q.e q.f (MAXD q.tst1 (fabs (q.d l) + fabs (q.e l))))).tst1 =
      MAXD q.tst1 (fabs (q.d l) + fabs (q.e l)) from rfl, hc]
  rfl

/-- C16, as amended (a 2x2 block takes one pass).  In exact arithmetic (an ordered
field), at any deflation scan of a run of `tql2` (any buffers, any `sqrt`, fuel at
least 1): when the scan returns `m = l + 1`, one execution of the loop body leaves
`e[l] = 0` and `d[l] = 0` (before line 234 adds `f`), the test of line 232 fails,
the body is entered exactly once and the pass returns; and a pass whose body is
entered more than once has `l = 0`, `m = 2`.  On doubles, for every state and
every block `k, k + 1` with `k < 2`: one execution of the loop body leaves
`e[k]` and `d[k]` zero or NaN, the test of line 232 is false and the loop ends
after that one execution. -/
theorem block2_single_pass (sqrt : α → α) (fuel : Nat) (s : Bufs α) (l : Nat) (q : QL α)
    (h : (l, q) ∈ tql2ScanStates sqrt (fuel + 1) s) :
    (tql2Scan q.e (MAX q.tst1 (|q.d l| + |q.e l|)) (N - l) l = l + 1 →
      (tql2Step sqrt l (l + 1) (QL.mk q.V q.d q.e q.f (MAX q.tst1 (|q.d l| + |q.e l|)))).e l
        = 0 ∧
      (tql2Step sqrt l (l + 1) (QL.mk q.V q.d q.e q.f (MAX q.tst1 (|q.d l| + |q.e l|)))).d l
        = 0 ∧
      ¬ (|(tql2Step sqrt l (l + 1)
            (QL.mk q.V q.d q.e q.f (MAX q.tst1 (|q.d l| + |q.e l|)))).e l| >
          eps * (tql2Step sqrt l (l + 1)
            (QL.mk q.V q.d q.e q.f (MAX q.tst1 (|q.d l| + |q.e l|)))).tst1) ∧
      tql2OuterTrace sqrt (fuel + 1) l q =
        [(l, l + 1, QL.mk q.V q.d q.e q.f (MAX q.tst1 (|q.d l| + |q.e l|)))] ∧
      tql2Outer sqrt (fuel + 1) l q = some (tql2Close l (tql2Step sqrt l (l + 1)
        (QL.mk q.V q.d q.e q.f (MAX q.tst1 (|q.d l| + |q.e l|)))))) ∧
    (1 < (tql2OuterTrace sqrt (fuel + 1) l q).length →
      l = 0 ∧ tql2Scan q.e (MAX q.tst1 (|q.d l| + |q.e l|)) (N - l) l = 2) ∧
    (∀ (n k : Nat) (u : QL Dbl), k < 2 →
      tql2IterateD k (k + 1) (n + 1)
          (QL.mk u.V u.d u.e u.f (MAXD u.tst1 (fabs (u.d k) + fabs (u.e k)))) =
        some (tql2StepD k (k + 1)
          (QL.mk u.V u.d u.e u.f (MAXD u.tst1 (fabs (u.d k) + fabs (u.e k))))) ∧
      ((tql2StepD k (k + 1)
        (QL.mk u.V u.d u.e u.f (MAXD u.tst1 (fabs (u.d k) + fabs (u.e k))))).e k).IsZeroOrNaN ∧
      ((tql2StepD k (k + 1)
        (QL.mk u.V u.d u.e u.f (MAXD u.tst1 (fabs (u.d k) + fabs (u.e k))))).d k).IsZeroOrNaN)
    := by
  obtain ⟨hl, h2⟩ := tql2ScanStates_e2 sqrt (fuel + 1) s l q h
  have ht : 0 ≤ MAX q.tst1 (|q.d l| + |q.e l|) := MAX_nonneg _ _ (by positivity)
  obtain ⟨s1, s2, -⟩ := tql2Scan_spec q.e (MAX q.tst1 (|q.d l| + |q.e l|)) l hl h2 ht
  have key : tql2Scan q.e (MAX q.tst1 (|q.d l| + |q.e l|)) (N - l) l = l + 1 →
      (tql2Step sqrt l (l + 1) (QL.mk q.V q.d q.e q.f (MAX q.tst1 (|q.d l| + |q.e l|)))).e l
        = 0 ∧
      (tql2Step sqrt l (l + 1) (QL.mk q.V q.d q.e q.f (MAX q.tst1 (|q.d l| + |q.e l|)))).d l
        = 0 ∧
      ¬ (|(tql2Step sqrt l (l + 1)
            (QL.mk q.V q.d q.e q.f (MAX q.tst1 (|q.d l| + |q.e l|)))).e l| >
          eps * (tql2Step sqrt l (l + 1)
            (QL.mk q.V q.d q.e q.f (MAX q.tst1 (|q.d l| + |q.e l|)))).tst1) ∧
      tql2OuterTrace sqrt (fuel + 1) l q =
        [(l, l + 1, QL.mk q.V q.d q.e q.f (MAX q.tst1 (|q.d l| + |q.e l|)))] ∧
      tql2Outer sqrt (fuel + 1) l q = some (tql2Close l (tql2Step sqrt l (l + 1)
        (QL.mk q.V q.d q.e q.f (MAX q.tst1 (|q.d l| + |q.e l|))))) := by
    intro hm
    have hl2 : l < 2 := by omega
    obtain ⟨he, hd⟩ := tql2Step_block2 sqrt l hl2
      (QL.mk q.V q.d q.e q.f (MAX q.tst1 (|q.d l| + |q.e l|)))
    have hc : ¬ (|(tql2Step sqrt l (l + 1)
            (QL.mk q.V q.d q.e q.f (MAX q.tst1 (|q.d l| + |q.e l|)))).e l| >
          eps * (tql2Step sqrt l (l + 1)
            (QL.mk q.V q.d q.e q.f (MAX q.tst1 (|q.d l| + |q.e l|)))).tst1) := by
      rw [he, abs_zero, tql2Step_tst1]
      exact not_lt.mpr (mul_nonneg eps_pos.le ht)
    refine ⟨he, hd, hc, ?_, ?_⟩
    · unfold tql2OuterTrace
      simp only []
      rw [hm, if_pos (by omega), tql2IterateTrace_once sqrt l (l + 1) fuel _ hc]
      rfl
    · rw [tql2Outer_eq, hm, if_pos (by omega), tql2Iterate_once sqrt l (l + 1) fuel _ hc]
      rfl
  refine ⟨key, fun hlen => ?_, fun n k u hk => ⟨tql2IterateD_block2 n k hk u,
    (tql2StepD_block2 k hk _).1, (tql2StepD_block2 k hk _).2⟩⟩
  by_contra hcon
  have hcase : tql2Scan q.e (MAX q.tst1 (|q.d l| + |q.e l|)) (N - l) l ≤ l ∨
      tql2Scan q.e (MAX q.tst1 (|q.d l| + |q.e l|)) (N - l) l = l + 1 := by omega
  rcases hcase with hle | hm
  · unfold tql2OuterTrace at hlen
    simp only [] at hlen
    rw [if_neg (by omega)] at hlen
    simp at hlen
  · rw [(key hm).2.2.2.1] at hlen
    simp at hlen

/-- C16, witness: `tql2` entered with `d = [0, 0, 0]`, `e = [_, 1, 0]`; the first
scan returns `m = 1 = l + 1` and the pass enters the loop body once. -/
theorem block2_single_pass_witness :
    (0, QL.mk (buf9 (1 : ℚ) 0 0 0 1 0 0 0 1) (buf3 0 0 0) (tql2Shift (buf3 0 1 0)) 0 0) ∈
      tql2ScanStates qsqrt 1 (Bufs.mk (buf9 1 0 0 0 1 0 0 0 1) (buf3 0 0 0) (buf3 0 1 0)) ∧
    (tql2OuterTrace qsqrt 1 0
      (QL.mk (buf9 (1 : ℚ) 0 0 0 1 0 0 0 1) (buf3 0 0 0) (tql2Shift (buf3 0 1 0)) 0 0)).length
        = 1 := by
  have hmem := tql2ScanStates_head qsqrt 1
    (Bufs.mk (buf9 (1 : ℚ) 0 0 0 1 0 0 0 1) (buf3 0 0 0) (buf3 0 1 0))
  have hm : tql2Scan (tql2Shift (buf3 (0 : ℚ) 1 0))
      (MAX 0 (|buf3 (0 : ℚ) 0 0 0| + |tql2Shift (buf3 (0 : ℚ) 1 0) 0|)) (N - 0) 0 = 0 + 1 := by
    rw [show N - 0 = 3 from rfl, tql2Scan_zero]
    norm_num [MAX, tql2Shift, forUp_step, forUp_done, store_apply, N, buf3, eps]
  refine ⟨hmem, ?_⟩
  rw [((block2_single_pass qsqrt 0 _ 0 _ hmem).1 hm).2.2.2.1]
  rfl

/-! ## Divisors of the QL iteration -/

/-- The step function written with the divisors named above. -/
theorem tql2Step_divisors (sqrt : α → α) (l m : Nat) (q : QL α) :
    tql2Step sqrt l m q =
      QL.mk (forDown (m - 1) l (tql2Rotate sqrt) (tql2StepInit sqrt l m q)).V
        (store (forDown (m - 1) l (tql2Rotate sqrt) (tql2StepInit sqrt l m q)).d l
          ((forDown (m - 1) l (tql2Rotate sqrt) (tql2StepInit sqrt l m q)).c *
            (-(forDown (m - 1) l (tql2Rotate sqrt) (tql2StepInit sqrt l m q)).s *
              (forDown (m - 1) l (tql2Rotate sqrt) (tql2StepInit sqrt l m q)).s2 *
              (forDown (m - 1) l (tql2Rotate sqrt) (tql2StepInit sqrt l m q)).c3 *
              q.e (l + 1) *
              (forDown (m - 1) l (tql2Rotate sqrt) (tql2StepInit sqrt l m q)).e l /
              (q.e l * tql2ShiftDiv sqrt l q))))
        (store (forDown (m - 1) l (tql2Rotate sqrt) (tql2StepInit sqrt l m q)).e l
          ((forDown (m - 1) l (tql2Rotate sqrt) (tql2StepInit sqrt l m q)).s *
            (-(forDown (m - 1) l (tql2Rotate sqrt) (tql2StepInit sqrt l m q)).s *
              (forDown (m - 1) l (tql2Rotate sqrt) (tql2StepInit sqrt l m q)).s2 *
              (forDown (m - 1) l (tql2Rotate sqrt) (tql2StepInit sqrt l m q)).c3 *
              q.e (l + 1) *
              (forDown (m - 1) l (tql2Rotate sqrt) (tql2StepInit sqrt l m q)).e l /
              (q.e l * tql2ShiftDiv sqrt l q))))
        (q.f + (q.d l - q.e l / tql2ShiftDiv sqrt l q)) q.tst1 := by
  have h1 : ¬ (l = l + 1) := by omega
  simp only [tql2Step, tql2StepInit, tql2ShiftDiv, store_apply, if_true, h1, if_false]

/-- The value `p + r` of the implicit shift has absolute value at least 1. -/
theorem shift_abs {sqrt : α → α} (hs : IsSqrt sqrt) (p : α) :
    1 ≤ |p + (if p < 0 then -HYPOT2 sqrt p 1 else HYPOT2 sqrt p 1)| := by
  unfold HYPOT2
  obtain ⟨σ0, σ1⟩ := hypot_pos hs p 1 one_ne_zero
  have hσ : 1 ≤ sqrt (p * p + 1 * 1) := by
    by_contra hlt
    have hlt' := not_le.mp hlt
    nlinarith [mul_self_nonneg p]
  split_ifs with hneg
  · rw [abs_of_neg (by linarith)]; linarith
  · rw [abs_of_pos (by linarith [not_lt.mp hneg])]; linarith [not_lt.mp hneg]

theorem tql2Hypots_pos {sqrt : α → α} (hs : IsSqrt sqrt) (l m : Nat) (q : QL α)
    (hlm : (l = 0 ∧ m = 1) ∨ (l = 0 ∧ m = 2) ∨ (l = 1 ∧ m = 2)) (hq : Live l m q) :
    ∀ x ∈ tql2Hypots sqrt l m q, 0 < x := by
  intro x hx
  obtain ⟨k, hk, rfl⟩ := List.mem_map.mp hx
  have hk' := List.mem_range.mp hk
  rcases hlm with ⟨rfl, rfl⟩ | ⟨rfl, rfl⟩ | ⟨rfl, rfl⟩
  · have e0 : q.e 0 ≠ 0 := hq.2.2 0 (by omega) (by omega)
    obtain rfl : k = 0 := by omega
    exact (hypot_pos hs _ _ e0).1
  · have e0 : q.e 0 ≠ 0 := hq.2.2 0 (by omega) (by omega)
    have e1 : q.e 1 ≠ 0 := hq.2.2 1 (by omega) (by omega)
    have hk2 : k = 0 ∨ k = 1 := by omega
    rcases hk2 with rfl | rfl
    · exact (hypot_pos hs _ _ e1).1
    · exact (hypot_pos hs _ _ e0).1
  · have e1 : q.e 1 ≠ 0 := hq.2.2 1 (by omega) (by omega)
    obtain rfl : k = 0 := by omega
    exact (hypot_pos hs _ _ e1).1

/-- On a live block every divisor of the loop body is nonzero. -/
theorem tql2Step_safe {sqrt : α → α} (hs : IsSqrt sqrt) (l m : Nat) (q : QL α)
    (hlm : (l = 0 ∧ m = 1) ∨ (l = 0 ∧ m = 2) ∨ (l = 1 ∧ m = 2)) (hq : Live l m q) :
    q.e l ≠ 0 ∧ 1 ≤ |tql2ShiftDiv sqrt l q| ∧ q.e l * tql2ShiftDiv sqrt l q ≠ 0 ∧
    (∀ x ∈ tql2Hypots sqrt l m q, 0 < x) ∧ ∀ x ∈ tql2StepDivisors sqrt l m q, x ≠ 0 := by
  have el : q.e l ≠ 0 := hq.2.2 l (le_refl _) (by omega)
  have habs : 1 ≤ |tql2ShiftDiv sqrt l q| := shift_abs hs _
  have hne : tql2ShiftDiv sqrt l q ≠ 0 := by
    intro h0; rw [h0, abs_zero] at habs; linarith
  have hh := tql2Hypots_pos hs l m q hlm hq
  refine ⟨el, habs, mul_ne_zero el hne, hh, ?_⟩
  intro x hx
  unfold tql2StepDivisors at hx
  simp only [List.mem_append, List.mem_cons, List.mem_singleton, List.not_mem_nil,
    or_false] at hx
  rcases hx with ((rfl | rfl) | hx) | rfl
  · exact mul_ne_zero two_ne_zero el
  · exact hne
  · exact ne_of_gt (hh x hx)
  · exact mul_ne_zero el hne

theorem tql2IterateTrace_live {sqrt : α → α} (hs : IsSqrt sqrt) (l m : Nat)
    (hlm : (l = 0 ∧ m = 1) ∨ (l = 0 ∧ m = 2) ∨ (l = 1 ∧ m = 2)) (fuel : Nat) :
    ∀ q u, Live l m q → u ∈ tql2IterateTrace sqrt l m fuel q → Live l m u := by
  induction fuel with
  | zero => intro q u _ h; exact absurd h (List.not_mem_nil u)
  | succ n ih =>
    intro q u hq h
    unfold tql2IterateTrace at h
    rcases List.mem_cons.mp h with rfl | h
    · exact hq
    · split_ifs at h with hc
      · exact ih _ u (tql2Step_live hs l m q hlm hq hc) h
      · exact absurd h (List.not_mem_nil u)

/-- Every entry into the loop body during a run of `tql2` is on a live block. -/
theorem tql2DiagTrace_live {sqrt : α → α} (hs : IsSqrt sqrt) (fuel : Nat) (s : Bufs α)
    (l m : Nat) (u : QL α) (h : (l, m, u) ∈ tql2DiagTrace sqrt fuel s) :
    ((l = 0 ∧ m = 1) ∨ (l = 0 ∧ m = 2) ∨ (l = 1 ∧ m = 2)) ∧ Live l m u := by
  obtain ⟨⟨l0, q⟩, hmem, hin⟩ := List.mem_flatMap.mp h
  obtain ⟨hl, h2⟩ := tql2ScanStates_e2 sqrt fuel s l0 q hmem
  have ht : 0 ≤ MAX q.tst1 (|q.d l0| + |q.e l0|) := MAX_nonneg _ _ (by positivity)
  obtain ⟨s1, s2, s3⟩ := tql2Scan_spec q.e (MAX q.tst1 (|q.d l0| + |q.e l0|)) l0 hl h2 ht
  unfold tql2OuterTrace at hin
  simp only [] at hin
  obtain ⟨m0, hm⟩ : ∃ m0, m0 = tql2Scan q.e (MAX q.tst1 (|q.d l0| + |q.e l0|)) (N - l0) l0 :=
    ⟨_, rfl⟩
  rw [← hm] at s1 s2 s3 hin
  split_ifs at hin with hc
  · obtain ⟨u', hu, heq⟩ := List.mem_map.mp hin
    simp only [Prod.mk.injEq] at heq
    obtain ⟨rfl, rfl, rfl⟩ := heq
    have hlm : (l0 = 0 ∧ m0 = 1) ∨ (l0 = 0 ∧ m0 = 2) ∨ (l0 = 1 ∧ m0 = 2) := by omega
    have hlive : Live l0 m0 (QL.mk q.V q.d q.e q.f (MAX q.tst1 (|q.d l0| + |q.e l0|))) := by
      refine ⟨h2, ht, ?_⟩
      intro i hi1 hi2 h0
      have := s3 i hi1 hi2
      rw [h0, abs_zero] at this
      exact absurd (mul_nonneg eps_pos.le ht) (not_le.mpr this)
    exact ⟨hlm, tql2IterateTrace_live hs l0 m0 hlm fuel _ u' hlive hu⟩
  · exact absurd hin (List.not_mem_nil _)

/-- C13 (no division by zero in the QL iteration).  In exact real arithmetic, at
every entry into the body of the `do … while` loop during a run of `tql2` on any
buffers: `e[l] ≠ 0`, `|p + r| ≥ 1`, `dl1 = e[l] * (p + r) ≠ 0`, every hypotenuse of
the rotation chain is positive, and so every divisor of the body is nonzero. -/
theorem ql_divisors_nonzero (fuel : Nat) (s : Bufs ℝ) (l m : Nat) (u : QL ℝ)
    (h : (l, m, u) ∈ tql2DiagTrace Real.sqrt fuel s) :
    u.e l ≠ 0 ∧ 2 * u.e l ≠ 0 ∧ 1 ≤ |tql2ShiftDiv Real.sqrt l u| ∧
    u.e l * tql2ShiftDiv Real.sqrt l u ≠ 0 ∧
    (∀ x ∈ tql2Hypots Real.sqrt l m u, 0 < x) ∧
    (∀ i, l ≤ i → i < m → u.e i ≠ 0) ∧
    ∀ x ∈ tql2StepDivisors Real.sqrt l m u, x ≠ 0 := by
  obtain ⟨hlm, hq⟩ := tql2DiagTrace_live isSqrt_real fuel s l m u h
  obtain ⟨a, b, c, d, e⟩ := tql2Step_safe isSqrt_real l m u hlm hq
  exact ⟨a, mul_ne_zero two_ne_zero a, b, c, d, hq.2.2, e⟩

/-- C13, witness: `tql2` entered with `d = [0, 0, 0]`, `e = [_, 1, 0]` enters the
loop body for the block `0 … 1`. -/
theorem ql_divisors_nonzero_witness :
    (0, 1, QL.mk (buf9 (1 : ℝ) 0 0 0 1 0 0 0 1) (buf3 0 0 0) (tql2Shift (buf3 0 1 0)) 0
        (MAX 0 (|buf3 (0 : ℝ) 0 0 0| + |tql2Shift (buf3 (0 : ℝ) 1 0) 0|))) ∈
      tql2DiagTrace Real.sqrt 1
        (Bufs.mk (buf9 (1 : ℝ) 0 0 0 1 0 0 0 1) (buf3 0 0 0) (buf3 0 1 0)) ∧
    ∀ x ∈ tql2StepDivisors Real.sqrt 0 1
        (QL.mk (buf9 (1 : ℝ) 0 0 0 1 0 0 0 1) (buf3 0 0 0) (tql2Shift (buf3 0 1 0)) 0
          (MAX 0 (|buf3 (0 : ℝ) 0 0 0| + |tql2Shift (buf3 (0 : ℝ) 1 0) 0|))), x ≠ 0 := by
  have hm : tql2Scan (tql2Shift (buf3 (0 : ℝ) 1 0))
      (MAX 0 (|buf3 (0 : ℝ) 0 0 0| + |tql2Shift (buf3 (0 : ℝ) 1 0) 0|)) (N - 0) 0 = 1 := by
    rw [show N - 0 = 3 from rfl, tql2Scan_zero]
    norm_num [MAX, tql2Shift, forUp_step, forUp_done, store_apply, N, buf3, eps]
  have hmem : (0, 1, QL.mk (buf9 (1 : ℝ) 0 0 0 1 0 0 0 1) (buf3 0 0 0)
      (tql2Shift (buf3 0 1 0)) 0
        (MAX 0 (|buf3 (0 : ℝ) 0 0 0| + |tql2Shift (buf3 (0 : ℝ) 1 0) 0|))) ∈
      tql2DiagTrace Real.sqrt 1
        (Bufs.mk (buf9 (1 : ℝ) 0 0 0 1 0 0 0 1) (buf3 0 0 0) (buf3 0 1 0)) := by
    refine List.mem_flatMap.mpr ⟨_, tql2ScanStates_head Real.sqrt 1 _, ?_⟩
    unfold tql2OuterTrace
    simp only []
    rw [hm, if_pos (by omega)]
    exact List.mem_map.mpr ⟨_, by unfold tql2IterateTrace; exact List.mem_cons_self _ _, rfl⟩
  exact ⟨hmem, (ql_divisors_nonzero 1 _ 0 1 _ hmem).2.2.2.2.2.2⟩

/-! ## Divisors of `tred2` and the zero-scale branch -/

theorem forUp_succ_right {σ : Type} (lo hi : Nat) (body : Nat → σ → σ) (s : σ)
    (h : lo ≤ hi) : forUp lo (hi + 1) body s = body hi (forUp lo hi body s) := by
  unfold forUp
  have h1 : hi + 1 - lo = (hi - lo) + 1 := by omega
  rw [h1, List.range'_concat, List.foldl_append]
  simp only [List.foldl_cons, List.foldl_nil, Nat.one_mul]
  have h2 : lo + (hi - lo) = hi := by omega
  rw [h2]

/-- A property kept by the loop body holds after the loop. -/
theorem forUp_preserve {σ : Type} (P : σ → Prop) (lo hi : Nat) (body : Nat → σ → σ)
    (hP : ∀ k s, P s → P (body k s)) (s : σ) (h : P s) : P (forUp lo hi body s) := by
  unfold forUp
  generalize List.range' lo (hi - lo) = ks
  induction ks generalizing s with
  | nil => exact h
  | cons k ks ih => exact ih (body k s) (hP k s h)

theorem tred2Scale_succ (d : Nat → α) (i : Nat) :
    tred2Scale d (i + 1) = tred2Scale d i + |d i| := by
  unfold tred2Scale
  rw [forUp_succ_right 0 i _ _ (Nat.zero_le i)]

theorem tred2Scale_nonneg (d : Nat → α) (i : Nat) : 0 ≤ tred2Scale d i := by
  induction i with
  | zero => exact le_of_eq rfl
  | succ n ih => rw [tred2Scale_succ]; exact add_nonneg ih (abs_nonneg _)

/-- A zero scale means that every entry that was summed is zero. -/
theorem tred2Scale_eq_zero (d : Nat → α) (i : Nat) (h : tred2Scale d i = 0) :
    ∀ k, k < i → d k = 0 := by
  induction i with
  | zero => intro k hk; exact absurd hk (Nat.not_lt_zero k)
  | succ n ih =>
    rw [tred2Scale_succ] at h
    have h1 := tred2Scale_nonneg d n
    have h2 := abs_nonneg (d n)
    have h3 : tred2Scale d n = 0 := by linarith
    have h4 : |d n| = 0 := by linarith
    intro k hk
    by_cases hkn : k = n
    · subst hkn; exact abs_eq_zero.mp h4
    · exact ih h3 k (by omega)

/-- The loop of the zero-scale branch does not write `e`. -/
theorem tred2Zero_e (i : Nat) (s : Bufs α) : (tred2Zero i s).e = store s.e i (s.d (i - 1)) := by
  unfold tred2Zero
  apply forUp_preserve (fun t : Bufs α => t.e = store s.e i (s.d (i - 1)))
  · intro k t ht; exact ht
  · rfl

/-- C15 (the zero-scale branch yields a zero off-diagonal entry).  For every row
`i ≥ 1` and every state whose scale `sum_{k<i} |d[k]|` is zero: `d[i-1] = 0`, the
branch assigns `e[i] = d[i-1]`, and so the row leaves `e[i] = 0`. -/
theorem zero_scale_offdiag (sqrt : α → α) (i : Nat) (s : Bufs α) (hi : 1 ≤ i)
    (h0 : tred2Scale s.d i = 0) :
    s.d (i - 1) = 0 ∧ (tred2Zero i s).e i = s.d (i - 1) ∧ (tred2Row sqrt i s).e i = 0 ∧
    tred2Row sqrt i s = { tred2Zero i s with d := store (tred2Zero i s).d i 0 } := by
  have hd : s.d (i - 1) = 0 := tred2Scale_eq_zero s.d i h0 (i - 1) (by omega)
  have he : (tred2Zero i s).e i = s.d (i - 1) := by
    rw [tred2Zero_e, store_apply, if_pos rfl]
  have hrow : tred2Row sqrt i s = { tred2Zero i s with d := store (tred2Zero i s).d i 0 } := by
    unfold tred2Row
    simp only [h0, if_true]
  refine ⟨hd, he, ?_, hrow⟩
  rw [hrow]
  show (tred2Zero i s).e i = 0
  rw [he, hd]

/-- C15, witness: row 1 of the diagonal matrix `diag(5, 1, 1)` (after row 2). -/
theorem zero_scale_offdiag_witness :
    tred2Scale (buf3 (0 : ℚ) 0 1) 2 = 0 ∧
    (tred2Row qsqrt 2 (Bufs.mk (buf9 5 0 0 0 1 0 0 0 1) (buf3 0 0 1) (buf3 7 7 7))).e 2 = 0 := by
  have h0 : tred2Scale (buf3 (0 : ℚ) 0 1) 2 = 0 := by
    norm_num [tred2Scale, forUp_step, forUp_done, buf3]
  exact ⟨h0, (zero_scale_offdiag qsqrt 2
    (Bufs.mk (buf9 5 0 0 0 1 0 0 0 1) (buf3 0 0 1) (buf3 7 7 7)) (by omega) h0).2.2.1⟩

/-! ## Trace preservation -/

theorem trace_symM (t00 t01 t02 t11 t12 t22 : α) :
    Matrix.trace (symM t00 t01 t02 t11 t12 t22) = t00 + t11 + t22 := by
  rw [Matrix.trace, Fin.sum_univ_three]
  rfl

theorem trace_triQ (l m : Nat) (q : QL α) :
    Matrix.trace (triQ l m q) =
      (q.d 0 + (if 0 < l then 0 else q.f)) + (q.d 1 + (if 1 < l then 0 else q.f)) +
        (q.d 2 + (if 2 < l then 0 else q.f)) := by
  unfold triQ
  rw [trace_symM]

/-- An orthogonal similarity keeps the trace. -/
theorem trace_conj (Q T : Matrix (Fin 3) (Fin 3) α) (hQ : Q * Q.transpose = 1) :
    Matrix.trace (Q.transpose * T * Q) = Matrix.trace T := by
  rw [Matrix.trace_mul_comm, ← Matrix.mul_assoc, hQ, Matrix.one_mul]

/-- A QL step on a live block keeps the sum of `d[i] + f` over the block, each
`d[i] + f` above the block and each `d[i]` below it. -/
theorem tql2Step_sum {sqrt : α → α} (hs : IsSqrt sqrt) (l m : Nat) (q : QL α)
    (hlm : (l = 0 ∧ m = 1) ∨ (l = 0 ∧ m = 2) ∨ (l = 1 ∧ m = 2)) (hq : Live l m q) :
    shiftedSum (tql2Step sqrt l m q) l (m + 1) = shiftedSum q l (m + 1) ∧
    (∀ i, m < i → i < 3 →
      (tql2Step sqrt l m q).d i + (tql2Step sqrt l m q).f = q.d i + q.f) ∧
    (∀ i, i < l → (tql2Step sqrt l m q).d i = q.d i) := by
  rcases hlm with ⟨rfl, rfl⟩ | ⟨rfl, rfl⟩ | ⟨rfl, rfl⟩
  · obtain ⟨Q, a, -, c, -, -⟩ := tql2Step_01_sim hs q hq
    have ht := trace_conj Q (triQ 0 1 q) a
    rw [← c, trace_triQ, trace_triQ] at ht
    simp only [Nat.lt_irrefl, if_false, Nat.not_lt_zero] at ht
    have h2 : (tql2Step sqrt 0 1 q).d 2 + (tql2Step sqrt 0 1 q).f = q.d 2 + q.f := by
      obtain ⟨-, hd, -, hf, -⟩ := tql2Step_01_form sqrt q
        _ _ _ _ _ _ _ _ _ _ _ _ _ _ _ _ _ _ _ _ _ _ _ _
        (is9_self q.V) (is3_self q.d) (is3_self q.e) rfl rfl rfl rfl rfl rfl rfl rfl rfl
      rw [hd.2.2, hf]; ring
    refine ⟨?_, fun i h1 h2' => ?_, fun i hi => absurd hi (Nat.not_lt_zero i)⟩
    · simp only [shiftedSum, forUp_step, forUp_done, Nat.lt_irrefl, Nat.reduceAdd,
        Nat.reduceLT, Nat.le_refl]
      linear_combination ht - h2
    · obtain rfl : i = 2 := by omega
      exact h2
  · obtain ⟨Q, a, -, c, -, -⟩ := tql2Step_02_sim hs q hq
    have ht := trace_conj Q (triQ 0 2 q) a
    rw [← c, trace_triQ, trace_triQ] at ht
    simp only [Nat.lt_irrefl, if_false, Nat.not_lt_zero] at ht
    refine ⟨?_, fun i h1 h2' => absurd h2' (by omega),
      fun i hi => absurd hi (Nat.not_lt_zero i)⟩
    simp only [shiftedSum, forUp_step, forUp_done, Nat.lt_irrefl, Nat.reduceAdd,
      Nat.reduceLT, Nat.le_refl]
    linear_combination ht
  · have e1 : q.e 1 ≠ 0 := hq.2.2 1 (by omega) (by omega)
    obtain ⟨p, hp⟩ : ∃ p, p = (q.d 2 - q.d 1) / (2 * q.e 1) := ⟨_, rfl⟩
    obtain ⟨r, hr⟩ : ∃ r, r = if p < 0 then -sqrt (p * p + 1 * 1) else sqrt (p * p + 1 * 1) :=
      ⟨_, rfl⟩
    obtain ⟨dl, hdl⟩ : ∃ dl, dl = q.e 1 / (p + r) := ⟨_, rfl⟩
    obtain ⟨dl1, hdl1⟩ : ∃ dl1, dl1 = q.e 1 * (p + r) := ⟨_, rfl⟩
    obtain ⟨h, hh⟩ : ∃ h, h = q.d 1 - dl := ⟨_, rfl⟩
    obtain ⟨r0, hr0⟩ : ∃ r0, r0 = sqrt (dl1 * dl1 + q.e 1 * q.e 1) := ⟨_, rfl⟩
    obtain ⟨s, hs'⟩ : ∃ s, s = q.e 1 / r0 := ⟨_, rfl⟩
    obtain ⟨c, hc⟩ : ∃ c, c = dl1 / r0 := ⟨_, rfl⟩
    obtain ⟨pf, hpf⟩ : ∃ pf, pf = -s * 0 * 1 * q.e 2 * q.e 1 / dl1 := ⟨_, rfl⟩
    obtain ⟨-, hd, -, hf, -⟩ := tql2Step_12_form sqrt q
      _ _ _ _ _ _ _ _ _ _ _ _ _ _ _ p r dl dl1 h r0 s c pf
      (is9_self q.V) (is3_self q.d) (is3_self q.e) hp hr hdl hdl1 hh hr0 hs' hc hpf
    obtain ⟨f1, f2, f3, f4⟩ := shift_facts hs (q.d 1) (q.d 2) (q.e 1) p r dl dl1 e1 hp hr hdl hdl1
    obtain ⟨g0, g1, g2, g3⟩ := givens_facts hs dl1 (q.e 1) r0 s c e1 hr0 hs' hc
    have hpf0 : pf = 0 := by rw [hpf]; ring
    obtain ⟨a1, a2, a3⟩ := blk2_alg (q.d 1) (q.d 2) (q.e 1) dl dl1 r0 s c pf q.f h f1 f2 g1 g2
      g3 (ne_of_gt g0) hpf0 hh
    refine ⟨?_, fun i h1 h2' => absurd h2' (by omega), fun i hi => ?_⟩
    · simp only [shiftedSum, forUp_step, forUp_done, Nat.lt_irrefl, Nat.reduceAdd,
        Nat.reduceLT, Nat.le_refl]
      rw [hd.2.1, hd.2.2, hf]
      linear_combination a1 + a3 + (q.d 1 + q.f + q.d 2 + q.f) * g1
    · obtain rfl : i = 0 := by omega
      exact hd.1

theorem tql2Step_trace {sqrt : α → α} (hs : IsSqrt sqrt) (l m : Nat) (q : QL α)
    (hlm : (l = 0 ∧ m = 1) ∨ (l = 0 ∧ m = 2) ∨ (l = 1 ∧ m = 2)) (hq : Live l m q) :
    Matrix.trace (triQ l 2 (tql2Step sqrt l m q)) = Matrix.trace (triQ l 2 q) := by
  obtain ⟨a, b, c⟩ := tql2Step_sum hs l m q hlm hq
  rw [trace_triQ, trace_triQ]
  rcases hlm with ⟨rfl, rfl⟩ | ⟨rfl, rfl⟩ | ⟨rfl, rfl⟩
  · have b2 := b 2 (by omega) (by omega)
    simp only [shiftedSum, forUp_step, forUp_done, Nat.lt_irrefl, Nat.reduceAdd,
      Nat.reduceLT, Nat.le_refl] at a
    simp only [Nat.lt_irrefl, if_false, Nat.not_lt_zero]
    linear_combination a + b2
  · simp only [shiftedSum, forUp_step, forUp_done, Nat.lt_irrefl, Nat.reduceAdd,
      Nat.reduceLT, Nat.le_refl] at a
    simp only [Nat.lt_irrefl, if_false, Nat.not_lt_zero]
    linear_combination a
  · have c0 := c 0 (by omega)
    simp only [shiftedSum, forUp_step, forUp_done, Nat.lt_irrefl, Nat.reduceAdd,
      Nat.reduceLT, Nat.le_refl] at a
    simp only [Nat.lt_irrefl, if_false, Nat.reduceLT, if_true, Nat.not_lt_zero]
    linear_combination a + c0

/-- One pass of the outer loop keeps the trace of the matrix of the QL state. -/
theorem tql2Outer_trace {sqrt : α → α} (hs : IsSqrt sqrt) (fuel l : Nat) (hl : l < 3)
    (q q' : QL α) (h2 : q.e 2 = 0) (h : tql2Outer sqrt fuel l q = some q') :
    Matrix.trace (triQ (l + 1) 2 q') = Matrix.trace (triQ l 2 q) := by
  obtain ⟨q1, rfl, hq1⟩ := tql2Outer_cases sqrt fuel l hl q q' h2 h
  rw [triQ_final l hl, trace_triQ, ← trace_triQ l 2 q1]
  rcases hq1 with rfl | ⟨m, hlm, hlive, hit⟩
  · rfl
  · exact (tql2Iterate_inv hs l m hlm
      (fun u => Matrix.trace (triQ l 2 u) = Matrix.trace (triQ l 2 q))
      (fun u hu hp => (tql2Step_trace hs l m u hlm hu).trans hp) fuel _ q1 hlive rfl hit).1

theorem sortEig_sum (V d : Nat → α) :
    (sortEig V d).2 0 + (sortEig V d).2 1 + (sortEig V d).2 2 = d 0 + d 1 + d 2 := by
  obtain ⟨td, -, -, -⟩ := sortPerm_tracks V d
  rw [td 0 (by omega), td 1 (by omega), td 2 (by omega)]
  rcases sortPerm_table d with ⟨a, b, c', -⟩ | ⟨a, b, c', -⟩ | ⟨a, b, c', -⟩ | ⟨a, b, c', -⟩ |
    ⟨a, b, c', -⟩ | ⟨a, b, c', -⟩ <;> rw [a, b, c'] <;> ring

theorem trace_toM (A : Nat → α) : Matrix.trace (toM A) = ent A 0 0 + ent A 1 1 + ent A 2 2 := by
  rw [Matrix.trace, Fin.sum_univ_three]
  rfl

/-- The eigenvalues returned by `eigen_decomposition` sum to the trace of `A`. -/
theorem eigen_trace {sqrt : α → α} (hs : IsSqrt sqrt) (fuel : Nat) (A V d e : Nat → α)
    (R : (Nat → α) × (Nat → α)) (hA : IsSymm A)
    (h : eigen_decomposition sqrt fuel A V d e = some R) :
    R.2 0 + R.2 1 + R.2 2 = ent A 0 0 + ent A 1 1 + ent A 2 2 := by
  simp only [eigen_decomposition, tql2, Option.map_eq_some'] at h
  obtain ⟨q, hq, rfl⟩ := h
  obtain ⟨k1, k2⟩ := tred2_spec hs A d e hA
  obtain ⟨aV, ad, ae⟩ := tred2_agree sqrt { V := A, d := d, e := e }
    { V := copyMatrix A V, d := d, e := e } (copyMatrix_agree A V)
  obtain ⟨u, hu⟩ : ∃ u, u = tred2 sqrt { V := copyMatrix A V, d := d, e := e } := ⟨_, rfl⟩
  rw [← hu] at hq aV ad ae
  have ho : IsOrtho u.V := isOrtho_agree aV k1
  have hB' : toM u.V * (toM u.V).transpose = 1 := Matrix.mul_eq_one_comm.mp (isOrtho_toM ho)
  obtain ⟨s0, s1, s2⟩ := tql2Shift_apply u.e
  have hT : (toM u.V).transpose * toM A * toM u.V =
      triQ 0 2 (QL.mk u.V u.d (tql2Shift u.e) 0 0) := by
    rw [← toM_congr aV, conj_toM A _ _ _ k2]
    show _ = symM (u.d 0 + 0) (tql2Shift u.e 0) 0 (u.d 1 + 0) (tql2Shift u.e 1) (u.d 2 + 0)
    rw [s0, s1, ad 0 (by omega) (by omega), ad 1 (by omega) (by omega),
      ad 2 (by omega) (by omega), ae 1 (by omega) (by omega), ae 2 (by omega) (by omega)]
    simp only [add_zero]
  have h0 : Matrix.trace (triQ 0 2 (QL.mk u.V u.d (tql2Shift u.e) 0 0)) =
      Matrix.trace (toM A) := by
    rw [← hT]; exact trace_conj (toM u.V) (toM A) hB'
  obtain ⟨q1, q2, p0, p1, p2⟩ := tql2Diag_cases sqrt fuel u q hq
  have e1 := tql2Outer_e2 sqrt fuel 0 (by omega) _ q1 s2 p0
  have e2 := tql2Outer_e2 sqrt fuel 1 (by omega) _ q2 e1 p1
  have t1 := tql2Outer_trace hs fuel 0 (by omega) _ q1 s2 p0
  have t2 := tql2Outer_trace hs fuel 1 (by omega) _ q2 e1 p1
  have t3 := tql2Outer_trace hs fuel 2 (by omega) _ q e2 p2
  have key : Matrix.trace (triQ 3 2 q) = Matrix.trace (toM A) :=
    t3.trans (t2.trans (t1.trans h0))
  rw [trace_triQ, trace_toM] at key
  simp only [Nat.reduceLT, if_true, Nat.lt_add_one, add_zero, Nat.ofNat_pos] at key
  rw [sortEig_sum]
  exact key

/-- C17 (trace preservation).  In exact real arithmetic the eigenvalues returned
by `eigen_decomposition` for a symmetric `A` sum to `A[0][0] + A[1][1] + A[2][2]`;
and every execution of the loop body during a run of `tql2` on any buffers keeps
the sum of `d[i] + f` over the block `l … m`, each `d[i] + f` above the block and
each `d[i]` below it. -/
theorem trace_preserved (fuel : Nat) (A V d e : Nat → ℝ) (R : (Nat → ℝ) × (Nat → ℝ))
    (hA : IsSymm A) (h : eigen_decomposition Real.sqrt fuel A V d e = some R) :
    R.2 0 + R.2 1 + R.2 2 = ent A 0 0 + ent A 1 1 + ent A 2 2 ∧
    ∀ (n : Nat) (s : Bufs ℝ) (l m : Nat) (u : QL ℝ),
      (l, m, u) ∈ tql2DiagTrace Real.sqrt n s →
        shiftedSum (tql2Step Real.sqrt l m u) l (m + 1) = shiftedSum u l (m + 1) ∧
        (∀ i, m < i → i < 3 →
          (tql2Step Real.sqrt l m u).d i + (tql2Step Real.sqrt l m u).f = u.d i + u.f) ∧
        (∀ i, i < l → (tql2Step Real.sqrt l m u).d i = u.d i) := by
  refine ⟨eigen_trace isSqrt_real fuel A V d e R hA h, ?_⟩
  intro n s l m u hmem
  obtain ⟨hlm, hq⟩ := tql2DiagTrace_live isSqrt_real n s l m u hmem
  exact tql2Step_sum isSqrt_real l m u hlm hq

/-- C17, witness: `[[2,0,0],[0,3,4],[0,4,9]]`, on which one pass of the QL loop runs. -/
theorem trace_preserved_witness :
    IsSymm (buf9 (2 : ℝ) 0 0 0 3 4 0 4 9) ∧
    ∃ R, eigen_decomposition Real.sqrt 1 (buf9 2 0 0 0 3 4 0 4 9) (buf3 0 0 0) (buf3 0 0 0)
        (buf3 0 0 0) = some R ∧
      R.2 0 + R.2 1 + R.2 2 =
        ent (buf9 (2 : ℝ) 0 0 0 3 4 0 4 9) 0 0 + ent (buf9 (2 : ℝ) 0 0 0 3 4 0 4 9) 1 1 +
          ent (buf9 (2 : ℝ) 0 0 0 3 4 0 4 9) 2 2 := by
  have hA : IsSymm (buf9 (2 : ℝ) 0 0 0 3 4 0 4 9) := by
    intro r c hr hc
    have hr' : r < 3 := hr
    have hc' : c < 3 := hc
    interval_cases r <;> interval_cases c <;> rfl
  obtain ⟨R, hR, -⟩ := (eigen_example_core (buf3 0 0 0) (buf3 0 0 0) (buf3 0 0 0)).2 0
  exact ⟨hA, R, hR, (trace_preserved 1 _ _ _ _ R hA hR).1⟩

/-! ## The MEX copy loop and `HYPOT2` in `double` arithmetic -/

theorem mexCopy_apply (m c : Nat → α) (i : Nat) :
    mexCopy m c i = if 1 ≤ i ∧ i < 9 then m i else c i := by
  simp only [mexCopy, N, forUp_step, forUp_done, Nat.lt_irrefl, Nat.reduceAdd,
    Nat.reduceLT, Nat.le_refl, Nat.reduceMul, store_apply]
  split_ifs <;> first | rfl | omega | (subst_vars; rfl)

/-- C18 (the copy loop of the MEX binding skips index 0).  After the loop
`mat_data_c[i] = mat_data[i]` for `i = 1, …, 8`; index 0, which is element `(0,0)`
of the matrix, and everything from index 9 on keep what the array held before;
so the array, and with it the result of the call, does not depend on
`mat_data[0]`. -/
theorem mex_copy_skips_zero (m c : Nat → α) :
    (∀ i, 1 ≤ i → i < 9 → mexCopy m c i = m i) ∧ mexCopy m c 0 = c 0 ∧
    ent (mexCopy m c) 0 0 = c 0 ∧ (∀ i, 9 ≤ i → mexCopy m c i = c i) ∧
    (∀ m' : Nat → α, (∀ i, 1 ≤ i → i < 9 → m' i = m i) →
      mexCopy m' c = mexCopy m c ∧
      ∀ (sqrt : α → α) (fuel : Nat) (V d e : Nat → α),
        mexEigen sqrt fuel m' c V d e = mexEigen sqrt fuel m c V d e) := by
  have h0 : mexCopy m c 0 = c 0 := by rw [mexCopy_apply, if_neg (by omega)]
  refine ⟨fun i h1 h9 => by rw [mexCopy_apply, if_pos ⟨h1, h9⟩], h0, h0,
    fun i h9 => by rw [mexCopy_apply, if_neg (by omega)], fun m' hm => ?_⟩
  have heq : mexCopy m' c = mexCopy m c := by
    funext i
    rw [mexCopy_apply, mexCopy_apply]
    split_ifs with hi
    · exact hm i hi.1 hi.2
    · rfl
  exact ⟨heq, fun sqrt fuel V d e => by unfold mexEigen; rw [heq]⟩

/-- When `HYPOT2` in `double` arithmetic is finite and when it is not. -/
theorem HYPOT2F_cases (rnd sq : ℚ → ℚ) (x y : ℚ) :
    (dblOverflow ≤ x * x ∨ dblOverflow ≤ y * y → HYPOT2F rnd sq x y = none) ∧
    (x * x < dblOverflow → y * y < dblOverflow →
      |rnd (x * x) + rnd (y * y)| < dblOverflow →
      0 ≤ rnd (rnd (x * x) + rnd (y * y)) →
      HYPOT2F rnd sq x y = some (sq (rnd (rnd (x * x) + rnd (y * y))))) := by
  have hx : |x * x| = x * x := abs_of_nonneg (mul_self_nonneg x)
  have hy : |y * y| = y * y := abs_of_nonneg (mul_self_nonneg y)
  constructor
  · intro h
    unfold HYPOT2F dblSqrt dblAdd dblMul dblRound
    simp only [Option.some_bind, hx, hy]
    rcases h with h | h
    · rw [if_neg (not_lt.mpr h)]; rfl
    · rw [if_neg (not_lt.mpr h)]
      split_ifs <;> rfl
  · intro h1 h2 h3 h4
    unfold HYPOT2F dblSqrt dblAdd dblMul dblRound
    simp only [Option.some_bind, hx, hy]
    rw [if_pos h1, if_pos h2]
    simp only [Option.some_bind]
    rw [if_pos h3]
    simp only [Option.some_bind]
    rw [if_neg (not_lt.mpr h4)]

/-- C19, as amended.  `HYPOT2` is the plain `sqrt(x*x + y*y)` in `double`
arithmetic: it is not finite as soon as one of the squares reaches the overflow
threshold, whatever the true hypotenuse is; and it is finite when the squares
and their sum stay below the threshold (for a rounding that keeps non-negative
numbers non-negative). -/
theorem hypot2_unguarded (rnd sq : ℚ → ℚ) (x y : ℚ) :
    (dblOverflow ≤ x * x ∨ dblOverflow ≤ y * y → HYPOT2F rnd sq x y = none) ∧
    (x * x < dblOverflow → y * y < dblOverflow →
      |rnd (x * x) + rnd (y * y)| < dblOverflow →
      0 ≤ rnd (rnd (x * x) + rnd (y * y)) →
      HYPOT2F rnd sq x y = some (sq (rnd (rnd (x * x) + rnd (y * y))))) :=
  HYPOT2F_cases rnd sq x y

/-- C19, counterexample.  The `double` `1e200` is `5883593420661338 * 2^612`; for
`x = y = 1e200`, and for `x = y = 2^600`, the true hypotenuse is far below the
overflow threshold, yet `HYPOT2(x, y)` is not finite, whatever the rounding: the
squares overflow. -/
theorem hypot2_overflows :
    IsDouble (5883593420661338 * 2 ^ 612) ∧
    ((5883593420661338 * 2 ^ 612 : ℚ) * (5883593420661338 * 2 ^ 612) +
      (5883593420661338 * 2 ^ 612) * (5883593420661338 * 2 ^ 612) <
        dblOverflow * dblOverflow) ∧
    (∀ rnd sq : ℚ → ℚ,
      HYPOT2F rnd sq (5883593420661338 * 2 ^ 612) (5883593420661338 * 2 ^ 612) = none) ∧
    IsDouble (2 ^ 600) ∧
    ((2 : ℚ) ^ 600 * 2 ^ 600 + 2 ^ 600 * 2 ^ 600 < dblOverflow * dblOverflow) ∧
    ∀ rnd sq : ℚ → ℚ, HYPOT2F rnd sq (2 ^ 600) (2 ^ 600) = none := by
  refine ⟨⟨5883593420661338, 612, by norm_num, by norm_num, by norm_num, by norm_num⟩, ?_, ?_,
    ⟨1, 600, by norm_num, by norm_num, by norm_num, by norm_num⟩, ?_, ?_⟩
  · unfold dblOverflow; norm_num
  · intro rnd sq
    apply (HYPOT2F_cases rnd sq _ _).1
    left
    unfold dblOverflow; norm_num
  · unfold dblOverflow; norm_num
  · intro rnd sq
    apply (HYPOT2F_cases rnd sq (2 ^ 600) (2 ^ 600)).1
    left
    unfold dblOverflow; norm_num

/-! ## The routines on doubles: where the exact-arithmetic statements stop

The runs below are evaluated in the binary64 model (`Dbl`).  Three finite
symmetric inputs are used: `2^-600 * [[2,0,0],[0,3,4],[0,4,9]]`, on which the
squares inside `HYPOT2` underflow to `0`; `2^600 * [[2,0,0],[0,3,4],[0,4,9]]`, on
which they overflow to `+inf`; and `[[1,0,x],[0,1,x],[x,x,1]]` with `x = 2^1023`,
on which the sum `scale` of `tred2` overflows.  `tred2` is exact on the first two
and returns `V = diag(1,-1,1)`, `d = 2^k * [2,3,9]`, `e = 2^k * [0,0,-4]`. -/

/-- The entries of `2^-600 * [[2,0,0],[0,3,4],[0,4,9]]` are finite doubles. -/
theorem blockD_underflow_value :
    HoldsReals 9 (blockD (-600)) (fun i => buf9 2 0 0 0 3 4 0 4 9 i / 2 ^ 600) := by
  intro i hi
  interval_cases i <;> decide!

/-- The run on `2^-600 * [[2,0,0],[0,3,4],[0,4,9]]` in double arithmetic returns
after one pass of the QL loop, with `d = [2^-599, NaN, +inf]` and NaN in the
columns 1 and 2 of `V`. -/
theorem eigenD_underflow :
    (eigen_decompositionD 1 (blockD (-600)) zerosD zerosD zerosD).map outD =
      some ([Dbl.one, Dbl.zero, Dbl.zero, Dbl.nan, Dbl.nan, Dbl.nan, Dbl.nan, Dbl.nan,
          Dbl.nan],
        [Dbl.scaled 1 (-599), Dbl.nan, Dbl.inf false]) := by
  decide!

/-- The run on `[[2,0,0],[0,3,4],[0,4,9]]` in double arithmetic returns after one
pass of the QL loop, with `d = [1, 2, 11]` and the rounded eigenvectors. -/
theorem eigenD_unit :
    (eigen_decompositionD 1 (blockD 0) zerosD zerosD zerosD).map outD =
      some ([Dbl.zero, Dbl.fin true 8056283928194521 (-53),
          Dbl.fin false 8056283928194521 (-54), Dbl.one, Dbl.zero, Dbl.zero, Dbl.zero,
          Dbl.fin false 8056283928194521 (-54), Dbl.fin false 8056283928194521 (-53)],
        [Dbl.one, Dbl.scaled 2 0, Dbl.scaled 11 0]) := by
  decide!

/-- What `tred2` hands to `tql2` on `2^k * [[2,0,0],[0,3,4],[0,4,9]]` for
`k = 600` and `k = -600`: `d = 2^k * [2,3,9]` and `e = 2^k * [_,0,-4]`. -/
theorem tred2D_block :
    ((tred2D (Bufs.mk (copyMatrixD (blockD 600) zerosD) zerosD zerosD)).d 0,
      (tred2D (Bufs.mk (copyMatrixD (blockD 600) zerosD) zerosD zerosD)).d 1,
      (tred2D (Bufs.mk (copyMatrixD (blockD 600) zerosD) zerosD zerosD)).d 2,
      (tred2D (Bufs.mk (copyMatrixD (blockD 600) zerosD) zerosD zerosD)).e 1,
      (tred2D (Bufs.mk (copyMatrixD (blockD 600) zerosD) zerosD zerosD)).e 2) =
      (Dbl.scaled 2 600, Dbl.scaled 3 600, Dbl.scaled 9 600, Dbl.zero, Dbl.scaled (-4) 600) ∧
    ((tred2D (Bufs.mk (copyMatrixD (blockD (-600)) zerosD) zerosD zerosD)).d 0,
      (tred2D (Bufs.mk (copyMatrixD (blockD (-600)) zerosD) zerosD zerosD)).d 1,
      (tred2D (Bufs.mk (copyMatrixD (blockD (-600)) zerosD) zerosD zerosD)).d 2,
      (tred2D (Bufs.mk (copyMatrixD (blockD (-600)) zerosD) zerosD zerosD)).e 1,
      (tred2D (Bufs.mk (copyMatrixD (blockD (-600)) zerosD) zerosD zerosD)).e 2) =
      (Dbl.scaled 2 (-600), Dbl.scaled 3 (-600), Dbl.scaled 9 (-600), Dbl.zero,
        Dbl.scaled (-4) (-600)) := by
  decide!

/-- The second scan of the run of `tql2` on the tridiagonal form of
`2^-600 * [[2,0,0],[0,3,4],[0,4,9]]`: it returns `m = 2`, and one execution of the
loop body leaves `e[1]` and `d[1]` NaN, after which the test of line 232 is
false. -/
theorem scanD_underflow :
    ((tql2ScanStatesD 1
        (tred2D (Bufs.mk (copyMatrixD (blockD (-600)) zerosD) zerosD zerosD)))[1]?).map
      (fun lq => (lq.1,
        tql2ScanD lq.2.e (MAXD lq.2.tst1 (fabs (lq.2.d 1) + fabs (lq.2.e 1))) (N - 1) 1,
        (tql2StepD 1 2 (QL.mk lq.2.V lq.2.d lq.2.e lq.2.f
          (MAXD lq.2.tst1 (fabs (lq.2.d 1) + fabs (lq.2.e 1))))).e 1,
        (tql2StepD 1 2 (QL.mk lq.2.V lq.2.d lq.2.e lq.2.f
          (MAXD lq.2.tst1 (fabs (lq.2.d 1) + fabs (lq.2.e 1))))).d 1,
        Dbl.lt (epsD * (tql2StepD 1 2 (QL.mk lq.2.V lq.2.d lq.2.e lq.2.f
            (MAXD lq.2.tst1 (fabs (lq.2.d 1) + fabs (lq.2.e 1))))).tst1)
          (fabs ((tql2StepD 1 2 (QL.mk lq.2.V lq.2.d lq.2.e lq.2.f
            (MAXD lq.2.tst1 (fabs (lq.2.d 1) + fabs (lq.2.e 1))))).e 1)))) =
      some (1, 2, Dbl.nan, Dbl.nan, false) := by
  decide!

/-- The values inside the single rotation of that pass: the hypotenuse
`HYPOT2(p, e[1])` is `0` (both squares underflow), so `s = e[1] / r = -inf` and
`c = p / r = +inf`. -/
theorem rotateD_underflow :
    HYPOT2D (Dbl.scaled 8 (-600)) (Dbl.scaled (-4) (-600)) = Dbl.zero ∧
    Dbl.scaled (-4) (-600) / Dbl.zero = Dbl.inf true ∧
    Dbl.scaled 8 (-600) / Dbl.zero = Dbl.inf false ∧
    Dbl.inf true * Dbl.zero = Dbl.nan := by
  decide!

/-- The values inside the single rotation of the pass on the scaled-up matrix:
the hypotenuse `HYPOT2(p, e[1])` is `+inf` (both squares overflow), and
`e[2] = s * r = 0 * inf` is NaN. -/
theorem rotateD_overflow :
    HYPOT2D (Dbl.scaled 8 600) (Dbl.scaled (-4) 600) = Dbl.inf false ∧
    Dbl.zero * Dbl.inf false = Dbl.nan := by
  decide!

/-- The entries of a result whose twelve outputs are known. -/
theorem outD_entries (R : (Nat → Dbl) × (Nat → Dbl))
    (a0 a1 a2 a3 a4 a5 a6 a7 a8 b0 b1 b2 : Dbl)
    (h : outD R = ([a0, a1, a2, a3, a4, a5, a6, a7, a8], [b0, b1, b2])) :
    (R.1 0 = a0 ∧ R.1 1 = a1 ∧ R.1 2 = a2 ∧ R.1 3 = a3 ∧ R.1 4 = a4 ∧ R.1 5 = a5 ∧
      R.1 6 = a6 ∧ R.1 7 = a7 ∧ R.1 8 = a8) ∧ R.2 0 = b0 ∧ R.2 1 = b1 ∧ R.2 2 = b2 := by
  simp only [outD, Prod.mk.injEq, List.cons.injEq, and_true] at h
  exact h

/-- Every ordered comparison with a NaN is false. -/
theorem Dbl.le_nan (x : Dbl) : Dbl.le x Dbl.nan = false ∧ Dbl.le Dbl.nan x = false := by
  cases x <;> exact ⟨rfl, rfl⟩

/-- C3, witness: the run on `diag(3,1,2)` over `ℚ` returns, and its result is
ordered; the run on `[[2,0,0],[0,3,4],[0,4,9]]` on doubles returns
`d = [1, 2, 11]`, without NaN, and its result is ordered. -/
theorem ordering_nondecreasing_witness :
    (∃ R, eigen_decomposition qsqrt 0 (buf9 3 0 0 0 1 0 0 0 2) (buf3 0 0 0) (buf3 0 0 0)
        (buf3 0 0 0) = some R ∧ R.2 0 ≤ R.2 1 ∧ R.2 1 ≤ R.2 2) ∧
    ∃ R, eigen_decompositionD 1 (blockD 0) zerosD zerosD zerosD = some R ∧
      R.2 0 ≠ Dbl.nan ∧ R.2 1 ≠ Dbl.nan ∧ R.2 2 ≠ Dbl.nan ∧
      Dbl.le (R.2 0) (R.2 1) = true ∧ Dbl.le (R.2 1) (R.2 2) = true := by
  constructor
  · obtain ⟨W, D, hR, -, -⟩ := eigen_diag_core qsqrt (buf9 3 0 0 0 1 0 0 0 2) (buf3 0 0 0)
      (buf3 0 0 0) (buf3 0 0 0) rfl rfl rfl
    exact ⟨_, hR 0, ordering_nondecreasing.2.1 _ _ _ _ _ _ _ (hR 0)⟩
  · obtain ⟨R, hR, hout⟩ := Option.map_eq_some'.mp eigenD_unit
    obtain ⟨-, d0, d1, d2⟩ := outD_entries R _ _ _ _ _ _ _ _ _ _ _ _ hout
    have n0 : R.2 0 ≠ Dbl.nan := by rw [d0]; decide
    have n1 : R.2 1 ≠ Dbl.nan := by rw [d1]; decide!
    have n2 : R.2 2 ≠ Dbl.nan := by rw [d2]; decide!
    exact ⟨R, hR, n0, n1, n2,
      (@ordering_nondecreasing ℚ _).2.2.2 1 _ _ _ _ R hR n0 n1 n2⟩

/-- C3, counterexample.  On doubles the returned eigenvalue vector need not be
ordered: for the finite symmetric matrix `2^-600 * [[2,0,0],[0,3,4],[0,4,9]]` the
run returns `d = [2^-599, NaN, +inf]` (no comparison `d[j] < p` of the sort is
true), and neither `d[0] <= d[1]` nor `d[1] <= d[2]` holds. -/
theorem ordering_fails_on_doubles :
    HoldsReals 9 (blockD (-600)) (fun i => buf9 2 0 0 0 3 4 0 4 9 i / 2 ^ 600) ∧
    ∃ R, eigen_decompositionD 1 (blockD (-600)) zerosD zerosD zerosD = some R ∧
      R.2 0 = Dbl.scaled 1 (-599) ∧ R.2 1 = Dbl.nan ∧ R.2 2 = Dbl.inf false ∧
      Dbl.le (R.2 0) (R.2 1) = false ∧ Dbl.le (R.2 1) (R.2 2) = false := by
  refine ⟨blockD_underflow_value, ?_⟩
  obtain ⟨R, hR, hout⟩ := Option.map_eq_some'.mp eigenD_underflow
  obtain ⟨-, h0, h1, h2⟩ := outD_entries R _ _ _ _ _ _ _ _ _ _ _ _ hout
  refine ⟨R, hR, h0, h1, h2, ?_, ?_⟩
  · rw [h1]; exact (Dbl.le_nan _).1
  · rw [h1]; exact (Dbl.le_nan _).2

/-- The real numbers the doubles returned for `[[2,0,0],[0,3,4],[0,4,9]]` stand
for. -/
theorem unitD_values :
    Dbl.zero.value = some 0 ∧
    (Dbl.fin true 8056283928194521 (-53)).value = some (-8056283928194521 / 2 ^ 53) ∧
    (Dbl.fin false 8056283928194521 (-54)).value = some (8056283928194521 / 2 ^ 54) ∧
    Dbl.one.value = some 1 ∧
    (Dbl.fin false 8056283928194521 (-53)).value = some (8056283928194521 / 2 ^ 53) ∧
    (Dbl.scaled 2 0).value = some 2 ∧ (Dbl.scaled 11 0).value = some 11 := by
  decide!

/-- The entries of `[[2,0,0],[0,3,4],[0,4,9]]` are finite doubles. -/
theorem blockD_unit_value : HoldsReals 9 (blockD 0) (buf9 2 0 0 0 3 4 0 4 9) := by
  intro i hi
  interval_cases i <;> decide!

/-- Without a pass of the QL loop the run on `[[2,0,0],[0,3,4],[0,4,9]]` in double
arithmetic does not return. -/
theorem eigenD_unit_fuel0 :
    (eigen_decompositionD 0 (blockD 0) zerosD zerosD zerosD).map outD = none := by
  decide!

/-- The numbers returned by the run on `[[2,0,0],[0,3,4],[0,4,9]]` in double
arithmetic: `d = [1, 2, 11]` and the columns `(0,-2s,s)`, `(1,0,0)`, `(0,s,2s)` with
`s = 8056283928194521 * 2^-54`. -/
theorem eigenD_unit_reals :
    ∃ R, eigen_decompositionD 1 (blockD 0) zerosD zerosD zerosD = some R ∧
      HoldsReals 9 R.1 (buf9 0 (-8056283928194521 / 2 ^ 53) (8056283928194521 / 2 ^ 54)
        1 0 0 0 (8056283928194521 / 2 ^ 54) (8056283928194521 / 2 ^ 53)) ∧
      HoldsReals 3 R.2 (buf3 1 2 11) := by
  obtain ⟨R, hR, hout⟩ := Option.map_eq_some'.mp eigenD_unit
  refine ⟨R, hR, ?_, ?_⟩
  · obtain ⟨⟨e0, e1, e2, e3, e4, e5, e6, e7, e8⟩, -⟩ :=
      outD_entries R _ _ _ _ _ _ _ _ _ _ _ _ hout
    intro i hi
    interval_cases i
    · rw [e0]; exact unitD_values.1
    · rw [e1]; exact unitD_values.2.1
    · rw [e2]; exact unitD_values.2.2.1
    · rw [e3]; exact unitD_values.2.2.2.1
    · rw [e4]; exact unitD_values.1
    · rw [e5]; exact unitD_values.1
    · rw [e6]; exact unitD_values.1
    · rw [e7]; exact unitD_values.2.2.1
    · rw [e8]; exact unitD_values.2.2.2.2.1
  · obtain ⟨-, d0, d1, d2⟩ := outD_entries R _ _ _ _ _ _ _ _ _ _ _ _ hout
    intro i hi
    interval_cases i
    · rw [d0]; exact unitD_values.2.2.2.1
    · rw [d1]; exact unitD_values.2.2.2.2.2.1
    · rw [d2]; exact unitD_values.2.2.2.2.2.2

/-- C8, as amended (the input `[[2,0,0],[0,3,4],[0,4,9]]`).  In exact real
arithmetic the run needs exactly one pass of the QL loop (it fails with fuel 0 and
returns with any larger fuel); the result has `d = [1, 2, 11]`, satisfies the
eigen-relation `A V[:,i] = d[i] V[:,i]` for `i = 0, 1, 2` and reconstructs
`A = V diag(d) Vᵀ`.  On doubles the run needs one pass too (it fails with fuel 0
and returns with fuel 1); it returns `d = [1, 2, 11]` and the columns `(0,-2s,s)`,
`(1,0,0)`, `(0,s,2s)` with the double `s = 8056283928194521 * 2^-54`; evaluated
exactly on these numbers the eigen-relation holds, and every entry of
`V diag(d) Vᵀ - A` is at most `1e-15` in absolute value. -/
theorem example_block_matrix (V d e : Nat → ℝ) :
    (eigen_decomposition Real.sqrt 0 (buf9 2 0 0 0 3 4 0 4 9) V d e = none ∧
    ∀ n, ∃ R, eigen_decomposition Real.sqrt (n + 1) (buf9 2 0 0 0 3 4 0 4 9) V d e = some R ∧
      Is3 R.2 1 2 11 ∧
      (∀ r i, r < 3 → i < 3 →
        mulAV (buf9 2 0 0 0 3 4 0 4 9) R.1 r i = R.2 i * ent R.1 r i) ∧
      (∀ r c, r < 3 → c < 3 → recon R.1 R.2 r c = ent (buf9 2 0 0 0 3 4 0 4 9) r c)) ∧
    HoldsReals 9 (blockD 0) (buf9 2 0 0 0 3 4 0 4 9) ∧
    eigen_decompositionD 0 (blockD 0) zerosD zerosD zerosD = none ∧
    ∃ R, eigen_decompositionD 1 (blockD 0) zerosD zerosD zerosD = some R ∧
      HoldsReals 9 R.1 (buf9 0 (-8056283928194521 / 2 ^ 53) (8056283928194521 / 2 ^ 54)
        1 0 0 0 (8056283928194521 / 2 ^ 54) (8056283928194521 / 2 ^ 53)) ∧
      HoldsReals 3 R.2 (buf3 1 2 11) ∧
      (∀ r i, r < 3 → i < 3 →
        mulAV (buf9 2 0 0 0 3 4 0 4 9)
          (buf9 0 (-8056283928194521 / 2 ^ 53) (8056283928194521 / 2 ^ 54)
            1 0 0 0 (8056283928194521 / 2 ^ 54) (8056283928194521 / 2 ^ 53)) r i =
        buf3 (1 : ℚ) 2 11 i *
          ent (buf9 0 (-8056283928194521 / 2 ^ 53) (8056283928194521 / 2 ^ 54)
            1 0 0 0 (8056283928194521 / 2 ^ 54) (8056283928194521 / 2 ^ 53)) r i) ∧
      (∀ r c, r < 3 → c < 3 →
        |recon (buf9 0 (-8056283928194521 / 2 ^ 53) (8056283928194521 / 2 ^ 54)
            1 0 0 0 (8056283928194521 / 2 ^ 54) (8056283928194521 / 2 ^ 53))
          (buf3 (1 : ℚ) 2 11) r c - ent (buf9 (2 : ℚ) 0 0 0 3 4 0 4 9) r c| ≤ 1 / 10 ^ 15) := by
  obtain ⟨R, hR, hV, hd⟩ := eigenD_unit_reals
  refine ⟨eigen_example_core V d e, blockD_unit_value, Option.map_eq_none'.mp eigenD_unit_fuel0,
    R, hR, hV, hd, ?_, ?_⟩
  · intro r i hr hi
    interval_cases r <;> interval_cases i <;>
      norm_num [mulAV, ent, IND3X3, N, buf9, buf3]
  · intro r c hr hc
    interval_cases r <;> interval_cases c <;>
      norm_num [recon, ent, IND3X3, N, buf9, buf3, abs_le]

/-- C8, counterexample.  On doubles the run on `[[2,0,0],[0,3,4],[0,4,9]]` returns
`d = [1, 2, 11]` and the eigenvectors `(0,-2s,s)`, `(1,0,0)`, `(0,s,2s)` with the
double `s = 8056283928194521 * 2^-54`.  The reconstruction does not hold on these
numbers: the entry `(1,1)` of `V diag(d) Vᵀ` is `15 s^2`, which is not `3`. -/
theorem reconstruction_inexact_on_doubles :
    HoldsReals 9 (blockD 0) (buf9 2 0 0 0 3 4 0 4 9) ∧
    ∃ R, eigen_decompositionD 1 (blockD 0) zerosD zerosD zerosD = some R ∧
      HoldsReals 9 R.1 (buf9 0 (-8056283928194521 / 2 ^ 53) (8056283928194521 / 2 ^ 54)
        1 0 0 0 (8056283928194521 / 2 ^ 54) (8056283928194521 / 2 ^ 53)) ∧
      HoldsReals 3 R.2 (buf3 1 2 11) ∧
      recon (buf9 0 (-8056283928194521 / 2 ^ 53) (8056283928194521 / 2 ^ 54)
          1 0 0 0 (8056283928194521 / 2 ^ 54) (8056283928194521 / 2 ^ 53))
        (buf3 (1 : ℚ) 2 11) 1 1 ≠ ent (buf9 (2 : ℚ) 0 0 0 3 4 0 4 9) 1 1 := by
  obtain ⟨R, hR, hV, hd⟩ := eigenD_unit_reals
  refine ⟨blockD_unit_value, R, hR, hV, hd, ?_⟩
  norm_num [recon, ent, IND3X3, N, buf9, buf3]

/-- C16, counterexample.  On doubles a pass on a 2x2 block need not leave
`e[l] = 0` and `d[l] = 0`: for the finite symmetric matrix
`2^-600 * [[2,0,0],[0,3,4],[0,4,9]]` the scan at `l = 1` returns `m = 2 = l + 1`;
in the single rotation both squares of `HYPOT2` underflow, `r = 0`, `s = -inf`,
`c = +inf`, and the closing formula of line 226 gives NaN, so the execution of
the loop body leaves `e[1]` and `d[1]` NaN.  The test of line 232 is then false
and the loop still ends after this one pass. -/
theorem block2_pass_leaves_nan_on_doubles :
    HoldsReals 9 (blockD (-600)) (fun i => buf9 2 0 0 0 3 4 0 4 9 i / 2 ^ 600) ∧
    ∃ q, (1, q) ∈ tql2ScanStatesD 1
        (tred2D (Bufs.mk (copyMatrixD (blockD (-600)) zerosD) zerosD zerosD)) ∧
      tql2ScanD q.e (MAXD q.tst1 (fabs (q.d 1) + fabs (q.e 1))) (N - 1) 1 = 1 + 1 ∧
      (tql2StepD 1 (1 + 1)
        (QL.mk q.V q.d q.e q.f (MAXD q.tst1 (fabs (q.d 1) + fabs (q.e 1))))).e 1 = Dbl.nan ∧
      (tql2StepD 1 (1 + 1)
        (QL.mk q.V q.d q.e q.f (MAXD q.tst1 (fabs (q.d 1) + fabs (q.e 1))))).d 1 = Dbl.nan ∧
      Dbl.lt (epsD * (tql2StepD 1 (1 + 1)
          (QL.mk q.V q.d q.e q.f (MAXD q.tst1 (fabs (q.d 1) + fabs (q.e 1))))).tst1)
        (fabs ((tql2StepD 1 (1 + 1)
          (QL.mk q.V q.d q.e q.f (MAXD q.tst1 (fabs (q.d 1) + fabs (q.e 1))))).e 1)) =
        false := by
  refine ⟨blockD_underflow_value, ?_⟩
  obtain ⟨lq, hlq, hf⟩ := Option.map_eq_some'.mp scanD_underflow
  simp only [Prod.mk.injEq] at hf
  obtain ⟨h1, h2, h3, h4, h5⟩ := hf
  have hmem := List.getElem?_mem hlq
  have hlq' : lq = (1, lq.2) := Prod.ext h1 rfl
  rw [hlq'] at hmem
  exact ⟨lq.2, hmem, h2, h3, h4, h5⟩

end Eig3
